import Mathlib

/-!
Verification of the cppmemo repository (cppmemo.hpp and fcmm/fcmm.hpp).

The development is a shallow embedding of the C++ sources:

* Section 1 embeds the numeric helpers of `fcmm.hpp` (`fcmmIsPrime`,
  `fcmmNextPrime`, the submap capacity schedule, the double-hashing probe
  sequence).  The `while` loop of `fcmmNextPrime` is embedded by its
  denotation: the first `m + 2*k` passing `fcmmIsPrime`, obtained through
  `Nat.find` on an existence proof (Euclid).
* Section 2 embeds the data structures of `fcmm.hpp` (buckets, submaps,
  `Submap::find`, `Submap::insert`, `Fcmm::findHelper`, `Fcmm::find`,
  `Fcmm::at`, `Fcmm::expand`) in a sequential (single-threaded) semantics:
  the atomics become plain fields, a successful compare-exchange is the
  sequential write, and the bounded probe loops are driven by a fuel equal
  to the capacity (a full cycle).  `float` load factors are embedded as
  rationals.
* Section 3 embeds the memoization driver of `cppmemo.hpp`
  (`ThreadItemsStack`, `PrerequisitesProvider`, `PrerequisitesGatherer`,
  `CppMemo::run`, `CppMemo::getValue`) as a single-threaded (thread 0)
  small-step loop with fuel.  The user `Compute` callable is embedded in
  the canonical pure form required by the specification: a fixed
  prerequisite list `pre k` and a combining function `f k` applied to the
  prerequisite values, so `compute k provider = f k ((pre k).map provider)`.
  The `Fcmm` values map, as used by the driver, is embedded as an
  append-only association list whose insert keeps the first value for a
  key (the sequential behaviour of `Fcmm::insert`).  A log records every
  invocation of the user `Compute` function together with its mode.
-/

namespace Cppmemo

/-! ## Section 1: numeric helpers of fcmm.hpp -/

/-- Embedding of the loop of `fcmmIsPrime` (fcmm.hpp, lines 90-104).
`divisor` starts at 3 and increases by 2; the C++ computes
`quotient = n / divisor` once per iteration. -/
def fcmmIsPrimeAux (n : Nat) (divisor : Nat) : Bool :=
  if h1 : n / divisor < divisor then true
  else if n = n / divisor * divisor then false
  else fcmmIsPrimeAux n (divisor + 2)
termination_by n + 1 - divisor
decreasing_by
  have hd : divisor ≤ n / divisor := Nat.le_of_not_lt h1
  have hn : divisor ≤ n := Nat.le_trans hd (Nat.div_le_self n divisor)
  omega

/-- `fcmmIsPrime` of fcmm.hpp: the trial-division loop started at divisor 3. -/
def fcmmIsPrime (n : Nat) : Bool := fcmmIsPrimeAux n 3

theorem fcmmIsPrimeAux_of_prime (n d : Nat) (hp : Nat.Prime n) (h3 : 3 ≤ d) :
    fcmmIsPrimeAux n d = true := by
  rw [fcmmIsPrimeAux]
  split
  · rfl
  next h1 =>
    split
    next h2 =>
      exfalso
      have hdvd : d ∣ n := ⟨n / d, by rw [Nat.mul_comm]; exact h2⟩
      rcases hp.eq_one_or_self_of_dvd d hdvd with h | h
      · omega
      · have h2le := hp.two_le
        have hself : n / n = 1 := Nat.div_self (by omega)
        rw [h, hself] at h1
        omega
    next h2 =>
      exact fcmmIsPrimeAux_of_prime n (d + 2) hp (by omega)
termination_by n + 1 - d
decreasing_by
  have hd : d ≤ n / d := Nat.le_of_not_lt (by assumption)
  have hn : d ≤ n := Nat.le_trans hd (Nat.div_le_self n d)
  omega

theorem prime_of_fcmmIsPrimeAux (n d : Nat) (hodd : n % 2 = 1) (hn : 3 ≤ n)
    (h3 : 3 ≤ d) (hdodd : d % 2 = 1)
    (hprev : ∀ m, 3 ≤ m → m < d → m % 2 = 1 → ¬ m ∣ n)
    (htrue : fcmmIsPrimeAux n d = true) : Nat.Prime n := by
  rw [fcmmIsPrimeAux] at htrue
  split at htrue
  next h1 =>
    by_contra hnp
    have hpos : 0 < n := by omega
    have hsq := Nat.minFac_sq_le_self hpos hnp
    have hpp : Nat.Prime n.minFac := Nat.minFac_prime (by omega)
    have hpdvd : n.minFac ∣ n := Nat.minFac_dvd n
    have hlt : n < d * d := (Nat.div_lt_iff_lt_mul (by omega)).mp h1
    have hsq' : n.minFac * n.minFac ≤ n := by
      have := hsq
      rwa [pow_two] at this
    have hpd : n.minFac < d := by
      by_contra hge
      have hle : d ≤ n.minFac := Nat.le_of_not_lt hge
      have hdd : d * d ≤ n.minFac * n.minFac := Nat.mul_le_mul hle hle
      exact absurd (Nat.lt_of_lt_of_le hlt (Nat.le_trans hdd hsq')) (lt_irrefl n)
    have hp2 : 2 ≤ n.minFac := hpp.two_le
    have hpodd : n.minFac % 2 = 1 := by
      rcases hpp.eq_two_or_odd with h | h
      · exfalso
        rw [h] at hpdvd
        have := Nat.mod_eq_zero_of_dvd hpdvd
        omega
      · exact h
    exact hprev n.minFac (by omega) hpd hpodd hpdvd
  next h1 =>
    split at htrue
    · exact absurd htrue (by simp)
    next h2 =>
      apply prime_of_fcmmIsPrimeAux n (d + 2) hodd hn (by omega) (by omega) _ htrue
      intro m hm3 hmlt hmodd
      rcases Nat.lt_or_ge m d with h | h
      · exact hprev m hm3 h hmodd
      · have hmd : m = d := by omega
        subst hmd
        intro hdvd
        exact h2 ((Nat.div_mul_cancel hdvd).symm)
termination_by n + 1 - d
decreasing_by
  have hd : d ≤ n / d := Nat.le_of_not_lt (by assumption)
  have hn' : d ≤ n := Nat.le_trans hd (Nat.div_le_self n d)
  omega

theorem fcmmIsPrime_iff (n : Nat) (hodd : n % 2 = 1) (hn : 3 ≤ n) :
    fcmmIsPrime n = true ↔ Nat.Prime n := by
  constructor
  · intro h
    exact prime_of_fcmmIsPrimeAux n 3 hodd hn (by omega) (by omega)
      (fun m hm3 hmlt _ => by omega) h
  · intro h
    exact fcmmIsPrimeAux_of_prime n 3 h (by omega)

theorem exists_fcmmIsPrime_step (n : Nat) (hodd : n % 2 = 1) (hn : 3 ≤ n) :
    ∃ k, fcmmIsPrime (n + 2 * k) = true := by
  obtain ⟨p, hnp, hp⟩ := Nat.exists_infinite_primes n
  have hp2 : 2 ≤ p := hp.two_le
  have hpodd : p % 2 = 1 := by
    rcases hp.eq_two_or_odd with h | h
    · omega
    · exact h
  refine ⟨(p - n) / 2, ?_⟩
  have heq : n + 2 * ((p - n) / 2) = p := by omega
  rw [heq]
  exact (fcmmIsPrime_iff p hpodd (by omega)).mpr hp

/-- `fcmmNextPrime` of fcmm.hpp (lines 111-125).  The C++ `while
(!fcmmIsPrime(n)) n += 2;` is embedded by its denotation: the first value
`m + 2*k` on which `fcmmIsPrime` holds, where `m` is `n` made odd. -/
def fcmmNextPrime (n : Nat) : Nat :=
  if h : n ≤ 2 then 2
  else if h2 : n % 2 = 0 then
    n + 1 + 2 * Nat.find (exists_fcmmIsPrime_step (n + 1) (by omega) (by omega))
  else
    n + 2 * Nat.find (exists_fcmmIsPrime_step n (by omega) (by omega))

theorem fcmmNextPrime_prime (n : Nat) : Nat.Prime (fcmmNextPrime n) := by
  rw [fcmmNextPrime]
  split
  · exact Nat.prime_two
  next h =>
    split
    next h2 =>
      have hfind := Nat.find_spec (exists_fcmmIsPrime_step (n + 1) (by omega) (by omega))
      exact (fcmmIsPrime_iff _ (by omega) (by omega)).mp hfind
    next h2 =>
      have hfind := Nat.find_spec (exists_fcmmIsPrime_step n (by omega) (by omega))
      exact (fcmmIsPrime_iff _ (by omega) (by omega)).mp hfind

/-- Capacity of the first submap (fcmm.hpp, lines 780-782).  The `float`
expression `FCMM_FIRST_SUBMAP_CAPACITY_MULTIPLIER * estimatedNumEntries /
maxLoadFactor`, truncated to `std::size_t`, is taken as an arbitrary
natural-number input `e`; the result is prime for every `e`. -/
def firstSubmapCapacity (e : Nat) : Nat := max 65537 (fcmmNextPrime e)

/-- Capacity of the `k`-th submap: `expand` (fcmm.hpp, line 663) creates the
next submap with capacity `fcmmNextPrime(lastCapacity * 8)`. -/
def submapCapacity (e : Nat) : Nat → Nat
  | 0 => firstSubmapCapacity e
  | k + 1 => fcmmNextPrime (submapCapacity e k * 8)

theorem prime_65537 : Nat.Prime 65537 := by norm_num

/-- `Submap::calculateProbeIncrement` (fcmm.hpp, lines 363-366). -/
def calculateProbeIncrement (capacity h2 : Nat) : Nat := 1 + h2 % (capacity - 1)

/-- The index visited by the `i`-th probe: start index `h1 % capacity`,
step `index = (index + probeIncrement) % capacity` (fcmm.hpp, lines 380,
406). -/
def probeSeq (capacity h1 h2 : Nat) : Nat → Nat
  | 0 => h1 % capacity
  | i + 1 => (probeSeq capacity h1 h2 i + calculateProbeIncrement capacity h2) % capacity

theorem probeSeq_eq (c h1 h2 i : Nat) :
    probeSeq c h1 h2 i = (h1 + i * calculateProbeIncrement c h2) % c := by
  induction i with
  | zero => simp [probeSeq]
  | succ i ih =>
    rw [probeSeq, ih, Nat.mod_add_mod]
    congr 1
    ring

theorem calculateProbeIncrement_bounds (c h2 : Nat) (hc : 2 ≤ c) :
    1 ≤ calculateProbeIncrement c h2 ∧ calculateProbeIncrement c h2 ≤ c - 1 := by
  constructor
  · simp [calculateProbeIncrement]
  · have := Nat.mod_lt h2 (show 0 < c - 1 by omega)
    simp only [calculateProbeIncrement]
    omega

theorem increment_coprime (c h2 : Nat) (hc : Nat.Prime c) :
    Nat.Coprime c (calculateProbeIncrement c h2) := by
  obtain ⟨hlo, hhi⟩ := calculateProbeIncrement_bounds c h2 hc.two_le
  refine hc.coprime_iff_not_dvd.mpr ?_
  intro hdvd
  have := Nat.le_of_dvd (by omega) hdvd
  omega

/-- C4: with a prime capacity, the double-hashing probe sequence starting at
`h1 % capacity` with increment `1 + h2 % (capacity - 1)` has its increment
in `[1, capacity-1]`, visits every bucket index exactly once in the first
`capacity` probes (the map `i ↦ (h1 + i * increment) % capacity` is
injective and surjective on `[0, capacity)`), and returns to the start
index after exactly `capacity` steps. -/
theorem probe_sequence_bijective (c h1 h2 : Nat) (hc : Nat.Prime c) :
    (1 ≤ calculateProbeIncrement c h2 ∧ calculateProbeIncrement c h2 ≤ c - 1) ∧
    (∀ i < c, ∀ j < c, probeSeq c h1 h2 i = probeSeq c h1 h2 j → i = j) ∧
    (∀ t < c, ∃ i < c, probeSeq c h1 h2 i = t) ∧
    probeSeq c h1 h2 c = probeSeq c h1 h2 0 := by
  have hc2 : 2 ≤ c := hc.two_le
  have hcop : Nat.Coprime c (calculateProbeIncrement c h2) := increment_coprime c h2 hc
  have hinj : ∀ i < c, ∀ j < c, probeSeq c h1 h2 i = probeSeq c h1 h2 j → i = j := by
    intro i hi j hj hij
    rw [probeSeq_eq, probeSeq_eq] at hij
    have hmod : Nat.ModEq c (h1 + i * calculateProbeIncrement c h2)
        (h1 + j * calculateProbeIncrement c h2) := hij
    have hmul : Nat.ModEq c (i * calculateProbeIncrement c h2)
        (j * calculateProbeIncrement c h2) :=
      (Nat.ModEq.refl h1).add_left_cancel hmod
    have hij' : Nat.ModEq c i j := Nat.ModEq.cancel_right_of_coprime hcop hmul
    have : i % c = j % c := hij'
    rwa [Nat.mod_eq_of_lt hi, Nat.mod_eq_of_lt hj] at this
  refine ⟨calculateProbeIncrement_bounds c h2 hc2, hinj, ?_, ?_⟩
  · intro t ht
    have hmaps : ∀ a, a ∈ Finset.range c → probeSeq c h1 h2 a ∈ Finset.range c := by
      intro a _
      rw [Finset.mem_range, probeSeq_eq]
      exact Nat.mod_lt _ (by omega)
    have hsurj := @Finset.surj_on_of_inj_on_of_card_le Nat Nat
      (Finset.range c) (Finset.range c)
      (fun a _ => probeSeq c h1 h2 a)
      (fun a ha => hmaps a ha)
      (fun a₁ a₂ ha₁ ha₂ heq =>
        hinj a₁ (Finset.mem_range.mp ha₁) a₂ (Finset.mem_range.mp ha₂) heq)
      (le_refl _)
    obtain ⟨a, ha, hat⟩ := hsurj t (Finset.mem_range.mpr ht)
    exact ⟨a, Finset.mem_range.mp ha, hat.symm⟩
  · rw [probeSeq_eq, probeSeq_eq, Nat.zero_mul, Nat.add_zero, Nat.add_mul_mod_self_left]

theorem probe_sequence_bijective_witness :
    (1 ≤ calculateProbeIncrement 5 3 ∧ calculateProbeIncrement 5 3 ≤ 5 - 1) ∧
    (∀ i < 5, ∀ j < 5, probeSeq 5 2 3 i = probeSeq 5 2 3 j → i = j) ∧
    (∀ t < 5, ∃ i < 5, probeSeq 5 2 3 i = t) ∧
    probeSeq 5 2 3 5 = probeSeq 5 2 3 0 :=
  probe_sequence_bijective 5 2 3 (by norm_num)

/-- C8: every submap capacity in the schedule is prime — the first capacity
is `max(65537, nextPrime e)` (with 65537 itself prime) and each later one
is `nextPrime(previous * 8)`, and `fcmmNextPrime` always returns a prime —
so for every submap the double-hashing increment is coprime with the
capacity. -/
theorem submapCapacity_prime (e k : Nat) :
    Nat.Prime (submapCapacity e k) ∧ Nat.Prime 65537 ∧
    ∀ h2 : Nat, Nat.Coprime (submapCapacity e k)
      (calculateProbeIncrement (submapCapacity e k) h2) := by
  have hp : Nat.Prime (submapCapacity e k) := by
    induction k with
    | zero =>
      simp only [submapCapacity, firstSubmapCapacity]
      rcases Nat.le_total 65537 (fcmmNextPrime e) with h | h
      · rw [Nat.max_eq_right h]
        exact fcmmNextPrime_prime e
      · rw [Nat.max_eq_left h]
        exact prime_65537
    | succ k ih =>
      exact fcmmNextPrime_prime _
  exact ⟨hp, prime_65537, fun h2 => increment_coprime _ h2 hp⟩

/-! ## Section 2: the concurrent map of fcmm.hpp, sequential semantics

The atomic `state` of a bucket becomes a plain field; a successful
compare-exchange on an `EMPTY` bucket is the sequential write.  The `float`
maximum load factor is embedded as a fraction `mlfNum / mlfDen` and the
comparison `(float) numValidBuckets / capacity >= maxLoadFactor` as the
cross-multiplied `numValidBuckets * mlfDen >= mlfNum * capacity`.  The
bounded probe loops (`do { ... } while (index != startIndex)`) are driven
by a fuel initialised to the capacity, which the cycle length never
exceeds. -/

variable {K V : Type}

/-- The tri-state of `Fcmm::Bucket` (fcmm.hpp, lines 271-281). -/
inductive BucketState where
  | empty
  | busy
  | valid
deriving DecidableEq, Repr

/-- `Fcmm::Bucket`: a state and an `Entry = (Key, Value)` payload. -/
structure Bucket (K V : Type) where
  state : BucketState
  entry : K × V

/-- A default-constructed bucket: state `EMPTY`, default-constructed entry. -/
def Bucket.init [Inhabited K] [Inhabited V] : Bucket K V :=
  ⟨.empty, (default, default)⟩

/-- `Fcmm::Submap` (fcmm.hpp, lines 286-556): a bucket vector, the maximum
load factor (as a fraction) and the valid-bucket counter. -/
structure Submap (K V : Type) where
  buckets : List (Bucket K V)
  mlfNum : Nat
  mlfDen : Nat
  numValidBuckets : Nat

/-- `Submap::Submap(capacity, maxLoadFactor)`: `capacity`
default-constructed buckets, zero valid buckets. -/
def Submap.new [Inhabited K] [Inhabited V] (capacity : Nat) (mlfNum mlfDen : Nat) :
    Submap K V :=
  ⟨List.replicate capacity Bucket.init, mlfNum, mlfDen, 0⟩

/-- `Submap::getCapacity()` is `buckets.size()`. -/
def Submap.getCapacity (sm : Submap K V) : Nat := sm.buckets.length

/-- `Submap::getBucket(index)`. -/
def Submap.getBucket [Inhabited K] [Inhabited V] (sm : Submap K V) (index : Nat) :
    Bucket K V :=
  sm.buckets.getD index Bucket.init

/-- `Submap::isOverloaded()` (fcmm.hpp, lines 535-537). -/
def Submap.isOverloaded (sm : Submap K V) : Bool :=
  decide (sm.mlfNum * sm.getCapacity ≤ sm.numValidBuckets * sm.mlfDen)

/-- The probe loop of `Submap::find` (fcmm.hpp, lines 378-413).  Each
iteration examines the bucket at `index`: a `VALID` bucket with an equal
key is a hit, an `EMPTY` bucket means the key is absent, otherwise probing
continues until the next index returns to `start`. -/
def Submap.findProbe [DecidableEq K] [Inhabited K] [Inhabited V]
    (sm : Submap K V) (key : K) (inc start : Nat) : Nat → Nat → Option Nat
  | 0, _ => none
  | fuel + 1, index =>
    if (sm.getBucket index).state = .valid ∧ (sm.getBucket index).entry.1 = key then
      some index
    else if (sm.getBucket index).state = .empty then none
    else if (index + inc) % sm.getCapacity = start then none
    else Submap.findProbe sm key inc start fuel ((index + inc) % sm.getCapacity)

/-- `Submap::find(key, hash1, hash2)`. -/
def Submap.find [DecidableEq K] [Inhabited K] [Inhabited V]
    (sm : Submap K V) (key : K) (h1 h2 : Nat) : Option Nat :=
  Submap.findProbe sm key (calculateProbeIncrement sm.getCapacity h2)
    (h1 % sm.getCapacity) sm.getCapacity (h1 % sm.getCapacity)

/-- The probe loop of `Submap::insert` (fcmm.hpp, lines 467-530), sequential
semantics: on an `EMPTY` bucket the compare-exchange succeeds, the entry is
written and published `VALID` and the valid counter incremented; on a
`VALID` bucket with an equal key the insertion is prevented; otherwise
probing continues.  `none` is the `FullSubmapException` thrown after a full
cycle. -/
def Submap.insertProbe [DecidableEq K] [Inhabited K] [Inhabited V]
    (sm : Submap K V) (key : K) (f : K → V) (inc start : Nat) :
    Nat → Nat → Option (Submap K V × Nat × Bool)
  | 0, _ => none
  | fuel + 1, index =>
    if (sm.getBucket index).state = .empty then
      some ({ sm with
                buckets := sm.buckets.set index ⟨.valid, (key, f key)⟩,
                numValidBuckets := sm.numValidBuckets + 1 },
            index, true)
    else if (sm.getBucket index).state = .valid ∧ (sm.getBucket index).entry.1 = key then
      some (sm, index, false)
    else if (index + inc) % sm.getCapacity = start then none
    else Submap.insertProbe sm key f inc start fuel ((index + inc) % sm.getCapacity)

/-- `Submap::insert(key, hash1, hash2, computeValue)`. -/
def Submap.insert [DecidableEq K] [Inhabited K] [Inhabited V]
    (sm : Submap K V) (key : K) (h1 h2 : Nat) (f : K → V) :
    Option (Submap K V × Nat × Bool) :=
  Submap.insertProbe sm key f (calculateProbeIncrement sm.getCapacity h2)
    (h1 % sm.getCapacity) sm.getCapacity (h1 % sm.getCapacity)

/-- The default submap used for out-of-range accesses of the submap vector
(which never occur on live indices). -/
def defaultSubmap : Submap K V := ⟨[], 0, 1, 0⟩

/-- Access to `submaps[index]` (the live prefix of the `unique_ptr` vector). -/
def getSubmapD (submaps : List (Submap K V)) (index : Nat) : Submap K V :=
  submaps.getD index defaultSubmap

/-- `Fcmm::findHelper` (fcmm.hpp, lines 687-699): scan the submaps from
`lastSubmapIndex` down to 0, returning the first hit as a pair
(submap index, bucket index). -/
def findHelper [DecidableEq K] [Inhabited K] [Inhabited V]
    (submaps : List (Submap K V)) (key : K) (h1 h2 : Nat) :
    Nat → Option (Nat × Nat)
  | 0 =>
    match (getSubmapD submaps 0).find key h1 h2 with
    | some b => some (0, b)
    | none => none
  | i + 1 =>
    match (getSubmapD submaps (i + 1)).find key h1 h2 with
    | some b => some (i + 1, b)
    | none => findHelper submaps key h1 h2 i

/-- The `Fcmm` map (fcmm.hpp, lines 226-1153), sequential state: the live
submaps (the prefix `[0, numSubmaps)` of the `unique_ptr` vector, so
`numSubmaps` is the length of this list), the fixed maximum number of
submaps, the entry counter, and the `expanding` flag. -/
structure Fcmm (K V : Type) where
  hash1 : K → Nat
  hash2 : K → Nat
  mlfNum : Nat
  mlfDen : Nat
  maxNumSubmaps : Nat
  submaps : List (Submap K V)
  numEntries : Nat
  expanding : Bool

/-- `Fcmm::getNumSubmaps()`. -/
def Fcmm.getNumSubmaps (m : Fcmm K V) : Nat := m.submaps.length

/-- `Fcmm::getLastSubmapIndex()`. -/
def Fcmm.getLastSubmapIndex (m : Fcmm K V) : Nat := m.getNumSubmaps - 1

/-- `Fcmm::find(key)` (fcmm.hpp, lines 797-799). -/
def Fcmm.find [DecidableEq K] [Inhabited K] [Inhabited V]
    (m : Fcmm K V) (key : K) : Option (Nat × Nat) :=
  findHelper m.submaps key (m.hash1 key) (m.hash2 key) m.getLastSubmapIndex

/-- `Fcmm::at(key)` (fcmm.hpp, lines 808-814): `find`, then either the found
entry's value or a thrown `std::out_of_range` (embedded as `.error ()`). -/
def Fcmm.at [DecidableEq K] [Inhabited K] [Inhabited V]
    (m : Fcmm K V) (key : K) : Except Unit V :=
  match m.find key with
  | none => .error ()
  | some (i, b) => .ok ((getSubmapD m.submaps i).getBucket b).entry.2

/-- `PrerequisitesProvider::operator()` in `NORMAL` mode (cppmemo.hpp,
lines 426-428): it evaluates `(*values)[key]`, i.e. `Fcmm::operator[]`,
i.e. `Fcmm::at` — a `const` call that cannot modify the map. -/
def providerNormalCall [DecidableEq K] [Inhabited K] [Inhabited V]
    (m : Fcmm K V) (key : K) : Except Unit V :=
  Fcmm.at m key

/-- `Fcmm::expand` (fcmm.hpp, lines 641-674), sequential semantics: the
spin-acquire of the `expanding` flag succeeds (single-threaded), then
either the maximum number of submaps is reached and a `std::runtime_error`
is thrown (embedded as `.error ()`) — note that this path does NOT clear
the flag — or a new submap is appended if the last one is still
overloaded, and the flag is cleared. -/
def Fcmm.expand [Inhabited K] [Inhabited V] (m : Fcmm K V) :
    Fcmm K V × Except Unit Bool :=
  let m1 : Fcmm K V := { m with expanding := true }
  let snapshot := m1.getNumSubmaps
  if snapshot = m1.maxNumSubmaps then
    (m1, .error ())
  else
    let lastSubmap := getSubmapD m1.submaps (snapshot - 1)
    if lastSubmap.isOverloaded then
      let newCapacity := fcmmNextPrime (lastSubmap.getCapacity * 8)
      ({ m1 with
           submaps := m1.submaps ++ [Submap.new newCapacity m1.mlfNum m1.mlfDen],
           expanding := false },
       .ok true)
    else
      ({ m1 with expanding := false }, .ok false)

/-! ### Theorems about `findHelper` and `Fcmm::find` (claim C2) -/

theorem findHelper_none_iff [DecidableEq K] [Inhabited K] [Inhabited V]
    (submaps : List (Submap K V)) (key : K) (h1 h2 : Nat) :
    ∀ last, findHelper submaps key h1 h2 last = none ↔
      ∀ i ≤ last, (getSubmapD submaps i).find key h1 h2 = none := by
  intro last
  induction last with
  | zero =>
    cases h : (getSubmapD submaps 0).find key h1 h2 with
    | some b =>
      rw [findHelper, h]
      constructor
      · intro hc
        exact absurd hc (by simp)
      · intro hall
        have h0 := hall 0 (le_refl 0)
        rw [h] at h0
        exact absurd h0 (by simp)
    | none =>
      rw [findHelper, h]
      constructor
      · intro _ i hi
        have : i = 0 := by omega
        rw [this]
        exact h
      · intro _
        rfl
  | succ l ih =>
    cases h : (getSubmapD submaps (l + 1)).find key h1 h2 with
    | some b =>
      rw [findHelper, h]
      constructor
      · intro hc
        exact absurd hc (by simp)
      · intro hall
        have h0 := hall (l + 1) (le_refl _)
        rw [h] at h0
        exact absurd h0 (by simp)
    | none =>
      rw [findHelper, h, ih]
      constructor
      · intro hall i hi
        rcases Nat.lt_or_ge i (l + 1) with hlt | hge
        · exact hall i (by omega)
        · have : i = l + 1 := by omega
          rw [this]
          exact h
      · intro hall i hi
        exact hall i (by omega)

theorem findHelper_some [DecidableEq K] [Inhabited K] [Inhabited V]
    (submaps : List (Submap K V)) (key : K) (h1 h2 : Nat) :
    ∀ last i b, findHelper submaps key h1 h2 last = some (i, b) →
      i ≤ last ∧ (getSubmapD submaps i).find key h1 h2 = some b ∧
      ∀ j, i < j → j ≤ last → (getSubmapD submaps j).find key h1 h2 = none := by
  intro last
  induction last with
  | zero =>
    intro i b hres
    cases h : (getSubmapD submaps 0).find key h1 h2 with
    | some b' =>
      rw [findHelper, h] at hres
      simp only [Option.some.injEq, Prod.mk.injEq] at hres
      obtain ⟨hi, hb⟩ := hres
      subst hi; subst hb
      exact ⟨le_refl 0, h, fun j hj1 hj2 => by omega⟩
    | none =>
      rw [findHelper, h] at hres
      exact absurd hres (by simp)
  | succ l ih =>
    intro i b hres
    cases h : (getSubmapD submaps (l + 1)).find key h1 h2 with
    | some b' =>
      rw [findHelper, h] at hres
      simp only [Option.some.injEq, Prod.mk.injEq] at hres
      obtain ⟨hi, hb⟩ := hres
      subst hi; subst hb
      exact ⟨le_refl _, h, fun j hj1 hj2 => by omega⟩
    | none =>
      rw [findHelper, h] at hres
      obtain ⟨h1le, hfind, hnone⟩ := ih i b hres
      refine ⟨by omega, hfind, ?_⟩
      intro j hj1 hj2
      rcases Nat.lt_or_ge j (l + 1) with hlt | hge
      · exact hnone j hj1 (by omega)
      · have : j = l + 1 := by omega
        rw [this]
        exact h

/-- C2: `Fcmm::find` scans the submaps from `numSubmaps - 1` down to 0 and
returns the first hit, i.e. the occurrence in the highest-indexed live
submap whose `Submap::find` locates the key (the latest-discovered
occurrence), and it reports the key absent if and only if no live submap's
`find` locates the key. -/
theorem fcmm_find_freshest [DecidableEq K] [Inhabited K] [Inhabited V]
    (m : Fcmm K V) (key : K) (hpos : 0 < m.submaps.length) :
    (Fcmm.find m key = none ↔
      ∀ i < m.submaps.length,
        (getSubmapD m.submaps i).find key (m.hash1 key) (m.hash2 key) = none) ∧
    (∀ i b, Fcmm.find m key = some (i, b) →
      i < m.submaps.length ∧
      (getSubmapD m.submaps i).find key (m.hash1 key) (m.hash2 key) = some b ∧
      ∀ j, i < j → j < m.submaps.length →
        (getSubmapD m.submaps j).find key (m.hash1 key) (m.hash2 key) = none) := by
  constructor
  · rw [Fcmm.find, findHelper_none_iff]
    constructor
    · intro hall i hi
      exact hall i (by
        simp only [Fcmm.getLastSubmapIndex, Fcmm.getNumSubmaps]
        omega)
    · intro hall i hi
      exact hall i (by
        simp only [Fcmm.getLastSubmapIndex, Fcmm.getNumSubmaps] at hi
        omega)
  · intro i b hres
    obtain ⟨hle, hfind, hnone⟩ := findHelper_some m.submaps key _ _ _ i b hres
    simp only [Fcmm.getLastSubmapIndex, Fcmm.getNumSubmaps] at hle hnone
    refine ⟨by omega, hfind, ?_⟩
    intro j hj1 hj2
    exact hnone j hj1 (by omega)

/-- A concrete two-submap map: both submaps contain key 7 (values 10 and
20 respectively). -/
def fcmmFindW : Fcmm Nat Nat :=
  { hash1 := fun _ => 0
    hash2 := fun _ => 0
    mlfNum := 3
    mlfDen := 4
    maxNumSubmaps := 128
    submaps :=
      [ ⟨[⟨.valid, (7, 10)⟩, ⟨.empty, (0, 0)⟩], 3, 4, 1⟩,
        ⟨[⟨.valid, (7, 20)⟩, ⟨.empty, (0, 0)⟩], 3, 4, 1⟩ ]
    numEntries := 2
    expanding := false }

theorem fcmm_find_freshest_witness :
    0 < fcmmFindW.submaps.length ∧
    (1 < fcmmFindW.submaps.length ∧
     (getSubmapD fcmmFindW.submaps 1).find 7 (fcmmFindW.hash1 7) (fcmmFindW.hash2 7) =
       some 0 ∧
     ∀ j, 1 < j → j < fcmmFindW.submaps.length →
       (getSubmapD fcmmFindW.submaps j).find 7 (fcmmFindW.hash1 7) (fcmmFindW.hash2 7) =
         none) :=
  ⟨by decide, (fcmm_find_freshest fcmmFindW 7 (by decide)).2 1 0 rfl⟩

/-! ### Theorems about the bucket lifecycle (claim C3) -/

/-- The rank of a bucket state in the lifecycle order EMPTY → BUSY → VALID. -/
def BucketState.rank : BucketState → Nat
  | .empty => 0
  | .busy => 1
  | .valid => 2

/-- Application of one `Submap::insert` call as a state transformer (a full
cycle, i.e. `FullSubmapException`, leaves the submap unchanged). -/
def applyInsert [DecidableEq K] [Inhabited K] [Inhabited V]
    (sm : Submap K V) (op : K × Nat × Nat × (K → V)) : Submap K V :=
  match Submap.insert sm op.1 op.2.1 op.2.2.1 op.2.2.2 with
  | some (sm', _, _) => sm'
  | none => sm

/-- Application of a sequence of `Submap::insert` calls (the only mutating
operations of the map: `find` and iteration are `const`). -/
def applyInserts [DecidableEq K] [Inhabited K] [Inhabited V]
    (sm : Submap K V) (ops : List (K × Nat × Nat × (K → V))) : Submap K V :=
  ops.foldl applyInsert sm

theorem getBucket_set_ne [DecidableEq K] [Inhabited K] [Inhabited V]
    (sm : Submap K V) (index : Nat) (b : Bucket K V) (i : Nat) (h : index ≠ i) :
    (Submap.mk (sm.buckets.set index b) sm.mlfNum sm.mlfDen
      (sm.numValidBuckets + 1)).getBucket i = sm.getBucket i := by
  simp only [Submap.getBucket, List.getD_eq_getElem?_getD]
  rw [List.getElem?_set_ne h]

theorem insertProbe_preserves_valid [DecidableEq K] [Inhabited K] [Inhabited V]
    (sm : Submap K V) (key : K) (f : K → V) (inc start : Nat) :
    ∀ fuel index sm' idx ins,
      Submap.insertProbe sm key f inc start fuel index = some (sm', idx, ins) →
      ∀ i, (sm.getBucket i).state = .valid → sm'.getBucket i = sm.getBucket i := by
  intro fuel
  induction fuel with
  | zero => intro index sm' idx ins h; exact absurd h (by simp [Submap.insertProbe])
  | succ fuel ih =>
    intro index sm' idx ins h i hvalid
    rw [Submap.insertProbe] at h
    split at h
    next hempty =>
      simp only [Option.some.injEq, Prod.mk.injEq] at h
      obtain ⟨hsm, _, _⟩ := h
      have hne : index ≠ i := by
        intro heq
        rw [heq] at hempty
        rw [hvalid] at hempty
        exact absurd hempty (by simp)
      rw [← hsm]
      exact getBucket_set_ne sm index _ i hne
    next =>
      split at h
      next =>
        simp only [Option.some.injEq, Prod.mk.injEq] at h
        obtain ⟨hsm, _, _⟩ := h
        rw [← hsm]
      next =>
        split at h
        · exact absurd h (by simp)
        · exact ih _ sm' idx ins h i hvalid

theorem insertProbe_rank_mono [DecidableEq K] [Inhabited K] [Inhabited V]
    (sm : Submap K V) (key : K) (f : K → V) (inc start : Nat) :
    ∀ fuel index sm' idx ins,
      Submap.insertProbe sm key f inc start fuel index = some (sm', idx, ins) →
      ∀ i, ((sm.getBucket i).state).rank ≤ ((sm'.getBucket i).state).rank := by
  intro fuel
  induction fuel with
  | zero => intro index sm' idx ins h; exact absurd h (by simp [Submap.insertProbe])
  | succ fuel ih =>
    intro index sm' idx ins h i
    rw [Submap.insertProbe] at h
    split at h
    next hempty =>
      simp only [Option.some.injEq, Prod.mk.injEq] at h
      obtain ⟨hsm, _, _⟩ := h
      by_cases hi : index = i
      · subst hi
        rw [hempty]
        simp [BucketState.rank]
      · rw [← hsm, getBucket_set_ne sm index _ i hi]
    next =>
      split at h
      next =>
        simp only [Option.some.injEq, Prod.mk.injEq] at h
        obtain ⟨hsm, _, _⟩ := h
        rw [← hsm]
      next =>
        split at h
        · exact absurd h (by simp)
        · exact ih _ sm' idx ins h i

theorem applyInsert_preserves_valid [DecidableEq K] [Inhabited K] [Inhabited V]
    (sm : Submap K V) (op : K × Nat × Nat × (K → V)) (i : Nat)
    (hvalid : (sm.getBucket i).state = .valid) :
    (applyInsert sm op).getBucket i = sm.getBucket i := by
  rw [applyInsert]
  cases h : Submap.insert sm op.1 op.2.1 op.2.2.1 op.2.2.2 with
  | none => rfl
  | some r =>
    obtain ⟨sm', idx, ins⟩ := r
    exact insertProbe_preserves_valid sm op.1 op.2.2.2 _ _ _ _ sm' idx ins h i hvalid

/-- C3: every bucket of a freshly constructed submap is EMPTY; an insert
never decreases a bucket's state in the lifecycle order
EMPTY → BUSY → VALID; and once a bucket is VALID, any further sequence of
insert operations (find and iteration are `const` and mutate nothing)
leaves both its state and its (key, value) entry unchanged. -/
theorem bucket_lifecycle [DecidableEq K] [Inhabited K] [Inhabited V] :
    (∀ (c num den i : Nat),
      ((@Submap.new K V _ _ c num den).getBucket i).state = .empty) ∧
    (∀ (sm : Submap K V) (op : K × Nat × Nat × (K → V)) (i : Nat),
      ((sm.getBucket i).state).rank ≤ (((applyInsert sm op).getBucket i).state).rank) ∧
    (∀ (sm : Submap K V) (ops : List (K × Nat × Nat × (K → V))) (i : Nat),
      ((applyInserts sm ops).getBucket i).state = .valid →
      ∀ more, (applyInserts sm (ops ++ more)).getBucket i =
        (applyInserts sm ops).getBucket i) := by
  refine ⟨?_, ?_, ?_⟩
  · intro c num den i
    simp only [Submap.new, Submap.getBucket, List.getD_eq_getElem?_getD]
    rcases Nat.lt_or_ge i c with h | h
    · rw [List.getElem?_eq_getElem (by simpa using h), List.getElem_replicate]
      rfl
    · rw [List.getElem?_eq_none (by simpa using h)]
      rfl
  · intro sm op i
    rw [applyInsert]
    cases h : Submap.insert sm op.1 op.2.1 op.2.2.1 op.2.2.2 with
    | none => exact le_refl _
    | some r =>
      obtain ⟨sm', idx, ins⟩ := r
      exact insertProbe_rank_mono sm op.1 op.2.2.2 _ _ _ _ sm' idx ins h i
  · intro sm ops i hvalid more
    rw [applyInserts, List.foldl_append]
    have : ops.foldl applyInsert sm = applyInserts sm ops := rfl
    rw [this]
    clear this
    induction more generalizing sm ops with
    | nil => rfl
    | cons op more ihm =>
      rw [List.foldl_cons]
      have hpres := applyInsert_preserves_valid (applyInserts sm ops) op i hvalid
      have hvalid' : ((applyInserts sm (ops ++ [op])).getBucket i).state = .valid := by
        rw [applyInserts, List.foldl_append]
        simp only [List.foldl_cons, List.foldl_nil]
        rw [show (ops.foldl applyInsert sm) = applyInserts sm ops from rfl, hpres]
        exact hvalid
      have := ihm sm (ops ++ [op]) hvalid'
      rw [applyInserts, List.foldl_append] at this
      simp only [List.foldl_cons, List.foldl_nil] at this
      rw [show (ops.foldl applyInsert sm) = applyInserts sm ops from rfl] at this
      rw [this, hpres]

/-- A concrete submap with one VALID bucket for the C3 witness. -/
def submapW : Submap Nat Nat := ⟨[⟨.valid, (7, 10)⟩, ⟨.empty, (0, 0)⟩], 3, 4, 1⟩

theorem bucket_lifecycle_witness :
    ((applyInserts submapW [(9, 1, 0, fun _ => 99)]).getBucket 0).state = .valid ∧
    (applyInserts submapW ([(9, 1, 0, fun _ => 99)] ++ [(5, 0, 0, fun _ => 55)])).getBucket 0 =
      (applyInserts submapW [(9, 1, 0, fun _ => 99)]).getBucket 0 :=
  ⟨rfl, bucket_lifecycle.2.2 submapW [(9, 1, 0, fun _ => 99)] 0 rfl [(5, 0, 0, fun _ => 55)]⟩

/-! ### Theorems about the NORMAL-mode provider (claim C10) -/

/-- C10: in NORMAL mode the prerequisites provider evaluates
`(*values)[key]`, i.e. the map's checked lookup `Fcmm::at`: for a key the
map does not contain it raises `std::out_of_range` (embedded as
`.error ()`) rather than exhibiting undefined behavior — and, being a
`const` function of the map, it leaves the map unchanged — while for a
present key it returns the stored value of the found bucket. -/
theorem provider_normal_spec [DecidableEq K] [Inhabited K] [Inhabited V]
    (m : Fcmm K V) (key : K) :
    (Fcmm.find m key = none → providerNormalCall m key = .error ()) ∧
    (∀ i b, Fcmm.find m key = some (i, b) →
      providerNormalCall m key =
        .ok ((getSubmapD m.submaps i).getBucket b).entry.2) := by
  constructor
  · intro h
    rw [providerNormalCall, Fcmm.at, h]
  · intro i b h
    rw [providerNormalCall, Fcmm.at, h]

theorem provider_normal_spec_witness :
    providerNormalCall fcmmFindW 9 = .error () ∧
    providerNormalCall fcmmFindW 7 = .ok 20 :=
  ⟨(provider_normal_spec fcmmFindW 9).1 rfl,
   (provider_normal_spec fcmmFindW 7).2 1 0 rfl⟩

/-! ### Theorems about `Fcmm::expand` (claim C6) -/

/-- A concrete map that has reached its maximum number of submaps. -/
def expandFullM : Fcmm Nat Nat :=
  { hash1 := fun _ => 0
    hash2 := fun _ => 0
    mlfNum := 3
    mlfDen := 4
    maxNumSubmaps := 1
    submaps := [⟨[⟨.empty, (0, 0)⟩, ⟨.empty, (0, 0)⟩, ⟨.empty, (0, 0)⟩], 3, 4, 0⟩]
    numEntries := 0
    expanding := false }

/-- C6 counterexample: on the `CapacityExceeded` exit path of
`Fcmm::expand` the `expanding` flag is NOT released — at this concrete map
(whose submap count has reached the maximum) `expand` throws and leaves
the flag set, so a subsequent `expand` call would spin on it forever.
This refutes the part of the claim asserting the flag is released on
every exit path. -/
theorem expand_flag_leak_cex :
    (Fcmm.expand expandFullM).2 = .error () ∧
    (Fcmm.expand expandFullM).1.expanding = true :=
  ⟨rfl, rfl⟩

/-- C6 (amended): `expand` fails with `CapacityExceeded` exactly when the
number of submaps has already reached the maximum — in which case no new
submap is allocated and the submap count is unchanged — and on the two
non-throwing exit paths (expansion performed or skipped) the `expanding`
flag is released; on the throwing path, however, the flag remains set. -/
theorem fcmm_expand_spec [Inhabited K] [Inhabited V] (m : Fcmm K V) :
    ((Fcmm.expand m).2 = .error () ↔ m.submaps.length = m.maxNumSubmaps) ∧
    ((Fcmm.expand m).2 = .error () →
      (Fcmm.expand m).1.submaps = m.submaps ∧ (Fcmm.expand m).1.expanding = true) ∧
    (∀ b, (Fcmm.expand m).2 = .ok b → (Fcmm.expand m).1.expanding = false) ∧
    ((Fcmm.expand m).2 = .ok true →
      (Fcmm.expand m).1.submaps.length = m.submaps.length + 1) ∧
    ((Fcmm.expand m).2 = .ok false → (Fcmm.expand m).1.submaps = m.submaps) := by
  simp only [Fcmm.expand, Fcmm.getNumSubmaps]
  split
  next hfull =>
    refine ⟨by simpa using hfull, fun _ => ⟨rfl, rfl⟩, ?_, ?_, ?_⟩
    · intro b hb
      exact absurd hb (by simp)
    · intro hb
      exact absurd hb (by simp)
    · intro hb
      exact absurd hb (by simp)
  next hnotfull =>
    split
    next hover =>
      refine ⟨by simpa using hnotfull, ?_, ?_, ?_, ?_⟩
      · intro hc
        exact absurd hc (by simp)
      · intro b _
        rfl
      · intro _
        simp
      · intro hc
        simp only [Except.ok.injEq] at hc
        exact absurd hc (by simp)
    next hnotover =>
      refine ⟨by simpa using hnotfull, ?_, ?_, ?_, ?_⟩
      · intro hc
        exact absurd hc (by simp)
      · intro b _
        rfl
      · intro hc
        simp only [Except.ok.injEq] at hc
        exact absurd hc (by simp)
      · intro _
        rfl

/-- A concrete map whose last submap is overloaded and which can still
expand. -/
def expandOkM : Fcmm Nat Nat :=
  { hash1 := fun _ => 0
    hash2 := fun _ => 0
    mlfNum := 3
    mlfDen := 4
    maxNumSubmaps := 2
    submaps := [⟨[⟨.valid, (1, 1)⟩, ⟨.valid, (2, 2)⟩, ⟨.valid, (3, 3)⟩], 3, 4, 3⟩]
    numEntries := 3
    expanding := false }

theorem fcmm_expand_spec_witness :
    ((Fcmm.expand expandFullM).1.submaps = expandFullM.submaps ∧
     (Fcmm.expand expandFullM).1.expanding = true) ∧
    (Fcmm.expand expandOkM).1.expanding = false ∧
    (Fcmm.expand expandOkM).1.submaps.length = expandOkM.submaps.length + 1 :=
  ⟨(fcmm_expand_spec expandFullM).2.1 rfl,
   (fcmm_expand_spec expandOkM).2.2.1 true rfl,
   (fcmm_expand_spec expandOkM).2.2.2.1 rfl⟩

/-! ## Section 3: the memoization driver of cppmemo.hpp, single-threaded

The driver (`CppMemo::run`, cppmemo.hpp lines 476-536) is embedded as a
small-step loop for thread 0 (so `finalizeGroup` performs no reordering).
The user `Compute` callable is embedded in the canonical pure form the
specification requires: a prerequisite list `pre k` and a combining
function `f k` applied to the prerequisite values, i.e.
`compute k provider = f k ((pre k).map provider)`; the `DeclarePrerequisites`
callable declares exactly `pre k`, in order.  The `Fcmm` values map, as
driven by `run` (`find` / `insert` / `emplace` / `operator[]`), behaves
sequentially as an append-only association list whose insert keeps the
existing entry for an already-present key; it is embedded as such a list.
The provider's NORMAL-mode read `(*values)[key]` is embedded as a lookup
with a default for an absent key; the theorems establish that on the
executed paths the key is always present (the throwing behaviour of the
underlying `Fcmm::at` is covered at the fcmm level by
`provider_normal_spec`).  A log records every invocation of the user
`Compute` function: the key, whether it was a dry run, and how many
prerequisites the dry run found missing. -/

/-- `ThreadItemsStack::Item` (cppmemo.hpp, lines 292-295). -/
structure DItem (K : Type) where
  key : K
  ready : Bool

/-- One recorded invocation of the user `Compute` function. -/
structure LogEntry (K : Type) where
  key : K
  dryRun : Bool
  missing : Nat

/-- The errors a run can raise: `CircularDependencyException` carrying the
keys stack bottom-to-top (cppmemo.hpp, lines 211-242, 323-331), and the
`std::runtime_error` of `ThreadItemsStack::pop` on a non-finalized group
(cppmemo.hpp, lines 333-335). -/
inductive DError (K : Type) where
  | circular (keysStack : List K)
  | groupNotFinalized

/-- The driver state of one single-threaded run: the values map (an
association list), the item stack (head of the list = top of the stack),
the cycle-detection key set (`itemsSet`), the current group size, the
`Compute` invocation log, and the instrumentation list of every key ever
pushed. -/
structure DState (K V : Type) where
  memo : List (K × V)
  items : List (DItem K)
  itemsSet : List K
  groupSize : Nat
  log : List (LogEntry K)
  pushed : List K

/-- Association-list lookup (the sequential content of `values.find`). -/
def mlookup [DecidableEq K] : List (K × V) → K → Option V
  | [], _ => none
  | e :: rest, k => if e.1 = k then some e.2 else mlookup rest k

/-- `std::unordered_set` insert. -/
def setInsert [DecidableEq K] (s : List K) (k : K) : List K :=
  if k ∈ s then s else k :: s

/-- `std::unordered_set` erase. -/
def setErase [DecidableEq K] : List K → K → List K
  | [], _ => []
  | a :: rest, k => if a = k then rest else a :: setErase rest k

/-- `ThreadItemsStack::getKeysStack` (cppmemo.hpp, lines 307-314): the keys
of the item stack from bottom to top. -/
def keysBottomTop (items : List (DItem K)) : List K :=
  (items.map DItem.key).reverse

/-- `ThreadItemsStack::push` (cppmemo.hpp, lines 323-331): append the item;
with detection on, if the key is already in the set throw
`CircularDependencyException` carrying the stack snapshot (which includes
the item just pushed); otherwise increment the group size. -/
def pushOne [DecidableEq K] (detect : Bool) (s : DState K V) (k : K) :
    Except (DError K) (DState K V) :=
  if detect then
    if k ∈ s.itemsSet then
      .error (.circular (keysBottomTop (⟨k, false⟩ :: s.items)))
    else
      .ok { s with items := ⟨k, false⟩ :: s.items,
                   pushed := s.pushed ++ [k],
                   groupSize := s.groupSize + 1 }
  else
    .ok { s with items := ⟨k, false⟩ :: s.items,
                 pushed := s.pushed ++ [k],
                 groupSize := s.groupSize + 1 }

/-- Pushing a list of keys in order (the pushes performed by the provider
during a dry run). -/
def pushList [DecidableEq K] (detect : Bool) :
    DState K V → List K → Except (DError K) (DState K V)
  | s, [] => .ok s
  | s, k :: rest =>
    match pushOne detect s k with
    | .error e => .error e
    | .ok s' => pushList detect s' rest

/-- `PrerequisitesGatherer::operator()` applied to each declared
prerequisite in order (cppmemo.hpp, lines 465-469): push exactly the keys
the map does not contain. -/
def gatherList [DecidableEq K] (detect : Bool) :
    DState K V → List K → Except (DError K) (DState K V)
  | s, [] => .ok s
  | s, k :: rest =>
    if (mlookup s.memo k).isNone then
      match pushOne detect s k with
      | .error e => .error e
      | .ok s' => gatherList detect s' rest
    else gatherList detect s rest

/-- `ThreadItemsStack::finalizeGroup` for thread 0 (cppmemo.hpp, lines
344-361): no reordering; with detection on, insert the keys of the last
`groupSize` items into the set; reset the group size. -/
def finalizeGroup [DecidableEq K] (detect : Bool) (s : DState K V) : DState K V :=
  { s with
      itemsSet :=
        if detect then
          ((s.items.take s.groupSize).map DItem.key).foldl setInsert s.itemsSet
        else s.itemsSet,
      groupSize := 0 }

/-- `ThreadItemsStack::pop` (cppmemo.hpp, lines 333-342): a non-finalized
group is a `std::runtime_error`; otherwise remove the top item and, with
detection on, erase its key from the set. -/
def popItem [DecidableEq K] (detect : Bool) (s : DState K V) :
    Except (DError K) (DState K V) :=
  if s.groupSize ≠ 0 then .error .groupNotFinalized
  else
    match s.items with
    | [] => .ok s
    | it :: rest =>
      .ok { s with items := rest,
                   itemsSet := if detect then setErase s.itemsSet it.key
                               else s.itemsSet }

/-- The value the provider returns for a key in NORMAL mode (and during a
dry run: the map's value if present, the default-constructed dummy
otherwise). -/
def normalValue [DecidableEq K] [Inhabited V] (memo : List (K × V)) (p : K) : V :=
  (mlookup memo p).getD default

/-- One iteration of the `while (!stack.empty())` loop of `CppMemo::run`
(cppmemo.hpp, lines 487-534).  `declareMode` is
`providedDeclarePrerequisites`. -/
def dstep [DecidableEq K] [Inhabited V] (pre : K → List K) (f : K → List V → V)
    (declareMode detect : Bool) (s : DState K V) :
    Except (DError K) (DState K V) :=
  match s.items with
  | [] => .ok s
  | item :: rest =>
    if item.ready then
      -- compute-and-publish: values.insert(item.key, compute(·, NORMAL provider)),
      -- whose computeValue callback runs exactly when the key is absent, then pop
      popItem detect
        (if (mlookup s.memo item.key).isNone then
          { s with
              memo := s.memo ++
                [(item.key, f item.key ((pre item.key).map (normalValue s.memo)))],
              log := s.log ++ [⟨item.key, false, 0⟩] }
         else s)
    else
      -- first visit: item.ready = true, then discovery if the map misses the key
      if (mlookup s.memo item.key).isSome then
        .ok { s with items := ⟨item.key, true⟩ :: rest }
      else if declareMode then
        -- declarePrerequisites(itemKey, gatherer); then finalizeGroup
        match gatherList detect { s with items := ⟨item.key, true⟩ :: rest }
                (pre item.key) with
        | .error e => .error e
        | .ok s1 => .ok (finalizeGroup detect s1)
      else
        -- dry-run of compute: the provider pushes the missing prerequisites in
        -- order and returns dummies for them; if none was missing the tentative
        -- value is valid: emplace it and pop; then finalizeGroup
        match pushList detect
                { s with items := ⟨item.key, true⟩ :: rest,
                         log := s.log ++
                           [⟨item.key, true,
                             ((pre item.key).filter
                               (fun p => (mlookup s.memo p).isNone)).length⟩] }
                ((pre item.key).filter (fun p => (mlookup s.memo p).isNone)) with
        | .error e => .error e
        | .ok s2 =>
          if s2.groupSize = 0 then
            match popItem detect
                    { s2 with memo := s2.memo ++
                        [(item.key,
                          f item.key ((pre item.key).map (normalValue s2.memo)))] } with
            | .error e => .error e
            | .ok s4 => .ok (finalizeGroup detect s4)
          else
            .ok (finalizeGroup detect s2)

/-- The outcome of running the loop with a given amount of fuel. -/
inductive RunResult (K V : Type) where
  | done : DState K V → RunResult K V
  | outOfFuel : RunResult K V
  | err : DError K → RunResult K V

/-- The `while (!stack.empty())` loop, fuel-indexed. -/
def runLoop [DecidableEq K] [Inhabited V] (pre : K → List K) (f : K → List V → V)
    (declareMode detect : Bool) : Nat → DState K V → RunResult K V
  | 0, s => if s.items.isEmpty then .done s else .outOfFuel
  | fuel + 1, s =>
    if s.items.isEmpty then .done s
    else
      match dstep pre f declareMode detect s with
      | .error e => .err e
      | .ok s' => runLoop pre f declareMode detect fuel s'

/-- The state of a fresh `CppMemo` before `run` pushes the root. -/
def initialState : DState K V := ⟨[], [], [], 0, [], []⟩

/-- `CppMemo::run(0, key, ...)` on a fresh engine: push the root, finalize
the group, then execute the loop. -/
def runModel [DecidableEq K] [Inhabited V] (pre : K → List K) (f : K → List V → V)
    (declareMode detect : Bool) (root : K) (fuel : Nat) : RunResult K V :=
  match pushOne detect initialState root with
  | .error e => .err e
  | .ok s => runLoop pre f declareMode detect fuel (finalizeGroup detect s)

/-- The value returned by the single-threaded `getValue` on a fresh engine
(cppmemo.hpp, lines 538-574: the fast-path `find` misses on a fresh map,
`run` executes, and `values[key]` is returned): `none` when the loop does
not complete within the fuel. -/
def getValueSingle [DecidableEq K] [Inhabited V] (pre : K → List K)
    (f : K → List V → V) (declareMode detect : Bool) (root : K) (fuel : Nat) :
    Option V :=
  match runModel pre f declareMode detect root fuel with
  | .done s => mlookup s.memo root
  | _ => none

/-- The read-only `getValue(key)` (cppmemo.hpp, lines 716-723): the
memoized value, or a thrown `std::logic_error` (embedded as `.error ()`). -/
def getValueReadOnly [DecidableEq K] (memo : List (K × V)) (key : K) :
    Except Unit V :=
  match mlookup memo key with
  | some v => .ok v
  | none => .error ()

/-! ### Basic lemmas about the driver's helpers -/

theorem mlookup_append_some [DecidableEq K] (m Δ : List (K × V)) (k : K) (v : V)
    (h : mlookup m k = some v) : mlookup (m ++ Δ) k = some v := by
  induction m with
  | nil => exact absurd h (by simp [mlookup])
  | cons e rest ih =>
    rw [mlookup] at h
    rw [List.cons_append, mlookup]
    split at h
    next he => rw [if_pos he]; exact h
    next he => rw [if_neg he]; exact ih h

theorem mlookup_isSome_append [DecidableEq K] (m Δ : List (K × V)) (k : K)
    (h : (mlookup m k).isSome) : (mlookup (m ++ Δ) k).isSome := by
  obtain ⟨v, hv⟩ := Option.isSome_iff_exists.mp h
  rw [mlookup_append_some m Δ k v hv]
  rfl

theorem mlookup_append_self [DecidableEq K] (m : List (K × V)) (k : K) (v : V)
    (h : mlookup m k = none) : mlookup (m ++ [(k, v)]) k = some v := by
  induction m with
  | nil => simp [mlookup]
  | cons e rest ih =>
    rw [mlookup] at h
    rw [List.cons_append, mlookup]
    split at h
    next he => exact absurd h (by simp)
    next he => rw [if_neg he]; exact ih h

theorem pushOne_ok [DecidableEq K] (detect : Bool) (s : DState K V) (k : K)
    (s' : DState K V) (h : pushOne detect s k = .ok s') :
    s'.memo = s.memo ∧ s'.items = ⟨k, false⟩ :: s.items ∧
    s'.itemsSet = s.itemsSet ∧ s'.groupSize = s.groupSize + 1 ∧
    s'.log = s.log ∧ s'.pushed = s.pushed ++ [k] := by
  rw [pushOne] at h
  split at h
  · split at h
    · exact absurd h (by simp)
    · simp only [Except.ok.injEq] at h
      rw [← h]
      exact ⟨rfl, rfl, rfl, rfl, rfl, rfl⟩
  · simp only [Except.ok.injEq] at h
    rw [← h]
    exact ⟨rfl, rfl, rfl, rfl, rfl, rfl⟩

theorem pushList_ok [DecidableEq K] (detect : Bool) :
    ∀ (l : List K) (s s' : DState K V), pushList detect s l = .ok s' →
    s'.memo = s.memo ∧
    s'.items = (l.reverse.map (fun k => (⟨k, false⟩ : DItem K))) ++ s.items ∧
    s'.itemsSet = s.itemsSet ∧ s'.groupSize = s.groupSize + l.length ∧
    s'.log = s.log ∧ s'.pushed = s.pushed ++ l := by
  intro l
  induction l with
  | nil =>
    intro s s' h
    rw [pushList] at h
    simp only [Except.ok.injEq] at h
    rw [← h]
    exact ⟨rfl, by simp, rfl, rfl, rfl, by simp⟩
  | cons k rest ih =>
    intro s s' h
    rw [pushList] at h
    cases hp : pushOne detect s k with
    | error e => rw [hp] at h; exact absurd h (by simp)
    | ok s1 =>
      rw [hp] at h
      obtain ⟨hm, hi, hset, hg, hl, hpu⟩ := pushOne_ok detect s k s1 hp
      obtain ⟨hm', hi', hset', hg', hl', hpu'⟩ := ih s1 s' h
      refine ⟨by rw [hm', hm], ?_, by rw [hset', hset], by rw [hg', hg]; simp; omega,
              by rw [hl', hl], by rw [hpu', hpu]; simp⟩
      rw [hi', hi]
      simp

theorem gatherList_ok [DecidableEq K] (detect : Bool) :
    ∀ (l : List K) (s s' : DState K V), gatherList detect s l = .ok s' →
    s'.memo = s.memo ∧
    s'.items = ((l.filter (fun k => (mlookup s.memo k).isNone)).reverse.map
      (fun k => (⟨k, false⟩ : DItem K))) ++ s.items ∧
    s'.itemsSet = s.itemsSet ∧
    s'.groupSize = s.groupSize + (l.filter (fun k => (mlookup s.memo k).isNone)).length ∧
    s'.log = s.log ∧
    s'.pushed = s.pushed ++ l.filter (fun k => (mlookup s.memo k).isNone) := by
  intro l
  induction l with
  | nil =>
    intro s s' h
    rw [gatherList] at h
    simp only [Except.ok.injEq] at h
    rw [← h]
    exact ⟨rfl, by simp, rfl, by simp, rfl, by simp⟩
  | cons k rest ih =>
    intro s s' h
    rw [gatherList] at h
    split at h
    next habs =>
      cases hp : pushOne detect s k with
      | error e => rw [hp] at h; exact absurd h (by simp)
      | ok s1 =>
        rw [hp] at h
        obtain ⟨hm, hi, hset, hg, hl, hpu⟩ := pushOne_ok detect s k s1 hp
        obtain ⟨hm', hi', hset', hg', hl', hpu'⟩ := ih s1 s' h
        have hfilter : List.filter (fun k => (mlookup s1.memo k).isNone) rest =
            List.filter (fun k => (mlookup s.memo k).isNone) rest := by
          rw [hm]
        rw [List.filter_cons, if_pos habs]
        refine ⟨by rw [hm', hm], ?_, by rw [hset', hset],
                by rw [hg', hfilter, hg]; simp; omega,
                by rw [hl', hl], by rw [hpu', hfilter, hpu]; simp⟩
        rw [hi', hfilter, hi]
        simp
    next habs =>
      obtain ⟨hm', hi', hset', hg', hl', hpu'⟩ := ih s s' h
      rw [List.filter_cons, if_neg habs]
      exact ⟨hm', hi', hset', hg', hl', hpu'⟩

theorem finalizeGroup_fields [DecidableEq K] (detect : Bool) (s : DState K V) :
    (finalizeGroup detect s).memo = s.memo ∧
    (finalizeGroup detect s).items = s.items ∧
    (finalizeGroup detect s).groupSize = 0 ∧
    (finalizeGroup detect s).log = s.log ∧
    (finalizeGroup detect s).pushed = s.pushed :=
  ⟨rfl, rfl, rfl, rfl, rfl⟩

theorem popItem_ok [DecidableEq K] (detect : Bool) (s s' : DState K V)
    (h : popItem detect s = .ok s') :
    s.groupSize = 0 ∧ s'.memo = s.memo ∧ s'.groupSize = s.groupSize ∧
    s'.log = s.log ∧ s'.pushed = s.pushed ∧
    ((s.items = [] ∧ s' = s) ∨
     ∃ it rest, s.items = it :: rest ∧ s'.items = rest ∧
       s'.itemsSet = (if detect then setErase s.itemsSet it.key else s.itemsSet)) := by
  rw [popItem] at h
  split at h
  · exact absurd h (by simp)
  next hg =>
    have hg0 : s.groupSize = 0 := by omega
    split at h
    next hi =>
      simp only [Except.ok.injEq] at h
      exact ⟨hg0, by rw [← h], by rw [← h], by rw [← h], by rw [← h],
             Or.inl ⟨hi, h.symm⟩⟩
    next it rest hi =>
      simp only [Except.ok.injEq] at h
      rw [← h]
      exact ⟨hg0, rfl, rfl, rfl, rfl, Or.inr ⟨it, rest, hi, rfl, rfl⟩⟩

/-! ### Claim C9: every pushed key is memoized at normal completion -/

/-- The invariant: every key ever pushed is either already in the values
map or still sits on the stack. -/
def PushedInv [DecidableEq K] (s : DState K V) : Prop :=
  ∀ k ∈ s.pushed, (mlookup s.memo k).isSome ∨ k ∈ s.items.map DItem.key

theorem dstep_memo_extends [DecidableEq K] [Inhabited V] (pre : K → List K)
    (f : K → List V → V) (declareMode detect : Bool) (s s' : DState K V)
    (h : dstep pre f declareMode detect s = .ok s') :
    ∃ Δ, s'.memo = s.memo ++ Δ := by
  rw [dstep] at h
  split at h
  next =>
    simp only [Except.ok.injEq] at h
    exact ⟨[], by rw [← h]; simp⟩
  next item rest hitems =>
    split at h
    next hready =>
      -- compute-and-publish branch
      split at h
      next habs =>
        obtain ⟨_, hm, _, _, _, _⟩ := popItem_ok detect _ s' h
        exact ⟨_, hm⟩
      next habs =>
        obtain ⟨_, hm, _, _, _, _⟩ := popItem_ok detect _ s' h
        exact ⟨[], by rw [hm]; simp⟩
    next hready =>
      split at h
      next =>
        simp only [Except.ok.injEq] at h
        exact ⟨[], by rw [← h]; simp⟩
      next =>
        split at h
        next =>
          -- declare mode
          split at h
          next e heq => exact absurd h (by simp)
          next s1 heq =>
            simp only [Except.ok.injEq] at h
            obtain ⟨hm, _, _, _, _, _⟩ := gatherList_ok detect _ _ s1 heq
            exact ⟨[], by rw [← h, (finalizeGroup_fields detect s1).1, hm]; simp⟩
        next =>
          -- dry-run mode
          split at h
          next e heq => exact absurd h (by simp)
          next s2 heq =>
            obtain ⟨hm2, _, _, _, _, _⟩ := pushList_ok detect _ _ s2 heq
            split at h
            next =>
              split at h
              next e heq2 => exact absurd h (by simp)
              next s4 heq2 =>
                simp only [Except.ok.injEq] at h
                obtain ⟨_, hm4, _, _, _, _⟩ := popItem_ok detect _ s4 heq2
                refine ⟨[(item.key,
                  f item.key ((pre item.key).map (normalValue s2.memo)))], ?_⟩
                rw [← h, (finalizeGroup_fields detect s4).1, hm4]
                simp only []
                rw [hm2]
            next =>
              simp only [Except.ok.injEq] at h
              exact ⟨[], by rw [← h, (finalizeGroup_fields detect s2).1, hm2]; simp⟩

theorem dstep_pushedInv [DecidableEq K] [Inhabited V] (pre : K → List K)
    (f : K → List V → V) (declareMode detect : Bool) (s s' : DState K V)
    (h : dstep pre f declareMode detect s = .ok s') (hinv : PushedInv s) :
    PushedInv s' := by
  rw [dstep] at h
  split at h
  next hitems =>
    simp only [Except.ok.injEq] at h
    rw [← h]
    exact hinv
  next item rest hitems =>
    split at h
    next hready =>
      -- compute-and-publish branch: the key enters the map (if absent), then pop
      split at h
      next habs =>
        obtain ⟨_, hm, _, _, hpu, hcases⟩ := popItem_ok detect _ s' h
        simp only [] at hm hpu hcases
        intro k hk
        rw [hpu] at hk
        rcases hinv k hk with hsome | hmem
        · left
          rw [hm]
          exact mlookup_isSome_append _ _ _ hsome
        · rcases hcases with ⟨habs2, _⟩ | ⟨it, rest2, hseq, hitems', _⟩
          · exact absurd hitems (by simp [habs2])
          · rw [hitems] at hseq
            simp only [List.cons.injEq] at hseq
            obtain ⟨hit, hrest⟩ := hseq
            rw [hitems] at hmem
            simp only [List.map_cons, List.mem_cons] at hmem
            rcases hmem with hkey | hmem
            · left
              rw [hm, hkey, mlookup_append_self]
              · rfl
              · exact Option.isNone_iff_eq_none.mp habs
            · right
              rw [hitems', ← hrest]
              exact hmem
      next habs =>
        obtain ⟨_, hm, _, _, hpu, hcases⟩ := popItem_ok detect _ s' h
        intro k hk
        rw [hpu] at hk
        rcases hinv k hk with hsome | hmem
        · left
          rw [hm]
          exact hsome
        · rcases hcases with ⟨habs2, _⟩ | ⟨it, rest2, hseq, hitems', _⟩
          · exact absurd hitems (by simp [habs2])
          · rw [hitems] at hseq
            simp only [List.cons.injEq] at hseq
            obtain ⟨hit, hrest⟩ := hseq
            rw [hitems] at hmem
            simp only [List.map_cons, List.mem_cons] at hmem
            rcases hmem with hkey | hmem
            · left
              rw [hm, hkey, Option.isSome_iff_ne_none]
              simpa using habs
            · right
              rw [hitems', ← hrest]
              exact hmem
    next hready =>
      split at h
      next hfound =>
        simp only [Except.ok.injEq] at h
        intro k hk
        rw [← h] at hk
        simp only [] at hk
        rcases hinv k hk with hsome | hmem
        · left
          rw [← h]
          exact hsome
        · right
          rw [← h]
          simp only []
          rw [hitems] at hmem
          simpa using hmem
      next hfound =>
        split at h
        next =>
          -- declare mode
          split at h
          next e heq => exact absurd h (by simp)
          next s1 heq =>
            simp only [Except.ok.injEq] at h
            obtain ⟨hm, hi, _, _, _, hpu⟩ := gatherList_ok detect _ _ s1 heq
            simp only [] at hm hi hpu
            obtain ⟨hfm, hfi, hfg, hfl, hfpu⟩ := finalizeGroup_fields detect s1
            intro k hk
            rw [← h, hfpu, hpu] at hk
            rw [← h]
            simp only [hfm, hfi, hm, hi]
            rcases List.mem_append.mp hk with hold | hnew
            · rcases hinv k hold with hsome | hmem
              · left
                exact hsome
              · right
                rw [hitems] at hmem
                simp only [List.map_cons, List.mem_cons] at hmem
                simp only [List.map_append, List.mem_append, List.map_cons,
                  List.mem_cons]
                rcases hmem with hkey | hmem
                · exact Or.inr (Or.inl hkey)
                · exact Or.inr (Or.inr hmem)
            · right
              simp only [List.map_append, List.mem_append]
              left
              simp only [List.map_map, List.map_reverse, List.mem_reverse]
              have : (DItem.key ∘ fun k => (⟨k, false⟩ : DItem K)) = id := rfl
              rw [this, List.map_id]
              exact hnew
        next =>
          -- dry-run mode
          split at h
          next e heq => exact absurd h (by simp)
          next s2 heq =>
            obtain ⟨hm2, hi2, _, hg2, _, hpu2⟩ := pushList_ok detect _ _ s2 heq
            simp only [] at hm2 hi2 hg2 hpu2
            split at h
            next hgz =>
              -- no prerequisite was missing: emplace the dry-run value and pop
              split at h
              next e heq2 => exact absurd h (by simp)
              next s4 heq2 =>
                simp only [Except.ok.injEq] at h
                obtain ⟨_, hm4, _, _, hpu4, hcases⟩ := popItem_ok detect _ s4 heq2
                simp only [] at hm4 hpu4 hcases
                -- the pushed list was empty: groupSize is unchanged means the
                -- filtered list was empty
                have hfilnil :
                    (pre item.key).filter (fun p => (mlookup s.memo p).isNone) = [] := by
                  have := hg2
                  rw [hgz] at this
                  have hlen :
                      ((pre item.key).filter (fun p => (mlookup s.memo p).isNone)).length
                        = 0 := by omega
                  exact List.length_eq_zero.mp hlen
                obtain ⟨hfm, hfi, hfg, hfl, hfpu⟩ := finalizeGroup_fields detect s4
                intro k hk
                rw [← h, hfpu, hpu4, hpu2, hfilnil] at hk
                simp only [List.append_nil] at hk
                rw [← h]
                simp only [hfm, hfi, hm4, hm2]
                rcases hinv k hk with hsome | hmem
                · left
                  exact mlookup_isSome_append _ _ _ hsome
                · rcases hcases with ⟨habs2, _⟩ | ⟨it, rest2, hseq, hitems', _⟩
                  · rw [hi2, hfilnil] at habs2
                    simp at habs2
                  · rw [hi2, hfilnil] at hseq
                    simp only [List.map_nil, List.reverse_nil, List.nil_append,
                      List.cons.injEq] at hseq
                    obtain ⟨hit, hrest⟩ := hseq
                    rw [hitems] at hmem
                    simp only [List.map_cons, List.mem_cons] at hmem
                    rcases hmem with hkey | hmem
                    · left
                      rw [hkey, mlookup_append_self]
                      · rfl
                      · simpa using hfound
                    · right
                      rw [hitems', ← hrest]
                      exact hmem
            next hgz =>
              simp only [Except.ok.injEq] at h
              obtain ⟨hfm, hfi, hfg, hfl, hfpu⟩ := finalizeGroup_fields detect s2
              intro k hk
              rw [← h, hfpu, hpu2] at hk
              rw [← h]
              simp only [hfm, hfi, hm2, hi2]
              rcases List.mem_append.mp hk with hold | hnew
              · rcases hinv k hold with hsome | hmem
                · left
                  exact hsome
                · right
                  rw [hitems] at hmem
                  simp only [List.map_cons, List.mem_cons] at hmem
                  simp only [List.map_append, List.mem_append, List.map_cons,
                    List.mem_cons]
                  rcases hmem with hkey | hmem
                  · exact Or.inr (Or.inl hkey)
                  · exact Or.inr (Or.inr hmem)
              · right
                simp only [List.map_append, List.mem_append]
                left
                simp only [List.map_map, List.map_reverse, List.mem_reverse]
                have : (DItem.key ∘ fun k => (⟨k, false⟩ : DItem K)) = id := rfl
                rw [this, List.map_id]
                exact hnew

theorem runLoop_done_pushedInv [DecidableEq K] [Inhabited V] (pre : K → List K)
    (f : K → List V → V) (declareMode detect : Bool) :
    ∀ (fuel : Nat) (s s' : DState K V),
      runLoop pre f declareMode detect fuel s = .done s' →
      PushedInv s → PushedInv s' ∧ s'.items = [] := by
  intro fuel
  induction fuel with
  | zero =>
    intro s s' h hinv
    rw [runLoop] at h
    split at h
    next he =>
      simp only [RunResult.done.injEq] at h
      rw [← h]
      exact ⟨hinv, List.isEmpty_iff.mp he⟩
    next => exact absurd h (by simp)
  | succ fuel ih =>
    intro s s' h hinv
    rw [runLoop] at h
    split at h
    next he =>
      simp only [RunResult.done.injEq] at h
      rw [← h]
      exact ⟨hinv, List.isEmpty_iff.mp he⟩
    next he =>
      split at h
      next e heq => exact absurd h (by simp)
      next s1 heq => exact ih s1 s' h (dstep_pushedInv pre f declareMode detect s s1 heq hinv)

/-- C9: when a single-threaded `getValue` run on a fresh engine returns
normally, every key that was pushed onto the thread's stack during the run
(every transitively discovered prerequisite, not only the root) is present
in the values map at return, so a later read-only `getValue` on any such
key succeeds (returns the memoized value instead of throwing, and performs
no computation). -/
theorem run_memoizes_every_pushed_key [DecidableEq K] [Inhabited V]
    (pre : K → List K) (f : K → List V → V) (declareMode detect : Bool)
    (root : K) (fuel : Nat) (s' : DState K V)
    (hrun : runModel pre f declareMode detect root fuel = .done s') :
    ∀ k ∈ s'.pushed, ∃ v, getValueReadOnly s'.memo k = .ok v := by
  rw [runModel] at hrun
  split at hrun
  next e heq => exact absurd hrun (by simp)
  next s0 heq =>
    obtain ⟨hm, hi, _, _, _, hpu⟩ := pushOne_ok detect initialState root s0 heq
    obtain ⟨hfm, hfi, hfg, hfl, hfpu⟩ := finalizeGroup_fields detect s0
    have hinv0 : PushedInv (finalizeGroup detect s0) := by
      intro k hk
      rw [hfpu, hpu] at hk
      simp only [initialState, List.nil_append, List.mem_singleton] at hk
      right
      rw [hfi, hi, hk]
      simp [initialState]
    obtain ⟨hinv', _⟩ :=
      runLoop_done_pushedInv pre f declareMode detect fuel _ s' hrun hinv0
    intro k hk
    rcases hinv' k hk with hsome | hmem
    · obtain ⟨v, hv⟩ := Option.isSome_iff_exists.mp hsome
      exact ⟨v, by rw [getValueReadOnly, hv]⟩
    · obtain ⟨hinv2, hempty⟩ :=
        runLoop_done_pushedInv pre f declareMode detect fuel _ s' hrun hinv0
      rw [hempty] at hmem
      simp at hmem

/-- Extracting the final state of a completed run (used by concrete
witnesses). -/
def doneStateOf : RunResult K V → DState K V
  | .done s => s
  | _ => initialState

theorem run_memoizes_every_pushed_key_witness :
    ∃ v, getValueReadOnly
      (doneStateOf (runModel (fun i => if i = 0 then [] else [i - 1])
        (fun i vs => if i = 0 then 0 else 1 + vs.headD 0) true false 1 10)).memo 0 =
      .ok v :=
  run_memoizes_every_pushed_key (fun i => if i = 0 then [] else [i - 1])
    (fun i vs => if i = 0 then 0 else 1 + vs.headD 0) true false 1 10
    (doneStateOf (runModel (fun i => if i = 0 then [] else [i - 1])
      (fun i vs => if i = 0 then 0 else 1 + vs.headD 0) true false 1 10))
    (by rfl) 0 (by decide)

/-! ### Claim C7: how often `Compute` is invoked in dry-run discovery -/

/-- The number of recorded `Compute` invocations for a key. -/
def countKey [DecidableEq K] (log : List (LogEntry K)) (k : K) : Nat :=
  (log.filter (fun e => decide (e.key = k))).length

/-- Some recorded invocation for `k` was a dry run. -/
def hasDry [DecidableEq K] (log : List (LogEntry K)) (k : K) : Prop :=
  ∃ e ∈ log, e.key = k ∧ e.dryRun = true

/-- Some recorded dry-run invocation for `k` found a missing prerequisite. -/
def hasDryMissing [DecidableEq K] (log : List (LogEntry K)) (k : K) : Prop :=
  ∃ e ∈ log, e.key = k ∧ e.dryRun = true ∧ 0 < e.missing

/-- A single-key graph with no prerequisites. -/
def leafPre : Nat → List Nat := fun _ => []

/-- The compute function of the single-key graph. -/
def leafF : Nat → List Nat → Nat := fun _ _ => 0

/-- C7 counterexample: with dry-run discovery on the one-key graph with no
prerequisites, the single-threaded run memoizes key 0 after exactly ONE
invocation of `Compute` (the dry run finds no prerequisite missing, so its
value is published directly) — refuting the claim that `Compute` is
invoked at least twice for every key that gets memoized. -/
theorem dryrun_twice_cex :
    (mlookup (doneStateOf (runModel leafPre leafF false false 0 5)).memo 0).isSome
      = true ∧
    countKey (doneStateOf (runModel leafPre leafF false false 0 5)).log 0 = 1 :=
  ⟨rfl, rfl⟩

theorem countKey_append [DecidableEq K] (l1 l2 : List (LogEntry K)) (k : K) :
    countKey (l1 ++ l2) k = countKey l1 k + countKey l2 k := by
  simp [countKey, List.filter_append]

theorem one_le_countKey_of_mem [DecidableEq K] (log : List (LogEntry K))
    (e : LogEntry K) (k : K) (hm : e ∈ log) (hk : e.key = k) :
    1 ≤ countKey log k := by
  have : e ∈ log.filter (fun e => decide (e.key = k)) :=
    List.mem_filter.mpr ⟨hm, by simpa using hk⟩
  have := List.length_pos.mpr (List.ne_nil_of_mem this)
  simpa [countKey] using this

theorem hasDry_append [DecidableEq K] (l1 l2 : List (LogEntry K)) (k : K)
    (h : hasDry l1 k) : hasDry (l1 ++ l2) k := by
  obtain ⟨e, he, hk, hd⟩ := h
  exact ⟨e, List.mem_append_left _ he, hk, hd⟩

theorem hasDryMissing_append [DecidableEq K] (l1 l2 : List (LogEntry K)) (k : K)
    (h : hasDryMissing l1 k) : hasDryMissing (l1 ++ l2) k := by
  obtain ⟨e, he, hk, hd, hmzero⟩ := h
  exact ⟨e, List.mem_append_left _ he, hk, hd, hmzero⟩

theorem hasDryMissing_append_elim [DecidableEq K] (l1 : List (LogEntry K))
    (e0 : LogEntry K) (k : K) (h : hasDryMissing (l1 ++ [e0]) k)
    (hnot : e0.dryRun = false ∨ e0.missing = 0) : hasDryMissing l1 k := by
  obtain ⟨e, he, hk, hd, hmzero⟩ := h
  rcases List.mem_append.mp he with hin | hin
  · exact ⟨e, hin, hk, hd, hmzero⟩
  · rw [List.mem_singleton] at hin
    subst hin
    rcases hnot with hc | hc
    · rw [hd] at hc; exact absurd hc (by simp)
    · omega

theorem mlookup_append_single_isSome [DecidableEq K] (m : List (K × V)) (a : K)
    (v : V) (k : K) (h : (mlookup (m ++ [(a, v)]) k).isSome = true) :
    (mlookup m k).isSome = true ∨ k = a := by
  induction m with
  | nil =>
    simp only [List.nil_append, mlookup] at h
    split at h
    next ha => exact Or.inr ha.symm
    next => exact absurd h (by simp [mlookup])
  | cons e rest ih =>
    rw [List.cons_append, mlookup] at h
    rw [mlookup]
    split at h
    next ha => rw [if_pos ha]; exact Or.inl rfl
    next ha => rw [if_neg ha]; exact ih h

/-- The invariant bundle for dry-run invocation counting. -/
def DryInv [DecidableEq K] (s : DState K V) : Prop :=
  s.groupSize = 0 ∧
  (∀ k, (mlookup s.memo k).isSome → hasDry s.log k) ∧
  (∀ it ∈ s.items, it.ready = true →
    (mlookup s.memo it.key).isSome ∨ hasDryMissing s.log it.key) ∧
  (∀ k, hasDryMissing s.log k → (mlookup s.memo k).isSome →
    2 ≤ countKey s.log k)

theorem dstep_dryInv [DecidableEq K] [Inhabited V] (pre : K → List K)
    (f : K → List V → V) (detect : Bool) (s s' : DState K V)
    (h : dstep pre f false detect s = .ok s') (hinv : DryInv s) : DryInv s' := by
  obtain ⟨hg0, hinv1, hinv2, hinv3⟩ := hinv
  rw [dstep] at h
  split at h
  next hitems =>
    simp only [Except.ok.injEq] at h
    rw [← h]
    exact ⟨hg0, hinv1, hinv2, hinv3⟩
  next item rest hitems =>
    split at h
    next hready =>
      split at h
      next habs =>
        -- the key is absent: it is inserted with a NORMAL-mode invocation, then pop
        obtain ⟨_, hm, hgs, hl, _, hcases⟩ := popItem_ok detect _ s' h
        simp only [] at hm hgs hl hcases
        have hitems' : s'.items = rest := by
          rcases hcases with ⟨habs2, _⟩ | ⟨it, rest2, hseq, hi', _⟩
          · exact absurd hitems (by simp [habs2])
          · rw [hitems] at hseq
            simp only [List.cons.injEq] at hseq
            rw [hi', ← hseq.2]
        have hitemdm : hasDryMissing s.log item.key := by
          have := hinv2 item (by rw [hitems]; simp) (by simpa using hready)
          rcases this with hsome | hdm
          · exact absurd hsome (by simpa using habs)
          · exact hdm
        refine ⟨by rw [hgs, hg0], ?_, ?_, ?_⟩
        · intro k hk
          rw [hl]
          rw [hm] at hk
          rcases mlookup_append_single_isSome _ _ _ _ hk with hold | hknew
          · exact hasDry_append _ _ _ (hinv1 k hold)
          · subst hknew
            obtain ⟨e, he, hek, hed, _⟩ := hitemdm
            exact ⟨e, List.mem_append_left _ he, hek, hed⟩
        · intro it hit hitready
          rw [hitems'] at hit
          have := hinv2 it (by rw [hitems]; simp [hit]) hitready
          rcases this with hsome | hdm
          · left
            rw [hm]
            exact mlookup_isSome_append _ _ _ hsome
          · right
            rw [hl]
            exact hasDryMissing_append _ _ _ hdm
        · intro k hdm hk
          rw [hl] at hdm ⊢
          rw [hm] at hk
          have hdm0 : hasDryMissing s.log k :=
            hasDryMissing_append_elim _ _ _ hdm (Or.inl rfl)
          rw [countKey_append]
          rcases mlookup_append_single_isSome _ _ _ _ hk with hold | hknew
          · have := hinv3 k hdm0 hold
            omega
          · subst hknew
            obtain ⟨e, he, hek, _, _⟩ := hdm0
            have h1 := one_le_countKey_of_mem s.log e item.key he hek
            have h2 : countKey [(⟨item.key, false, 0⟩ : LogEntry K)] item.key = 1 := by
              simp [countKey]
            omega
      next habs =>
        -- the key is already present: no invocation, pop
        obtain ⟨_, hm, hgs, hl, _, hcases⟩ := popItem_ok detect _ s' h
        have hitems' : s'.items = rest := by
          rcases hcases with ⟨habs2, _⟩ | ⟨it, rest2, hseq, hi', _⟩
          · exact absurd hitems (by simp [habs2])
          · rw [hitems] at hseq
            simp only [List.cons.injEq] at hseq
            rw [hi', ← hseq.2]
        refine ⟨by rw [hgs, hg0], ?_, ?_, ?_⟩
        · intro k hk
          rw [hl]
          rw [hm] at hk
          exact hinv1 k hk
        · intro it hit hitready
          rw [hitems'] at hit
          rw [hm, hl]
          exact hinv2 it (by rw [hitems]; simp [hit]) hitready
        · intro k hdm hk
          rw [hl] at hdm ⊢
          rw [hm] at hk
          exact hinv3 k hdm hk
    next hready =>
      split at h
      next hfound =>
        -- already in the map: only flip the ready flag
        simp only [Except.ok.injEq] at h
        refine ⟨by rw [← h]; exact hg0, ?_, ?_, ?_⟩
        · intro k hk
          rw [← h] at hk ⊢
          exact hinv1 k hk
        · intro it hit hitready
          rw [← h] at hit ⊢
          simp only [List.mem_cons] at hit
          rcases hit with htop | hin
          · left
            rw [htop]
            simpa using hfound
          · exact hinv2 it (by rw [hitems]; simp [hin]) hitready
        · intro k hdm hk
          rw [← h] at hdm hk ⊢
          exact hinv3 k hdm hk
      next hfound =>
        split at h
        next hdm => exact absurd hdm (by simp)
        next =>
          -- dry-run branch
          split at h
          next e heq => exact absurd h (by simp)
          next s2 heq =>
            obtain ⟨hm2, hi2, _, hg2, hl2, _⟩ := pushList_ok detect _ _ s2 heq
            simp only [] at hm2 hi2 hg2 hl2
            split at h
            next hgz =>
              -- no prerequisite missing: emplace the dry-run value and pop
              split at h
              next e heq2 => exact absurd h (by simp)
              next s4 heq2 =>
                simp only [Except.ok.injEq] at h
                obtain ⟨_, hm4, hgs4, hl4, _, hcases⟩ := popItem_ok detect _ s4 heq2
                simp only [] at hm4 hgs4 hl4 hcases
                obtain ⟨hfm, hfi, hfg, hfl, hfpu⟩ := finalizeGroup_fields detect s4
                have hfilnil :
                    (pre item.key).filter (fun p => (mlookup s.memo p).isNone) = [] := by
                  rw [hgz] at hg2
                  simp only [hg0] at hg2
                  exact List.length_eq_zero.mp (by omega)
                have hl4' : s4.log = s.log ++
                    [⟨item.key, true,
                      ((pre item.key).filter (fun p => (mlookup s.memo p).isNone)).length⟩] := by
                  rw [hl4, hl2]
                have hm4' : s4.memo = s.memo ++
                    [(item.key, f item.key ((pre item.key).map (normalValue s2.memo)))] := by
                  rw [hm4, hm2]
                have hitems4 : s4.items = rest := by
                  rcases hcases with ⟨habs2, _⟩ | ⟨it, rest2, hseq, hi', _⟩
                  · rw [hi2, hfilnil] at habs2
                    simp at habs2
                  · rw [hi2, hfilnil] at hseq
                    simp only [List.map_nil, List.reverse_nil, List.nil_append,
                      List.cons.injEq] at hseq
                    rw [hi', ← hseq.2]
                have hmzero : (⟨item.key, true,
                    ((pre item.key).filter (fun p => (mlookup s.memo p).isNone)).length⟩ :
                      LogEntry K).missing = 0 := by
                  show ((pre item.key).filter (fun p => (mlookup s.memo p).isNone)).length = 0
                  rw [hfilnil]
                  rfl
                refine ⟨by rw [← h, hfg], ?_, ?_, ?_⟩
                · intro k hk
                  rw [← h, hfl, hl4']
                  rw [← h, hfm, hm4'] at hk
                  rcases mlookup_append_single_isSome _ _ _ _ hk with hold | hknew
                  · exact hasDry_append _ _ _ (hinv1 k hold)
                  · subst hknew
                    exact ⟨⟨item.key, true,
                      ((pre item.key).filter (fun p => (mlookup s.memo p).isNone)).length⟩,
                      List.mem_append_right _ (by simp), rfl, rfl⟩
                · intro it hit hitready
                  rw [← h, hfi, hitems4] at hit
                  have := hinv2 it (by rw [hitems]; simp [hit]) hitready
                  rw [← h, hfm, hm4', hfl, hl4']
                  rcases this with hsome | hdm
                  · exact Or.inl (mlookup_isSome_append _ _ _ hsome)
                  · exact Or.inr (hasDryMissing_append _ _ _ hdm)
                · intro k hdm hk
                  rw [← h, hfl, hl4'] at hdm ⊢
                  rw [← h, hfm, hm4'] at hk
                  have hdm0 : hasDryMissing s.log k :=
                    hasDryMissing_append_elim _ _ _ hdm (Or.inr hmzero)
                  rw [countKey_append]
                  rcases mlookup_append_single_isSome _ _ _ _ hk with hold | hknew
                  · have := hinv3 k hdm0 hold
                    omega
                  · subst hknew
                    obtain ⟨e, he, hek, _, _⟩ := hdm0
                    have h1 := one_le_countKey_of_mem s.log e item.key he hek
                    have h2 : countKey [(⟨item.key, true,
                        ((pre item.key).filter (fun p => (mlookup s.memo p).isNone)).length⟩ :
                          LogEntry K)] item.key = 1 := by
                      simp [countKey]
                    omega
            next hgz =>
              -- some prerequisite was missing: the item stays, the group is finalized
              simp only [Except.ok.injEq] at h
              obtain ⟨hfm, hfi, hfg, hfl, hfpu⟩ := finalizeGroup_fields detect s2
              have hlen : 0 <
                  ((pre item.key).filter (fun p => (mlookup s.memo p).isNone)).length := by
                rw [hg2] at hgz
                simp only [hg0] at hgz
                omega
              refine ⟨by rw [← h, hfg], ?_, ?_, ?_⟩
              · intro k hk
                rw [← h, hfl, hl2]
                rw [← h, hfm, hm2] at hk
                exact hasDry_append _ _ _ (hinv1 k hk)
              · intro it hit hitready
                rw [← h, hfi, hi2] at hit
                rw [← h, hfm, hm2, hfl, hl2]
                rcases List.mem_append.mp hit with hpush | hrest
                · exfalso
                  obtain ⟨p, _, hp⟩ := List.mem_map.mp hpush
                  rw [← hp] at hitready
                  exact absurd hitready (by simp)
                · simp only [List.mem_cons] at hrest
                  rcases hrest with htop | hin
                  · right
                    refine ⟨⟨item.key, true,
                      ((pre item.key).filter (fun p => (mlookup s.memo p).isNone)).length⟩,
                      List.mem_append_right _ (by simp), ?_, rfl, ?_⟩
                    · rw [htop]
                    · simpa using hlen
                  · have := hinv2 it (by rw [hitems]; simp [hin]) hitready
                    rcases this with hsome | hdm
                    · exact Or.inl hsome
                    · exact Or.inr (hasDryMissing_append _ _ _ hdm)
              · intro k hdm hk
                rw [← h, hfl, hl2] at hdm ⊢
                rw [← h, hfm, hm2] at hk
                have hdm0 : hasDryMissing s.log k := by
                  obtain ⟨e, he, hek, hed, hemiss⟩ := hdm
                  rcases List.mem_append.mp he with hin | hin
                  · exact ⟨e, hin, hek, hed, hemiss⟩
                  · rw [List.mem_singleton] at hin
                    subst hin
                    simp only [] at hek
                    rw [← hek] at hk
                    exact absurd hk (by simpa using hfound)
                rw [countKey_append]
                have := hinv3 k hdm0 hk
                omega

theorem runLoop_done_dryInv [DecidableEq K] [Inhabited V] (pre : K → List K)
    (f : K → List V → V) (detect : Bool) :
    ∀ (fuel : Nat) (s s' : DState K V),
      runLoop pre f false detect fuel s = .done s' → DryInv s → DryInv s' := by
  intro fuel
  induction fuel with
  | zero =>
    intro s s' h hinv
    rw [runLoop] at h
    split at h
    next =>
      simp only [RunResult.done.injEq] at h
      rw [← h]
      exact hinv
    next => exact absurd h (by simp)
  | succ fuel ih =>
    intro s s' h hinv
    rw [runLoop] at h
    split at h
    next =>
      simp only [RunResult.done.injEq] at h
      rw [← h]
      exact hinv
    next =>
      split at h
      next e heq => exact absurd h (by simp)
      next s1 heq => exact ih s1 s' h (dstep_dryInv pre f detect s s1 heq hinv)

/-- C7 (amended): with dry-run discovery (no `DeclarePrerequisites` given),
`Compute` is invoked at least once — in dry-run mode — for every key that
gets memoized during the single-threaded run, and at least twice for every
memoized key whose dry run found at least one prerequisite missing; a key
whose dry run finds all prerequisites already memoized (e.g. a leaf) is
published directly from that single invocation. -/
theorem dryrun_invocations [DecidableEq K] [Inhabited V] (pre : K → List K)
    (f : K → List V → V) (detect : Bool) (root : K) (fuel : Nat)
    (s' : DState K V)
    (hrun : runModel pre f false detect root fuel = .done s') :
    (∀ k, (mlookup s'.memo k).isSome → hasDry s'.log k) ∧
    (∀ k, (mlookup s'.memo k).isSome → hasDryMissing s'.log k →
      2 ≤ countKey s'.log k) := by
  rw [runModel] at hrun
  split at hrun
  next e heq => exact absurd hrun (by simp)
  next s0 heq =>
    obtain ⟨hm, hi, _, _, hl, _⟩ := pushOne_ok detect initialState root s0 heq
    obtain ⟨hfm, hfi, hfg, hfl, hfpu⟩ := finalizeGroup_fields detect s0
    have hinv0 : DryInv (finalizeGroup detect s0) := by
      refine ⟨hfg, ?_, ?_, ?_⟩
      · intro k hk
        rw [hfm, hm] at hk
        exact absurd hk (by simp [initialState, mlookup])
      · intro it hit hitready
        rw [hfi, hi] at hit
        simp only [initialState, List.mem_singleton] at hit
        rw [hit] at hitready
        exact absurd hitready (by simp)
      · intro k _ hk
        rw [hfm, hm] at hk
        exact absurd hk (by simp [initialState, mlookup])
    have hinv' := runLoop_done_dryInv pre f detect fuel _ s' hrun hinv0
    exact ⟨hinv'.2.1, fun k hk hdm => hinv'.2.2.2 k hdm hk⟩

/-- The linear-chain prerequisite function of scenario S2:
`Compute(i, p) = if i == 0 then 0 else 1 + p(i-1)` reads exactly the
prerequisite `i-1` for `i > 0`. -/
def chainPre : Nat → List Nat := fun i => if i = 0 then [] else [i - 1]

/-- The combining function of the linear chain: `0` at the base, otherwise
one plus the value of the single prerequisite. -/
def chainF : Nat → List Nat → Nat := fun i vs => if i = 0 then 0 else 1 + vs.headD 0

theorem dryrun_invocations_witness :
    hasDry (doneStateOf (runModel chainPre chainF false false 2 20)).log 2 ∧
    2 ≤ countKey (doneStateOf (runModel chainPre chainF false false 2 20)).log 2 :=
  ⟨(dryrun_invocations chainPre chainF false 2 20
      (doneStateOf (runModel chainPre chainF false false 2 20)) (by rfl)).1 2 rfl,
   (dryrun_invocations chainPre chainF false 2 20
      (doneStateOf (runModel chainPre chainF false false 2 20)) (by rfl)).2 2 rfl
      (by unfold hasDryMissing; decide)⟩

/-! ### Claim C1: determinism across discovery modes and the denotational
value

The executions used here are built step by step: `StepsTo s n s'` states
that `n` applications of `dstep`, all on non-empty stacks, lead from `s`
to `s'`. -/

inductive StepsTo [DecidableEq K] [Inhabited V] (pre : K → List K)
    (f : K → List V → V) (declareMode detect : Bool) :
    DState K V → Nat → DState K V → Prop where
  | refl (s : DState K V) : StepsTo pre f declareMode detect s 0 s
  | tail (s s' s'' : DState K V) (n : Nat) :
      s.items ≠ [] →
      dstep pre f declareMode detect s = .ok s' →
      StepsTo pre f declareMode detect s' n s'' →
      StepsTo pre f declareMode detect s (n + 1) s''

theorem StepsTo.trans [DecidableEq K] [Inhabited V] {pre : K → List K}
    {f : K → List V → V} {declareMode detect : Bool} {s t u : DState K V}
    {n m : Nat} (h1 : StepsTo pre f declareMode detect s n t)
    (h2 : StepsTo pre f declareMode detect t m u) :
    StepsTo pre f declareMode detect s (n + m) u := by
  induction h1 with
  | refl s => simpa using h2
  | tail s s' s'' n hne hstep _ ih =>
    have := StepsTo.tail s s' u (n + m) hne hstep (ih h2)
    simpa [Nat.add_right_comm] using this

theorem runLoop_stepsTo [DecidableEq K] [Inhabited V] (pre : K → List K)
    (f : K → List V → V) (declareMode detect : Bool) {s s'' : DState K V} {n : Nat}
    (h : StepsTo pre f declareMode detect s n s'') :
    ∀ extra, runLoop pre f declareMode detect (n + extra) s =
      runLoop pre f declareMode detect extra s'' := by
  induction h with
  | refl s => intro extra; simp
  | tail s s' s'' n hne hstep _ ih =>
    intro extra
    have hrw : n + 1 + extra = (n + extra) + 1 := by omega
    rw [hrw, runLoop]
    rw [if_neg (by simpa using hne), hstep]
    exact ih extra

theorem runLoop_done_mono [DecidableEq K] [Inhabited V] (pre : K → List K)
    (f : K → List V → V) (declareMode detect : Bool) :
    ∀ (n : Nat) (s t : DState K V),
      runLoop pre f declareMode detect n s = .done t →
      runLoop pre f declareMode detect (n + 1) s = .done t := by
  intro n
  induction n with
  | zero =>
    intro s t h
    rw [runLoop] at h
    split at h
    next he =>
      simp only [RunResult.done.injEq] at h
      rw [runLoop, if_pos he, h]
    next => exact absurd h (by simp)
  | succ n ih =>
    intro s t h
    rw [runLoop] at h
    split at h
    next he =>
      simp only [RunResult.done.injEq] at h
      rw [runLoop, if_pos he, h]
    next he =>
      split at h
      next e heq => exact absurd h (by simp)
      next s1 heq =>
        rw [runLoop, if_neg he, heq]
        exact ih s1 t h

theorem runLoop_done_le [DecidableEq K] [Inhabited V] (pre : K → List K)
    (f : K → List V → V) (declareMode detect : Bool) {n m : Nat}
    (hnm : n ≤ m) (s t : DState K V)
    (h : runLoop pre f declareMode detect n s = .done t) :
    runLoop pre f declareMode detect m s = .done t := by
  induction hnm with
  | refl => exact h
  | step _ ih => exact runLoop_done_mono pre f declareMode detect _ s t ih

/-- The values-map invariant: every entry was computed from the entries
strictly before it — each of its prerequisites is already present, and its
value is the combining function applied to their then-current values.
`acc` is the prefix of entries already validated. -/
def ValuesOkAux [DecidableEq K] [Inhabited V] (pre : K → List K)
    (f : K → List V → V) : List (K × V) → List (K × V) → Prop
  | _, [] => True
  | acc, e :: rest =>
    ((∀ p ∈ pre e.1, (mlookup acc p).isSome) ∧
      e.2 = f e.1 ((pre e.1).map (normalValue acc))) ∧
    ValuesOkAux pre f (acc ++ [e]) rest

/-- The values-map invariant for a whole map. -/
def ValuesOk [DecidableEq K] [Inhabited V] (pre : K → List K)
    (f : K → List V → V) (m : List (K × V)) : Prop :=
  ValuesOkAux pre f [] m

theorem valuesOkAux_append_one [DecidableEq K] [Inhabited V] (pre : K → List K)
    (f : K → List V → V) (k : K) (v : V) :
    ∀ (rest acc : List (K × V)), ValuesOkAux pre f acc rest →
      (∀ p ∈ pre k, (mlookup (acc ++ rest) p).isSome) →
      v = f k ((pre k).map (normalValue (acc ++ rest))) →
      ValuesOkAux pre f acc (rest ++ [(k, v)]) := by
  intro rest
  induction rest with
  | nil =>
    intro acc _ hpre hv
    simp only [List.append_nil] at hpre hv
    exact ⟨⟨hpre, hv⟩, trivial⟩
  | cons e rest ih =>
    intro acc hok hpre hv
    obtain ⟨he, hrest⟩ := hok
    refine ⟨he, ?_⟩
    have := ih (acc ++ [e]) hrest
    rw [List.append_assoc] at this
    simp only [List.singleton_append] at this
    exact this hpre hv

theorem valuesOk_append_one [DecidableEq K] [Inhabited V] (pre : K → List K)
    (f : K → List V → V) (m : List (K × V)) (k : K) (v : V)
    (hok : ValuesOk pre f m) (hpre : ∀ p ∈ pre k, (mlookup m p).isSome)
    (hv : v = f k ((pre k).map (normalValue m))) :
    ValuesOk pre f (m ++ [(k, v)]) :=
  valuesOkAux_append_one pre f k v m [] hok (by simpa using hpre) (by simpa using hv)

theorem mlookup_append_single_cases [DecidableEq K] (m : List (K × V)) (e : K × V)
    (k : K) (v : V) (h : mlookup (m ++ [e]) k = some v) :
    mlookup m k = some v ∨ (mlookup m k = none ∧ k = e.1 ∧ v = e.2) := by
  induction m with
  | nil =>
    simp only [List.nil_append, mlookup] at h
    split at h
    next ha =>
      simp only [Option.some.injEq] at h
      exact Or.inr ⟨rfl, ha.symm, h.symm⟩
    next => exact absurd h (by simp [mlookup])
  | cons e' rest ih =>
    rw [List.cons_append, mlookup] at h
    rw [mlookup]
    split at h
    next ha => rw [if_pos ha]; exact Or.inl h
    next ha =>
      rw [if_neg ha]
      exact ih h

/-- The denotational value: the unique solution of
`denot k = f k ((pre k).map denot)` on a well-founded (acyclic)
prerequisite relation. -/
def denotVal (pre : K → List K) (f : K → List V → V)
    (hwf : WellFounded fun a b : K => a ∈ pre b) : K → V :=
  hwf.fix fun k ih => f k ((pre k).attach.map fun p => ih p.val p.property)

theorem denotVal_eq (pre : K → List K) (f : K → List V → V)
    (hwf : WellFounded fun a b : K => a ∈ pre b) (k : K) :
    denotVal pre f hwf k = f k ((pre k).map (denotVal pre f hwf)) := by
  rw [denotVal, WellFounded.fix_eq]
  congr 1
  rw [← denotVal]
  exact List.attach_map_val (pre k) (denotVal pre f hwf)

theorem valuesOkAux_denot [DecidableEq K] [Inhabited V] (pre : K → List K)
    (f : K → List V → V) (hwf : WellFounded fun a b : K => a ∈ pre b) :
    ∀ (rest acc : List (K × V)),
      (∀ k v, mlookup acc k = some v → v = denotVal pre f hwf k) →
      ValuesOkAux pre f acc rest →
      ∀ k v, mlookup (acc ++ rest) k = some v → v = denotVal pre f hwf k := by
  intro rest
  induction rest with
  | nil =>
    intro acc hacc _ k v h
    rw [List.append_nil] at h
    exact hacc k v h
  | cons e rest ih =>
    intro acc hacc hok k v h
    obtain ⟨⟨hpre, hval⟩, hrest⟩ := hok
    have hedenot : e.2 = denotVal pre f hwf e.1 := by
      rw [hval, denotVal_eq]
      congr 1
      apply List.map_congr_left
      intro p hp
      have hsome := hpre p hp
      obtain ⟨w, hw⟩ := Option.isSome_iff_exists.mp hsome
      rw [normalValue, hw]
      simpa using hacc p w hw
    have hacc' : ∀ k v, mlookup (acc ++ [e]) k = some v → v = denotVal pre f hwf k := by
      intro k v hkv
      rcases mlookup_append_single_cases acc e k v hkv with hin | ⟨_, hk, hv⟩
      · exact hacc k v hin
      · rw [hv, hk]
        exact hedenot
    have := ih (acc ++ [e]) hacc' hrest k v (by simpa using h)
    exact this

theorem valuesOk_denot [DecidableEq K] [Inhabited V] (pre : K → List K)
    (f : K → List V → V) (hwf : WellFounded fun a b : K => a ∈ pre b)
    (m : List (K × V)) (hok : ValuesOk pre f m) :
    ∀ k v, mlookup m k = some v → v = denotVal pre f hwf k := by
  intro k v h
  exact valuesOkAux_denot pre f hwf m [] (by simp [mlookup]) hok k v (by simpa using h)

theorem dstep_cons_ready [DecidableEq K] [Inhabited V] (pre : K → List K)
    (f : K → List V → V) (dm det : Bool) (s : DState K V) (k : K)
    (R : List (DItem K)) (hitems : s.items = ⟨k, true⟩ :: R) :
    dstep pre f dm det s =
      popItem det
        (if (mlookup s.memo k).isNone then
          { s with memo := s.memo ++ [(k, f k ((pre k).map (normalValue s.memo)))],
                   log := s.log ++ [⟨k, false, 0⟩] }
         else s) := by
  rw [dstep, hitems]
  rfl

theorem dstep_cons_not_ready [DecidableEq K] [Inhabited V] (pre : K → List K)
    (f : K → List V → V) (dm det : Bool) (s : DState K V) (k : K)
    (R : List (DItem K)) (hitems : s.items = ⟨k, false⟩ :: R) :
    dstep pre f dm det s =
      if (mlookup s.memo k).isSome then .ok { s with items := ⟨k, true⟩ :: R }
      else if dm then
        match gatherList det { s with items := ⟨k, true⟩ :: R } (pre k) with
        | .error e => .error e
        | .ok s1 => .ok (finalizeGroup det s1)
      else
        match pushList det
            { s with items := ⟨k, true⟩ :: R,
                     log := s.log ++
                       [⟨k, true,
                         ((pre k).filter (fun p => (mlookup s.memo p).isNone)).length⟩] }
            ((pre k).filter (fun p => (mlookup s.memo p).isNone)) with
        | .error e => .error e
        | .ok s2 =>
          if s2.groupSize = 0 then
            match popItem det
                { s2 with memo := s2.memo ++
                    [(k, f k ((pre k).map (normalValue s2.memo)))] } with
            | .error e => .error e
            | .ok s4 => .ok (finalizeGroup det s4)
          else .ok (finalizeGroup det s2) := by
  rw [dstep, hitems]
  rfl

theorem popItem_cons [DecidableEq K] (det : Bool) (s : DState K V) (it : DItem K)
    (R : List (DItem K)) (hitems : s.items = it :: R) (hg : s.groupSize = 0) :
    popItem det s = .ok { s with items := R, itemsSet := if det then setErase s.itemsSet it.key else s.itemsSet } := by
  rw [popItem, if_neg (by omega), hitems]

theorem pushOne_false [DecidableEq K] (s : DState K V) (k : K) :
    pushOne false s k = .ok { s with items := ⟨k, false⟩ :: s.items, pushed := s.pushed ++ [k], groupSize := s.groupSize + 1 } := by
  rw [pushOne]
  rfl

theorem pushList_false_ok [DecidableEq K] :
    ∀ (l : List K) (s : DState K V), ∃ s', pushList false s l = .ok s' := by
  intro l
  induction l with
  | nil => intro s; exact ⟨s, rfl⟩
  | cons k rest ih =>
    intro s
    obtain ⟨s', h⟩ := ih { s with items := ⟨k, false⟩ :: s.items, pushed := s.pushed ++ [k], groupSize := s.groupSize + 1 }
    refine ⟨s', ?_⟩
    rw [pushList, pushOne_false]
    exact h

theorem gatherList_false_ok [DecidableEq K] :
    ∀ (l : List K) (s : DState K V), ∃ s', gatherList false s l = .ok s' := by
  intro l
  induction l with
  | nil => intro s; exact ⟨s, rfl⟩
  | cons k rest ih =>
    intro s
    rw [gatherList]
    split
    · obtain ⟨s', h⟩ := ih { s with items := ⟨k, false⟩ :: s.items, pushed := s.pushed ++ [k], groupSize := s.groupSize + 1 }
      refine ⟨s', ?_⟩
      rw [pushOne_false]
      exact h
    · exact ih s

/-- Processing the compute-and-publish visit of the top item: one step
that publishes the key (if still absent) and pops. -/
theorem consume_ready [DecidableEq K] [Inhabited V] (pre : K → List K)
    (f : K → List V → V) (declareMode : Bool) (k : K) (s : DState K V)
    (R : List (DItem K)) (hitems : s.items = ⟨k, true⟩ :: R)
    (hg : s.groupSize = 0) (hok : ValuesOk pre f s.memo)
    (hready : (mlookup s.memo k).isSome = true ∨
      ∀ p ∈ pre k, (mlookup s.memo p).isSome = true) :
    ∃ s', dstep pre f declareMode false s = .ok s' ∧ s'.items = R ∧
      s'.groupSize = 0 ∧ ValuesOk pre f s'.memo ∧
      (∃ Δ, s'.memo = s.memo ++ Δ) ∧ (mlookup s'.memo k).isSome := by
  rw [dstep_cons_ready pre f declareMode false s k R hitems]
  by_cases habs : (mlookup s.memo k).isNone
  · have hpre : ∀ p ∈ pre k, (mlookup s.memo p).isSome = true := by
      rcases hready with hfound | hpre
      · rw [Option.isNone_iff_eq_none] at habs
        rw [habs] at hfound
        exact absurd hfound (by simp)
      · exact hpre
    rw [if_pos habs]
    rw [popItem_cons false _ ⟨k, true⟩ R (by rw [hitems]) (by exact hg)]
    refine ⟨_, rfl, rfl, hg, ?_, ⟨[(k, f k ((pre k).map (normalValue s.memo)))], rfl⟩, ?_⟩
    · exact valuesOk_append_one pre f s.memo k _ hok hpre rfl
    · rw [mlookup_append_self s.memo k _ (Option.isNone_iff_eq_none.mp habs)]
      rfl
  · rw [if_neg habs]
    rw [popItem_cons false s ⟨k, true⟩ R hitems hg]
    refine ⟨_, rfl, rfl, hg, hok, ⟨[], by simp⟩, ?_⟩
    rw [Option.isSome_iff_ne_none]
    simpa using habs

/-- Consuming a block of freshly pushed, not-ready items at the top of the
stack, given that each of them can be consumed individually. -/
theorem consumeList [DecidableEq K] [Inhabited V] (pre : K → List K)
    (f : K → List V → V) (declareMode : Bool) :
    ∀ (l : List K),
      (∀ p ∈ l, ∀ (s : DState K V) (R : List (DItem K)),
        s.items = ⟨p, false⟩ :: R → s.groupSize = 0 → ValuesOk pre f s.memo →
        ∃ n s', StepsTo pre f declareMode false s n s' ∧ s'.items = R ∧
          s'.groupSize = 0 ∧ ValuesOk pre f s'.memo ∧
          (∃ Δ, s'.memo = s.memo ++ Δ) ∧ (mlookup s'.memo p).isSome) →
      ∀ (s : DState K V) (R : List (DItem K)),
        s.items = l.map (fun p => (⟨p, false⟩ : DItem K)) ++ R → s.groupSize = 0 →
        ValuesOk pre f s.memo →
        ∃ n s', StepsTo pre f declareMode false s n s' ∧ s'.items = R ∧
          s'.groupSize = 0 ∧ ValuesOk pre f s'.memo ∧
          (∃ Δ, s'.memo = s.memo ++ Δ) ∧
          (∀ p ∈ l, (mlookup s'.memo p).isSome) := by
  intro l
  induction l with
  | nil =>
    intro _ s R hitems hg hok
    exact ⟨0, s, .refl s, by simpa using hitems, hg, hok, ⟨[], by simp⟩, by simp⟩
  | cons p rest ih =>
    intro hIH s R hitems hg hok
    obtain ⟨n1, s1, hs1, hi1, hg1, hok1, ⟨Δ1, hm1⟩, hp1⟩ :=
      hIH p (by simp) s (rest.map (fun q => (⟨q, false⟩ : DItem K)) ++ R)
        (by simpa using hitems) hg hok
    obtain ⟨n2, s2, hs2, hi2, hg2, hok2, ⟨Δ2, hm2⟩, hall2⟩ :=
      ih (fun q hq => hIH q (by simp [hq])) s1 R hi1 hg1 hok1
    refine ⟨n1 + n2, s2, hs1.trans hs2, hi2, hg2, hok2,
      ⟨Δ1 ++ Δ2, by rw [hm2, hm1, List.append_assoc]⟩, ?_⟩
    intro q hq
    rcases List.mem_cons.mp hq with hq | hq
    · subst hq
      rw [hm2]
      exact mlookup_isSome_append _ _ _ hp1
    · exact hall2 q hq

theorem popItem_error_groupSize [DecidableEq K] (det : Bool) (s : DState K V)
    (e : DError K) (h : popItem det s = .error e) : s.groupSize ≠ 0 := by
  rw [popItem] at h
  split at h
  next hg => exact hg
  next =>
    split at h <;> exact absurd h (by simp)

/-- Evaluating the first visit of the top item in declare mode, key absent:
the missing prerequisites are pushed (in reverse on the stack) and the
group is finalized. -/
theorem dstep_declare_spec [DecidableEq K] [Inhabited V] (pre : K → List K)
    (f : K → List V → V) (s : DState K V) (k : K) (R : List (DItem K))
    (hitems : s.items = ⟨k, false⟩ :: R)
    (hfound : ¬ (mlookup s.memo k).isSome = true) :
    ∃ s', dstep pre f true false s = .ok s' ∧
      s'.items = ((pre k).filter (fun p => (mlookup s.memo p).isNone)).reverse.map
        (fun p => (⟨p, false⟩ : DItem K)) ++ (⟨k, true⟩ :: R) ∧
      s'.groupSize = 0 ∧ s'.memo = s.memo := by
  rw [dstep_cons_not_ready pre f true false s k R hitems, if_neg hfound, if_pos rfl]
  cases hgather : gatherList false { s with items := ⟨k, true⟩ :: R } (pre k) with
  | error e =>
    obtain ⟨s1, hs1⟩ := gatherList_false_ok (pre k) { s with items := ⟨k, true⟩ :: R }
    rw [hs1] at hgather
    exact absurd hgather (by simp)
  | ok s1 =>
    obtain ⟨hm1, hi1, _, _, _, _⟩ :=
      gatherList_ok false (pre k) { s with items := ⟨k, true⟩ :: R } s1 hgather
    obtain ⟨hfm, hfi, hfg, _, _⟩ := finalizeGroup_fields false s1
    refine ⟨finalizeGroup false s1, rfl, ?_, hfg, ?_⟩
    · rw [hfi, hi1]
    · rw [hfm, hm1]

/-- Evaluating the first visit of the top item in dry-run mode when no
prerequisite is missing: the tentative value is valid, it is emplaced and
the item is popped within the same iteration. -/
theorem dstep_dry_nomiss_spec [DecidableEq K] [Inhabited V] (pre : K → List K)
    (f : K → List V → V) (s : DState K V) (k : K) (R : List (DItem K))
    (hitems : s.items = ⟨k, false⟩ :: R) (hg : s.groupSize = 0)
    (hfound : ¬ (mlookup s.memo k).isSome = true)
    (hmiss : (pre k).filter (fun p => (mlookup s.memo p).isNone) = []) :
    ∃ s', dstep pre f false false s = .ok s' ∧ s'.items = R ∧
      s'.groupSize = 0 ∧
      s'.memo = s.memo ++ [(k, f k ((pre k).map (normalValue s.memo)))] := by
  rw [dstep_cons_not_ready pre f false false s k R hitems, if_neg hfound,
    if_neg (by simp)]
  cases hps : pushList false
      { s with items := ⟨k, true⟩ :: R,
               log := s.log ++
                 [⟨k, true,
                   ((pre k).filter (fun p => (mlookup s.memo p).isNone)).length⟩] }
      ((pre k).filter (fun p => (mlookup s.memo p).isNone)) with
  | error e =>
    obtain ⟨s2, hs2⟩ := pushList_false_ok
      ((pre k).filter (fun p => (mlookup s.memo p).isNone)) _
    rw [hs2] at hps
    exact absurd hps (by simp)
  | ok s2 =>
    obtain ⟨hm2, hi2, _, hg2, _, _⟩ := pushList_ok false _ _ s2 hps
    simp only [] at hm2 hi2 hg2
    have hgz : s2.groupSize = 0 := by
      rw [hg2, hmiss]
      simpa using hg
    simp only []
    rw [if_pos hgz]
    cases hpi : popItem false
        { s2 with memo := s2.memo ++
            [(k, f k ((pre k).map (normalValue s2.memo)))] } with
    | error e =>
      have := popItem_error_groupSize false _ e hpi
      exact absurd hgz (by simpa using this)
    | ok s4 =>
      obtain ⟨_, hm4, hg4, _, _, hcases⟩ := popItem_ok false _ s4 hpi
      simp only [] at hm4 hg4 hcases
      obtain ⟨hfm, hfi, hfg, _, _⟩ := finalizeGroup_fields false s4
      have hitems4 : s4.items = R := by
        rcases hcases with ⟨habs2, _⟩ | ⟨it, rest2, hseq, hi', _⟩
        · rw [hi2, hmiss] at habs2
          simp at habs2
        · rw [hi2, hmiss] at hseq
          simp only [List.reverse_nil, List.map_nil, List.nil_append,
            List.cons.injEq] at hseq
          rw [hi', ← hseq.2]
      refine ⟨finalizeGroup false s4, rfl, by rw [hfi, hitems4], hfg, ?_⟩
      rw [hfm, hm4, hm2]

/-- Evaluating the first visit of the top item in dry-run mode when some
prerequisite is missing: the missing ones are pushed and the group is
finalized; the map is unchanged. -/
theorem dstep_dry_miss_spec [DecidableEq K] [Inhabited V] (pre : K → List K)
    (f : K → List V → V) (s : DState K V) (k : K) (R : List (DItem K))
    (hitems : s.items = ⟨k, false⟩ :: R) (hg : s.groupSize = 0)
    (hfound : ¬ (mlookup s.memo k).isSome = true)
    (hmiss : (pre k).filter (fun p => (mlookup s.memo p).isNone) ≠ []) :
    ∃ s', dstep pre f false false s = .ok s' ∧
      s'.items = ((pre k).filter (fun p => (mlookup s.memo p).isNone)).reverse.map
        (fun p => (⟨p, false⟩ : DItem K)) ++ (⟨k, true⟩ :: R) ∧
      s'.groupSize = 0 ∧ s'.memo = s.memo := by
  rw [dstep_cons_not_ready pre f false false s k R hitems, if_neg hfound,
    if_neg (by simp)]
  cases hps : pushList false
      { s with items := ⟨k, true⟩ :: R,
               log := s.log ++
                 [⟨k, true,
                   ((pre k).filter (fun p => (mlookup s.memo p).isNone)).length⟩] }
      ((pre k).filter (fun p => (mlookup s.memo p).isNone)) with
  | error e =>
    obtain ⟨s2, hs2⟩ := pushList_false_ok
      ((pre k).filter (fun p => (mlookup s.memo p).isNone)) _
    rw [hs2] at hps
    exact absurd hps (by simp)
  | ok s2 =>
    obtain ⟨hm2, hi2, _, hg2, _, _⟩ := pushList_ok false _ _ s2 hps
    simp only [] at hm2 hi2 hg2
    have hgz : ¬ s2.groupSize = 0 := by
      rw [hg2]
      simp only [hg]
      intro hc
      exact hmiss (List.length_eq_zero.mp (by omega))
    simp only []
    rw [if_neg hgz]
    obtain ⟨hfm, hfi, hfg, _, _⟩ := finalizeGroup_fields false s2
    refine ⟨finalizeGroup false s2, rfl, ?_, hfg, ?_⟩
    · rw [hfi, hi2]
    · rw [hfm, hm2]

/-- Fully processing one first-visit item: from a state whose top item is
the unvisited item for `k`, the loop reaches in finitely many steps a state
where that item is gone, `k` is memoized, the values-map invariant is kept
and the map has only grown. Proved by accessibility induction on the
prerequisite relation. -/
theorem consume_item [DecidableEq K] [Inhabited V] (pre : K → List K)
    (f : K → List V → V) (dm : Bool) (k : K)
    (hacc : Acc (fun a b => a ∈ pre b) k) :
    ∀ (s : DState K V) (R : List (DItem K)),
      s.items = ⟨k, false⟩ :: R → s.groupSize = 0 → ValuesOk pre f s.memo →
      ∃ n s', StepsTo pre f dm false s n s' ∧ s'.items = R ∧
        s'.groupSize = 0 ∧ ValuesOk pre f s'.memo ∧
        (∃ Δ, s'.memo = s.memo ++ Δ) ∧ (mlookup s'.memo k).isSome := by
  induction hacc with
  | intro k hk ihk =>
    intro s R hitems hg hok
    by_cases hfound : (mlookup s.memo k).isSome = true
    · have hstep1 : dstep pre f dm false s = .ok { s with items := ⟨k, true⟩ :: R } := by
        rw [dstep_cons_not_ready pre f dm false s k R hitems, if_pos hfound]
      obtain ⟨s2, hstep2, hi2, hg2, hok2, hΔ2, hsk2⟩ :=
        consume_ready pre f dm k { s with items := ⟨k, true⟩ :: R } R rfl hg hok (Or.inl hfound)
      refine ⟨2, s2, ?_, hi2, hg2, hok2, hΔ2, hsk2⟩
      exact .tail s _ s2 1 (by rw [hitems]; simp) hstep1
        (.tail _ s2 s2 0 (by simp) hstep2 (.refl s2))
    · cases dm with
      | true =>
        obtain ⟨s1, hstep1, hi1, hg1, hm1⟩ :=
          dstep_declare_spec pre f s k R hitems hfound
        have hIH : ∀ p ∈ ((pre k).filter (fun p => (mlookup s.memo p).isNone)).reverse,
            ∀ (t : DState K V) (T : List (DItem K)),
              t.items = ⟨p, false⟩ :: T → t.groupSize = 0 → ValuesOk pre f t.memo →
              ∃ n t', StepsTo pre f true false t n t' ∧ t'.items = T ∧
                t'.groupSize = 0 ∧ ValuesOk pre f t'.memo ∧
                (∃ Δ, t'.memo = t.memo ++ Δ) ∧ (mlookup t'.memo p).isSome := by
          intro p hp
          exact ihk p (List.mem_filter.mp (List.mem_reverse.mp hp)).1
        obtain ⟨n2, s2, hs2, hi2, hg2, hok2, ⟨Δ2, hm2⟩, hall2⟩ :=
          consumeList pre f true _ hIH s1 (⟨k, true⟩ :: R) hi1 hg1
            (by rw [hm1]; exact hok)
        have hpre2 : ∀ p ∈ pre k, (mlookup s2.memo p).isSome = true := by
          intro p hp
          by_cases hpn : (mlookup s.memo p).isNone = true
          · exact hall2 p (List.mem_reverse.mpr (List.mem_filter.mpr ⟨hp, hpn⟩))
          · have hsome : (mlookup s.memo p).isSome = true := by
              rw [Option.isSome_iff_ne_none]
              simpa using hpn
            rw [hm2, hm1]
            exact mlookup_isSome_append _ _ _ hsome
        obtain ⟨s3, hstep3, hi3, hg3, hok3, ⟨Δ3, hm3⟩, hsk3⟩ :=
          consume_ready pre f true k s2 R hi2 hg2 hok2 (Or.inr hpre2)
        have h01 : StepsTo pre f true false s 1 s1 :=
          .tail s s1 s1 0 (by rw [hitems]; simp) hstep1 (.refl s1)
        have h23 : StepsTo pre f true false s2 1 s3 :=
          .tail s2 s3 s3 0 (by rw [hi2]; simp) hstep3 (.refl s3)
        refine ⟨1 + n2 + 1, s3, (h01.trans hs2).trans h23, hi3, hg3, hok3,
          ⟨Δ2 ++ Δ3, ?_⟩, hsk3⟩
        rw [hm3, hm2, hm1, List.append_assoc]
      | false =>
        by_cases hmiss : (pre k).filter (fun p => (mlookup s.memo p).isNone) = []
        · obtain ⟨s1, hstep1, hi1, hg1, hm1⟩ :=
            dstep_dry_nomiss_spec pre f s k R hitems hg hfound hmiss
          have hpre : ∀ p ∈ pre k, (mlookup s.memo p).isSome = true := by
            intro p hp
            by_cases hpn : (mlookup s.memo p).isNone = true
            · have hmem : p ∈ (pre k).filter (fun p => (mlookup s.memo p).isNone) :=
                List.mem_filter.mpr ⟨hp, hpn⟩
              rw [hmiss] at hmem
              simp at hmem
            · rw [Option.isSome_iff_ne_none]
              simpa using hpn
          have hnone : mlookup s.memo k = none := by
            cases hmk : mlookup s.memo k with
            | none => rfl
            | some v => exact absurd (by rw [hmk]; rfl) hfound
          refine ⟨1, s1, .tail s s1 s1 0 (by rw [hitems]; simp) hstep1 (.refl s1),
            hi1, hg1, ?_, ⟨_, hm1⟩, ?_⟩
          · rw [hm1]
            exact valuesOk_append_one pre f s.memo k _ hok hpre rfl
          · rw [hm1, mlookup_append_self s.memo k _ hnone]
            rfl
        · obtain ⟨s1, hstep1, hi1, hg1, hm1⟩ :=
            dstep_dry_miss_spec pre f s k R hitems hg hfound hmiss
          have hIH : ∀ p ∈ ((pre k).filter (fun p => (mlookup s.memo p).isNone)).reverse,
              ∀ (t : DState K V) (T : List (DItem K)),
                t.items = ⟨p, false⟩ :: T → t.groupSize = 0 → ValuesOk pre f t.memo →
                ∃ n t', StepsTo pre f false false t n t' ∧ t'.items = T ∧
                  t'.groupSize = 0 ∧ ValuesOk pre f t'.memo ∧
                  (∃ Δ, t'.memo = t.memo ++ Δ) ∧ (mlookup t'.memo p).isSome := by
            intro p hp
            exact ihk p (List.mem_filter.mp (List.mem_reverse.mp hp)).1
          obtain ⟨n2, s2, hs2, hi2, hg2, hok2, ⟨Δ2, hm2⟩, hall2⟩ :=
            consumeList pre f false _ hIH s1 (⟨k, true⟩ :: R) hi1 hg1
              (by rw [hm1]; exact hok)
          have hpre2 : ∀ p ∈ pre k, (mlookup s2.memo p).isSome = true := by
            intro p hp
            by_cases hpn : (mlookup s.memo p).isNone = true
            · exact hall2 p (List.mem_reverse.mpr (List.mem_filter.mpr ⟨hp, hpn⟩))
            · have hsome : (mlookup s.memo p).isSome = true := by
                rw [Option.isSome_iff_ne_none]
                simpa using hpn
              rw [hm2, hm1]
              exact mlookup_isSome_append _ _ _ hsome
          obtain ⟨s3, hstep3, hi3, hg3, hok3, ⟨Δ3, hm3⟩, hsk3⟩ :=
            consume_ready pre f false k s2 R hi2 hg2 hok2 (Or.inr hpre2)
          have h01 : StepsTo pre f false false s 1 s1 :=
            .tail s s1 s1 0 (by rw [hitems]; simp) hstep1 (.refl s1)
          have h23 : StepsTo pre f false false s2 1 s3 :=
            .tail s2 s3 s3 0 (by rw [hi2]; simp) hstep3 (.refl s3)
          refine ⟨1 + n2 + 1, s3, (h01.trans hs2).trans h23, hi3, hg3, hok3,
            ⟨Δ2 ++ Δ3, ?_⟩, hsk3⟩
          rw [hm3, hm2, hm1, List.append_assoc]

/-- On a graph whose root is accessible (no cycle reachable from it), a
fresh single-threaded run completes for every sufficiently large fuel,
always in the same final state, whose values map satisfies the invariant
and contains the root. -/
theorem runModel_sound [DecidableEq K] [Inhabited V] (pre : K → List K)
    (f : K → List V → V) (dm : Bool) (root : K)
    (hacc : Acc (fun a b : K => a ∈ pre b) root) :
    ∃ n s', (∀ m, n ≤ m → runModel pre f dm false root m = .done s') ∧
      ValuesOk pre f s'.memo ∧ (mlookup s'.memo root).isSome := by
  obtain ⟨n, s', hsteps, hi', hg', hok', hΔ', hsk'⟩ :=
    consume_item pre f dm root hacc
      (finalizeGroup false
        { initialState with items := ⟨root, false⟩ :: (initialState : DState K V).items,
                            pushed := (initialState : DState K V).pushed ++ [root],
                            groupSize := (initialState : DState K V).groupSize + 1 })
      [] rfl rfl trivial
  refine ⟨n, s', ?_, hok', hsk'⟩
  intro m hm
  obtain ⟨extra, hex⟩ := Nat.exists_eq_add_of_le hm
  rw [hex, runModel, pushOne_false]
  simp only []
  rw [runLoop_stepsTo pre f dm false hsteps extra]
  cases extra with
  | zero => rw [runLoop, if_pos (by rw [hi']; rfl)]
  | succ e => rw [runLoop, if_pos (by rw [hi']; rfl)]

/-- A completed run stays completed, in the same state, at any larger
fuel. -/
theorem runModel_done_le [DecidableEq K] [Inhabited V] (pre : K → List K)
    (f : K → List V → V) (dm det : Bool) (root : K) {n m : Nat} (hnm : n ≤ m)
    (t : DState K V) (h : runModel pre f dm det root n = .done t) :
    runModel pre f dm det root m = .done t := by
  rw [runModel] at h ⊢
  cases hp : pushOne det initialState root with
  | error e =>
    rw [hp] at h
    exact absurd h (by simp)
  | ok s =>
    rw [hp] at h
    simp only [] at h ⊢
    exact runLoop_done_le pre f dm det hnm _ t h

theorem chainPre_lt (a b : Nat) (h : a ∈ chainPre b) : a < b := by
  rw [chainPre] at h
  split at h
  next hb => simp at h
  next hb =>
    simp only [List.mem_singleton] at h
    omega

/-- The prerequisite relation of the linear chain is well-founded. -/
theorem chainWF : WellFounded fun a b : Nat => a ∈ chainPre b :=
  Subrelation.wf (fun h => chainPre_lt _ _ h) (Nat.lt_wfRel.wf)

/-- The denotational value of the linear chain at `i` is `i`. -/
theorem chainDenot : ∀ i, denotVal chainPre chainF chainWF i = i := by
  intro i
  induction i with
  | zero =>
    rw [denotVal_eq]
    rfl
  | succ j ih =>
    rw [denotVal_eq]
    have h1 : chainPre (j + 1) = [j] := by
      rw [chainPre]
      simp
    rw [h1]
    simp only [chainF, List.map_cons, List.map_nil, List.headD_cons]
    rw [if_neg (Nat.succ_ne_zero j), ih]
    omega

theorem mlookup_none_of_append [DecidableEq K] (m Δ : List (K × V)) (k : K)
    (h : mlookup (m ++ Δ) k = none) : mlookup m k = none := by
  cases hm : mlookup m k with
  | none => rfl
  | some v => rw [mlookup_append_some m Δ k v hm] at h; exact absurd h (by simp)

theorem append_cons_cases {α : Type} :
    ∀ (X : List α) (x : α) (R b : List α) (r : α) (a : List α),
      X ++ x :: R = b ++ r :: a →
      (∃ a₁, X = b ++ r :: a₁ ∧ a = a₁ ++ x :: R) ∨
      (b = X ∧ r = x ∧ a = R) ∨
      (∃ b₂, b = X ++ x :: b₂ ∧ R = b₂ ++ r :: a) := by
  intro X
  induction X with
  | nil =>
    intro x R b r a h
    cases b with
    | nil =>
      simp only [List.nil_append, List.cons.injEq] at h
      exact Or.inr (Or.inl ⟨rfl, h.1.symm, h.2.symm⟩)
    | cons y b' =>
      simp only [List.nil_append, List.cons_append, List.cons.injEq] at h
      exact Or.inr (Or.inr ⟨b', by rw [h.1]; rfl, h.2⟩)
  | cons z X' ih =>
    intro x R b r a h
    cases b with
    | nil =>
      simp only [List.cons_append, List.nil_append, List.cons.injEq] at h
      exact Or.inl ⟨X', by rw [h.1]; rfl, h.2.symm⟩
    | cons y b' =>
      simp only [List.cons_append, List.cons.injEq] at h
      rcases ih x R b' r a h.2 with ⟨a₁, hX, ha⟩ | ⟨hb, hr, ha⟩ | ⟨b₂, hb, hR⟩
      · exact Or.inl ⟨a₁, by rw [h.1, hX]; rfl, ha⟩
      · exact Or.inr (Or.inl ⟨by rw [h.1, hb], hr, ha⟩)
      · exact Or.inr (Or.inr ⟨b₂, by rw [h.1, hb]; rfl, hR⟩)

/-! #### The multi-threaded run: shared map, one stack per thread

`CppMemo::getValue` (cppmemo.hpp, lines 538-574) runs `run(i, ...)` on
`numThreads` threads over the one shared insert-only `values` map; each
thread owns its stack and repeats the loop body of lines 487-534.  The
embedding below is that loop body as a small-step relation on the pair
(shared map, this thread's stack): prerequisite values are read from the
shared map at use time (they are immutable once inserted, and the map's
insert keeps the first value), and the reordering that
`ThreadItemsStack::finalizeGroup` (lines 344-361) applies to the freshly
pushed group of every thread other than 0 is an arbitrary permutation of
that group (thread 0 keeps the identity).  A whole loop iteration is one
step; this is faithful for the values because prerequisite entries never
change after insertion.  Detection is off, as in `getValue`. -/

/-- One iteration of `CppMemo::run`'s loop by one thread over the shared
map: flip a found unvisited item, pop a found ready item, publish-and-pop
a ready item whose key is still absent (also directly from the dry run
when nothing was missing), or push the missing prerequisites — in any
order chosen by the group reordering — above the flipped item. -/
inductive TStep [DecidableEq K] [Inhabited V] (pre : K → List K)
    (f : K → List V → V) (dm : Bool) :
    List (K × V) → List (DItem K) → List (K × V) → List (DItem K) → Prop where
  | flipFound : ∀ (memo : List (K × V)) (k : K) (R : List (DItem K)),
      (mlookup memo k).isSome = true →
      TStep pre f dm memo (⟨k, false⟩ :: R) memo (⟨k, true⟩ :: R)
  | readyFound : ∀ (memo : List (K × V)) (k : K) (R : List (DItem K)),
      (mlookup memo k).isSome = true →
      TStep pre f dm memo (⟨k, true⟩ :: R) memo R
  | readyPublish : ∀ (memo : List (K × V)) (k : K) (R : List (DItem K)),
      mlookup memo k = none →
      TStep pre f dm memo (⟨k, true⟩ :: R)
        (memo ++ [(k, f k ((pre k).map (normalValue memo)))]) R
  | dryPublish : ∀ (memo : List (K × V)) (k : K) (R : List (DItem K)),
      dm = false → mlookup memo k = none →
      (pre k).filter (fun p => (mlookup memo p).isNone) = [] →
      TStep pre f dm memo (⟨k, false⟩ :: R)
        (memo ++ [(k, f k ((pre k).map (normalValue memo)))]) R
  | expand : ∀ (memo : List (K × V)) (k : K) (R : List (DItem K)) (μ : List K),
      mlookup memo k = none →
      (dm = false → (pre k).filter (fun p => (mlookup memo p).isNone) ≠ []) →
      μ.Perm ((pre k).filter (fun p => (mlookup memo p).isNone)) →
      TStep pre f dm memo (⟨k, false⟩ :: R) memo
        (μ.reverse.map (fun p => (⟨p, false⟩ : DItem K)) ++ ⟨k, true⟩ :: R)

/-- One step of the whole system: some thread performs one iteration. -/
inductive SysStep [DecidableEq K] [Inhabited V] (pre : K → List K)
    (f : K → List V → V) (dm : Bool) :
    List (K × V) × List (List (DItem K)) →
    List (K × V) × List (List (DItem K)) → Prop where
  | step : ∀ (memo memo' : List (K × V)) (ts : List (List (DItem K)))
      (i : Nat) (h : i < ts.length) (items' : List (DItem K)),
      TStep pre f dm memo (ts.get ⟨i, h⟩) memo' items' →
      SysStep pre f dm (memo, ts) (memo', ts.set i items')

/-- The per-thread invariant over the shared map: every prerequisite of an
in-progress (ready, not yet published) item is memoized or stacked above
it, and the root is memoized or still on this thread's stack. -/
def TInv [DecidableEq K] (pre : K → List K) (root : K) (memo : List (K × V))
    (items : List (DItem K)) : Prop :=
  (∀ b r a, items = b ++ r :: a → r.ready = true → mlookup memo r.key = none →
    ∀ p ∈ pre r.key, (mlookup memo p).isSome = true ∨ ∃ u ∈ b, u.key = p) ∧
  ((mlookup memo root).isSome = true ∨ root ∈ items.map DItem.key)

/-- The system invariant: the shared map satisfies the values invariant
and every thread's stack satisfies the per-thread invariant. -/
def GInv [DecidableEq K] [Inhabited V] (pre : K → List K)
    (f : K → List V → V) (root : K)
    (st : List (K × V) × List (List (DItem K))) : Prop :=
  ValuesOk pre f st.1 ∧ ∀ s ∈ st.2, TInv pre root st.1 s

/-- The per-thread invariant is stable under any growth of the shared map
(inserts by other threads). -/
theorem tinv_mono [DecidableEq K] (pre : K → List K) (root : K)
    (memo Δ : List (K × V)) (items : List (DItem K))
    (h : TInv pre root memo items) : TInv pre root (memo ++ Δ) items := by
  obtain ⟨hrp, hri⟩ := h
  constructor
  · intro b r a hba hr hnone p hp
    rcases hrp b r a hba hr (mlookup_none_of_append _ _ _ hnone) p hp with hs | hw
    · exact Or.inl (mlookup_isSome_append _ _ _ hs)
    · exact Or.inr hw
  · rcases hri with hs | hm
    · exact Or.inl (mlookup_isSome_append _ _ _ hs)
    · exact Or.inr hm

theorem tstep_memo_extends [DecidableEq K] [Inhabited V] {pre : K → List K}
    {f : K → List V → V} {dm : Bool} {memo memo' : List (K × V)}
    {items items' : List (DItem K)}
    (h : TStep pre f dm memo items memo' items') : ∃ Δ, memo' = memo ++ Δ := by
  cases h with
  | flipFound k R hf => exact ⟨[], by simp⟩
  | readyFound k R hf => exact ⟨[], by simp⟩
  | readyPublish k R hn => exact ⟨_, rfl⟩
  | dryPublish k R hdm hn hfil => exact ⟨_, rfl⟩
  | expand k R μ hn hdm hperm => exact ⟨[], by simp⟩

/-- One thread iteration preserves the values invariant of the shared map
and this thread's invariant. -/
theorem tstep_inv [DecidableEq K] [Inhabited V] (pre : K → List K)
    (f : K → List V → V) (dm : Bool) (root : K)
    (memo memo' : List (K × V)) (items items' : List (DItem K))
    (h : TStep pre f dm memo items memo' items')
    (hok : ValuesOk pre f memo) (hinv : TInv pre root memo items) :
    ValuesOk pre f memo' ∧ TInv pre root memo' items' := by
  obtain ⟨hrp, hri⟩ := hinv
  cases h with
  | flipFound k R hf =>
    refine ⟨hok, ?_, ?_⟩
    · intro b r a hba hr hnone p hp
      cases b with
      | nil =>
        simp only [List.nil_append, List.cons.injEq] at hba
        rw [← hba.1] at hnone
        have hnone2 : mlookup memo k = none := hnone
        rw [hnone2] at hf
        exact absurd hf (by simp)
      | cons y b₂ =>
        simp only [List.cons_append, List.cons.injEq] at hba
        rcases hrp (⟨k, false⟩ :: b₂) r a (by rw [hba.2]; rfl) hr hnone p hp with
          hs | ⟨u, hu, hukey⟩
        · exact Or.inl hs
        · rcases List.mem_cons.mp hu with rfl | hub
          · exact Or.inr ⟨y, List.mem_cons_self _ _, by rw [← hba.1, ← hukey]⟩
          · exact Or.inr ⟨u, List.mem_cons_of_mem y hub, hukey⟩
    · rcases hri with hs | hm
      · exact Or.inl hs
      · right
        simp only [List.map_cons, List.mem_cons] at hm ⊢
        exact hm
  | readyFound k R hf =>
    refine ⟨hok, ?_, ?_⟩
    · intro b r a hba hr hnone p hp
      rcases hrp (⟨k, true⟩ :: b) r a (by rw [hba]; rfl) hr hnone p hp with
        hs | ⟨u, hu, hukey⟩
      · exact Or.inl hs
      · rcases List.mem_cons.mp hu with rfl | hub
        · exact Or.inl (by rw [← hukey]; exact hf)
        · exact Or.inr ⟨u, hub, hukey⟩
    · rcases hri with hs | hm
      · exact Or.inl hs
      · simp only [List.map_cons, List.mem_cons] at hm
        rcases hm with he | hm2
        · exact Or.inl (by rw [he]; exact hf)
        · exact Or.inr hm2
  | readyPublish k R hn =>
    have hpre : ∀ p ∈ pre k, (mlookup memo p).isSome = true := by
      intro p hp
      rcases hrp [] ⟨k, true⟩ _ rfl rfl hn p hp with hs | ⟨u, hu, _⟩
      · exact hs
      · exact absurd hu (by simp)
    refine ⟨valuesOk_append_one pre f memo k _ hok hpre rfl, ?_, ?_⟩
    · intro b r a hba hr hnone p hp
      have hnone0 := mlookup_none_of_append _ _ _ hnone
      rcases hrp (⟨k, true⟩ :: b) r a (by rw [hba]; rfl) hr hnone0 p hp with
        hs | ⟨u, hu, hukey⟩
      · exact Or.inl (mlookup_isSome_append _ _ _ hs)
      · rcases List.mem_cons.mp hu with rfl | hub
        · left
          rw [← hukey]
          have h2 : mlookup (memo ++ [(k, f k ((pre k).map (normalValue memo)))]) k =
              some (f k ((pre k).map (normalValue memo))) :=
            mlookup_append_self memo k _ hn
          rw [h2]
          rfl
        · exact Or.inr ⟨u, hub, hukey⟩
    · rcases hri with hs | hm
      · exact Or.inl (mlookup_isSome_append _ _ _ hs)
      · simp only [List.map_cons, List.mem_cons] at hm
        rcases hm with he | hm2
        · left
          rw [he, mlookup_append_self memo k _ hn]
          rfl
        · exact Or.inr hm2
  | dryPublish k R hdm hn hfil =>
    have hpre : ∀ p ∈ pre k, (mlookup memo p).isSome = true := by
      intro p hp
      by_cases hpn : (mlookup memo p).isNone = true
      · have hmem : p ∈ (pre k).filter (fun p => (mlookup memo p).isNone) :=
          List.mem_filter.mpr ⟨hp, hpn⟩
        rw [hfil] at hmem
        exact absurd hmem (by simp)
      · rw [Option.isSome_iff_ne_none]
        intro hc
        exact hpn (by rw [hc]; rfl)
    refine ⟨valuesOk_append_one pre f memo k _ hok hpre rfl, ?_, ?_⟩
    · intro b r a hba hr hnone p hp
      have hnone0 := mlookup_none_of_append _ _ _ hnone
      rcases hrp (⟨k, false⟩ :: b) r a (by rw [hba]; rfl) hr hnone0 p hp with
        hs | ⟨u, hu, hukey⟩
      · exact Or.inl (mlookup_isSome_append _ _ _ hs)
      · rcases List.mem_cons.mp hu with rfl | hub
        · left
          rw [← hukey]
          have h2 : mlookup (memo ++ [(k, f k ((pre k).map (normalValue memo)))]) k =
              some (f k ((pre k).map (normalValue memo))) :=
            mlookup_append_self memo k _ hn
          rw [h2]
          rfl
        · exact Or.inr ⟨u, hub, hukey⟩
    · rcases hri with hs | hm
      · exact Or.inl (mlookup_isSome_append _ _ _ hs)
      · simp only [List.map_cons, List.mem_cons] at hm
        rcases hm with he | hm2
        · left
          rw [he, mlookup_append_self memo k _ hn]
          rfl
        · exact Or.inr hm2
  | expand k R μ hn hdm hperm =>
    refine ⟨hok, ?_, ?_⟩
    · intro b r a hba hr hnone p hp
      rcases append_cons_cases _ _ _ _ _ _ hba with
        ⟨a₁, hX, _⟩ | ⟨hb, hrx, _⟩ | ⟨b₂, hb, hR⟩
      · have hrb : r ∈ μ.reverse.map (fun p => (⟨p, false⟩ : DItem K)) := by
          rw [hX]
          exact List.mem_append.mpr (Or.inr (List.mem_cons_self _ _))
        obtain ⟨q, _, hqr⟩ := List.mem_map.mp hrb
        rw [← hqr] at hr
        exact absurd hr (by simp)
      · have hp2 : p ∈ pre k := by
          rw [hrx] at hp
          exact hp
        by_cases hpn : (mlookup memo p).isNone = true
        · right
          refine ⟨⟨p, false⟩, ?_, rfl⟩
          rw [hb]
          exact List.mem_map.mpr ⟨p, List.mem_reverse.mpr
            (hperm.mem_iff.mpr (List.mem_filter.mpr ⟨hp2, hpn⟩)), rfl⟩
        · left
          rw [Option.isSome_iff_ne_none]
          intro hc
          exact hpn (by rw [hc]; rfl)
      · rcases hrp (⟨k, false⟩ :: b₂) r a (by rw [hR]; rfl) hr hnone p hp with
          hs | ⟨u, hu, hukey⟩
        · exact Or.inl hs
        · rcases List.mem_cons.mp hu with rfl | hub
          · right
            refine ⟨⟨k, true⟩, ?_, hukey⟩
            rw [hb]
            exact List.mem_append_right _ (List.mem_cons_self _ _)
          · right
            refine ⟨u, ?_, hukey⟩
            rw [hb]
            exact List.mem_append_right _ (List.mem_cons_of_mem _ hub)
    · rcases hri with hs | hm
      · exact Or.inl hs
      · right
        simp only [List.map_cons, List.mem_cons] at hm
        rw [List.map_append, List.map_cons]
        rcases hm with he | hm2
        · exact List.mem_append_right _ (by rw [he]; exact List.mem_cons_self _ _)
        · exact List.mem_append_right _ (List.mem_cons_of_mem _ hm2)

/-- A system step — any thread moving — preserves the system invariant. -/
theorem sysStep_ginv [DecidableEq K] [Inhabited V] (pre : K → List K)
    (f : K → List V → V) (dm : Bool) (root : K)
    (st st' : List (K × V) × List (List (DItem K)))
    (h : SysStep pre f dm st st') (hg : GInv pre f root st) :
    GInv pre f root st' := by
  cases h with
  | step memo memo' ts i hi items' ht =>
    obtain ⟨hok, hts⟩ := hg
    obtain ⟨hok', hinv'⟩ := tstep_inv pre f dm root memo memo' (ts.get ⟨i, hi⟩)
      items' ht hok (hts _ (ts.get_mem i hi))
    obtain ⟨Δ, hΔ⟩ := tstep_memo_extends ht
    refine ⟨hok', ?_⟩
    intro s hs
    rcases List.mem_or_eq_of_mem_set hs with hmem | heq
    · rw [hΔ]
      exact tinv_mono pre root memo Δ s (hts s hmem)
    · rw [heq]
      exact hinv'

theorem reach_ginv [DecidableEq K] [Inhabited V] (pre : K → List K)
    (f : K → List V → V) (dm : Bool) (root : K)
    (st₀ st : List (K × V) × List (List (DItem K)))
    (h : Relation.ReflTransGen (SysStep pre f dm) st₀ st)
    (h0 : GInv pre f root st₀) : GInv pre f root st := by
  induction h with
  | refl => exact h0
  | tail h₁ h₂ ih => exact sysStep_ginv pre f dm root _ _ h₂ ih

/-- The fresh system — each of the `numThreads` threads about to push the
root — satisfies the invariant. -/
theorem initSys_ginv [DecidableEq K] [Inhabited V] (pre : K → List K)
    (f : K → List V → V) (root : K) (numThreads : Nat) :
    GInv pre f root
      (([], List.replicate numThreads [(⟨root, false⟩ : DItem K)]) :
        List (K × V) × List (List (DItem K))) := by
  constructor
  · exact trivial
  · intro s hs
    have hs2 : s = [⟨root, false⟩] := List.eq_of_mem_replicate hs
    rw [hs2]
    constructor
    · intro b r a hba hr _ p _
      cases b with
      | nil =>
        simp only [List.nil_append, List.cons.injEq] at hba
        rw [← hba.1] at hr
        exact absurd hr (by simp)
      | cons y b' =>
        simp only [List.cons_append, List.cons.injEq] at hba
        exact absurd hba.2.symm (by simp)
    · right
      simp

/-- In any reachable system state in which some thread's stack has
emptied (its `run` returned), the shared map holds the root at the
denotational value — for every thread count, every schedule, every group
reordering and both discovery modes. -/
theorem multithread_value [DecidableEq K] [Inhabited V] (pre : K → List K)
    (f : K → List V → V) (hwf : WellFounded fun a b : K => a ∈ pre b)
    (root : K) (dm : Bool) (numThreads : Nat)
    (memo : List (K × V)) (ts : List (List (DItem K)))
    (hreach : Relation.ReflTransGen (SysStep pre f dm)
      ([], List.replicate numThreads [(⟨root, false⟩ : DItem K)]) (memo, ts))
    (s : List (DItem K)) (hs : s ∈ ts) (hdone : s = []) :
    mlookup memo root = some (denotVal pre f hwf root) := by
  obtain ⟨hok, hts⟩ := reach_ginv pre f dm root _ _ hreach
    (initSys_ginv pre f root numThreads)
  obtain ⟨_, hri⟩ := hts s hs
  rcases hri with hsome | hm
  · obtain ⟨v, hv⟩ := Option.isSome_iff_exists.mp hsome
    rw [hv, valuesOk_denot pre f hwf memo hok root v hv]
  · rw [hdone] at hm
    simp at hm

/-- C1: for a pure `Compute` whose prerequisite relation is well-founded
(every dependency graph reachable from a key is acyclic), `getValue` on a
fresh engine returns, from some fuel on and in both discovery modes
(dry-run and explicit declaration), exactly the denotational value
obtained by recursively applying `Compute` to the values of its
prerequisites; every value it ever returns equals that denotation; for
any `numThreads ≥ 1`, any schedule and any group reordering, whenever a
thread of the shared-map system completes its run the shared map holds
that same denotational value for the root (so the value returned after
the join is the same for every thread count and both modes); and on the
linear chain `Compute i p = if i = 0 then 0 else 1 + p (i-1)` with
explicit declaration, `getValue 200 = 200`. -/
theorem getValue_deterministic [DecidableEq K] [Inhabited V] (pre : K → List K)
    (f : K → List V → V) (hwf : WellFounded fun a b : K => a ∈ pre b) (root : K) :
    (∃ n, ∀ m, n ≤ m → ∀ dm : Bool,
        getValueSingle pre f dm false root m = some (denotVal pre f hwf root)) ∧
    (∀ (dm : Bool) (m : Nat) (v : V),
        getValueSingle pre f dm false root m = some v →
          v = denotVal pre f hwf root) ∧
    (∀ (numThreads : Nat), 1 ≤ numThreads → ∀ (dm : Bool)
        (memo : List (K × V)) (ts : List (List (DItem K))),
        Relation.ReflTransGen (SysStep pre f dm)
          ([], List.replicate numThreads [(⟨root, false⟩ : DItem K)]) (memo, ts) →
        ∀ s ∈ ts, s = [] →
          mlookup memo root = some (denotVal pre f hwf root)) ∧
    (∃ n, ∀ m, n ≤ m →
        getValueSingle chainPre chainF true false 200 m = some 200) := by
  have hmain : ∀ dm : Bool, ∃ n s',
      (∀ m, n ≤ m → runModel pre f dm false root m = .done s') ∧
      ValuesOk pre f s'.memo ∧
      mlookup s'.memo root = some (denotVal pre f hwf root) := by
    intro dm
    obtain ⟨n, s', hdone, hok, hsome⟩ := runModel_sound pre f dm root (hwf.apply root)
    obtain ⟨v, hv⟩ := Option.isSome_iff_exists.mp hsome
    have hveq := valuesOk_denot pre f hwf s'.memo hok root v hv
    exact ⟨n, s', hdone, hok, by rw [hv, hveq]⟩
  obtain ⟨n0, s0, hd0, hok0, hl0⟩ := hmain false
  obtain ⟨n1, s1, hd1, hok1, hl1⟩ := hmain true
  refine ⟨⟨max n0 n1, ?_⟩, ?_, ?_, ?_⟩
  · intro m hm dm
    cases dm with
    | false =>
      rw [getValueSingle, hd0 m (le_trans (Nat.le_max_left _ _) hm)]
      exact hl0
    | true =>
      rw [getValueSingle, hd1 m (le_trans (Nat.le_max_right _ _) hm)]
      exact hl1
  · intro dm m v hv
    rw [getValueSingle] at hv
    cases hr : runModel pre f dm false root m with
    | done s =>
      rw [hr] at hv
      simp only [] at hv
      cases dm with
      | false =>
        have h1 : runModel pre f false false root (max m n0) = .done s :=
          runModel_done_le pre f false false root (Nat.le_max_left _ _) s hr
        have h2 : runModel pre f false false root (max m n0) = .done s0 :=
          hd0 _ (Nat.le_max_right _ _)
        rw [h1] at h2
        simp only [RunResult.done.injEq] at h2
        rw [h2, hl0] at hv
        simp only [Option.some.injEq] at hv
        exact hv.symm
      | true =>
        have h1 : runModel pre f true false root (max m n1) = .done s :=
          runModel_done_le pre f true false root (Nat.le_max_left _ _) s hr
        have h2 : runModel pre f true false root (max m n1) = .done s1 :=
          hd1 _ (Nat.le_max_right _ _)
        rw [h1] at h2
        simp only [RunResult.done.injEq] at h2
        rw [h2, hl1] at hv
        simp only [Option.some.injEq] at hv
        exact hv.symm
    | outOfFuel =>
      rw [hr] at hv
      simp only [] at hv
      exact absurd hv (by simp)
    | err e =>
      rw [hr] at hv
      simp only [] at hv
      exact absurd hv (by simp)
  · intro numThreads _ dm memo ts hreach s hs hdone
    exact multithread_value pre f hwf root dm numThreads memo ts hreach s hs hdone
  · obtain ⟨n, s', hdone, hok, hsome⟩ :=
      runModel_sound chainPre chainF true 200 (chainWF.apply 200)
    obtain ⟨v, hv⟩ := Option.isSome_iff_exists.mp hsome
    have hveq : v = 200 := by
      have := valuesOk_denot chainPre chainF chainWF s'.memo hok 200 v hv
      rw [this, chainDenot]
    refine ⟨n, ?_⟩
    intro m hm
    rw [getValueSingle, hdone m hm]
    show mlookup s'.memo 200 = some 200
    rw [hv, hveq]

/-- Witness for C1 at the linear chain with root `200`: the well-founded
hypothesis is discharged by `chainWF`. -/
theorem getValue_deterministic_witness :
    (∃ n, ∀ m, n ≤ m → ∀ dm : Bool,
        getValueSingle chainPre chainF dm false 200 m =
          some (denotVal chainPre chainF chainWF 200)) ∧
    (∀ (dm : Bool) (m : Nat) (v : Nat),
        getValueSingle chainPre chainF dm false 200 m = some v →
          v = denotVal chainPre chainF chainWF 200) ∧
    (∀ (numThreads : Nat), 1 ≤ numThreads → ∀ (dm : Bool)
        (memo : List (Nat × Nat)) (ts : List (List (DItem Nat))),
        Relation.ReflTransGen (SysStep chainPre chainF dm)
          ([], List.replicate numThreads [(⟨200, false⟩ : DItem Nat)]) (memo, ts) →
        ∀ s ∈ ts, s = [] →
          mlookup memo 200 = some (denotVal chainPre chainF chainWF 200)) ∧
    (∃ n, ∀ m, n ≤ m →
        getValueSingle chainPre chainF true false 200 m = some 200) :=
  getValue_deterministic chainPre chainF chainWF 200

/-! ### Claim C5: cycle detection -/

theorem filter_length_mono {α : Type} (l : List α) (p q : α → Bool)
    (h : ∀ x ∈ l, p x = true → q x = true) :
    (l.filter p).length ≤ (l.filter q).length := by
  induction l with
  | nil => exact Nat.le_refl 0
  | cons a t ih =>
    have iht := ih (fun x hx => h x (List.mem_cons_of_mem a hx))
    rw [List.filter_cons, List.filter_cons]
    cases hp : p a with
    | true =>
      rw [h a (List.mem_cons_self a t) hp]
      simp only [if_pos rfl, List.length_cons]
      exact Nat.succ_le_succ iht
    | false =>
      cases hq : q a with
      | true =>
        simp only [if_neg Bool.false_ne_true, if_pos rfl, List.length_cons]
        exact Nat.le_succ_of_le iht
      | false =>
        simp only [if_neg Bool.false_ne_true]
        exact iht

theorem filter_length_lt {α : Type} (l : List α) (p q : α → Bool)
    (h : ∀ x ∈ l, p x = true → q x = true) (x0 : α) (hx0 : x0 ∈ l)
    (hq : q x0 = true) (hp : p x0 = false) :
    (l.filter p).length < (l.filter q).length := by
  induction l with
  | nil => exact absurd hx0 (by simp)
  | cons a t ih =>
    rw [List.filter_cons, List.filter_cons]
    rcases List.mem_cons.mp hx0 with he | ht
    · subst he
      rw [hp, hq]
      simp only [if_neg Bool.false_ne_true, if_pos rfl, List.length_cons]
      exact Nat.lt_succ_of_le (filter_length_mono t p q
        (fun x hx => h x (List.mem_cons_of_mem x0 hx)))
    · have iht := ih (fun x hx => h x (List.mem_cons_of_mem a hx)) ht
      cases hpa : p a with
      | true =>
        rw [h a (List.mem_cons_self a t) hpa]
        simp only [if_pos rfl, List.length_cons]
        exact Nat.succ_lt_succ iht
      | false =>
        cases hqa : q a with
        | true =>
          simp only [if_neg Bool.false_ne_true, if_pos rfl, List.length_cons]
          exact Nat.lt_succ_of_lt iht
        | false =>
          simp only [if_neg Bool.false_ne_true]
          exact iht

theorem mem_setInsert [DecidableEq K] (s : List K) (j k : K) :
    k ∈ setInsert s j ↔ k = j ∨ k ∈ s := by
  rw [setInsert]
  split
  next hj =>
    constructor
    · exact fun h => Or.inr h
    · rintro (rfl | h)
      · exact hj
      · exact h
  next hj => simp

theorem nodup_setInsert [DecidableEq K] (s : List K) (j : K) (h : s.Nodup) :
    (setInsert s j).Nodup := by
  rw [setInsert]
  split
  next => exact h
  next hj => exact List.nodup_cons.mpr ⟨hj, h⟩

theorem mem_of_mem_setErase [DecidableEq K] :
    ∀ (s : List K) (j k : K), k ∈ setErase s j → k ∈ s := by
  intro s
  induction s with
  | nil => intro j k h; exact absurd h (by rw [setErase] at h ⊢; simp at h)
  | cons a t ih =>
    intro j k h
    rw [setErase] at h
    split at h
    · exact List.mem_cons_of_mem a h
    · rcases List.mem_cons.mp h with rfl | ht
      · exact List.mem_cons_self _ _
      · exact List.mem_cons_of_mem a (ih j k ht)

theorem mem_setErase_of_ne [DecidableEq K] :
    ∀ (s : List K) (j k : K), k ∈ s → k ≠ j → k ∈ setErase s j := by
  intro s
  induction s with
  | nil => intro j k h _; exact absurd h (by simp)
  | cons a t ih =>
    intro j k h hne
    rw [setErase]
    split
    next ha =>
      rcases List.mem_cons.mp h with rfl | ht
      · exact absurd ha hne
      · exact ht
    next ha =>
      rcases List.mem_cons.mp h with rfl | ht
      · exact List.mem_cons_self k (setErase t j)
      · exact List.mem_cons_of_mem a (ih j k ht hne)

theorem not_mem_setErase_self [DecidableEq K] :
    ∀ (s : List K) (j : K), s.Nodup → j ∉ setErase s j := by
  intro s
  induction s with
  | nil => intro j _; rw [setErase]; simp
  | cons a t ih =>
    intro j hnd
    rw [setErase]
    split
    next ha =>
      intro hj
      subst ha
      exact (List.nodup_cons.mp hnd).1 hj
    next ha =>
      intro hj
      rcases List.mem_cons.mp hj with rfl | ht
      · exact ha rfl
      · exact ih j (List.nodup_cons.mp hnd).2 ht

theorem nodup_setErase [DecidableEq K] :
    ∀ (s : List K) (j : K), s.Nodup → (setErase s j).Nodup := by
  intro s
  induction s with
  | nil => intro j _; rw [setErase]; exact List.nodup_nil
  | cons a t ih =>
    intro j hnd
    obtain ⟨hna, hnt⟩ := List.nodup_cons.mp hnd
    rw [setErase]
    split
    · exact hnt
    · exact List.nodup_cons.mpr
        ⟨fun hmem => hna (mem_of_mem_setErase t j a hmem), ih j hnt⟩

theorem mem_foldl_setInsert [DecidableEq K] :
    ∀ (ks : List K) (s : List K) (k : K),
      k ∈ ks.foldl setInsert s ↔ k ∈ s ∨ k ∈ ks := by
  intro ks
  induction ks with
  | nil => intro s k; simp
  | cons a t ih =>
    intro s k
    rw [List.foldl_cons, ih, mem_setInsert]
    constructor
    · rintro ((rfl | hs) | ht)
      · exact Or.inr (List.mem_cons_self _ _)
      · exact Or.inl hs
      · exact Or.inr (List.mem_cons_of_mem a ht)
    · rintro (hs | hat)
      · exact Or.inl (Or.inr hs)
      · rcases List.mem_cons.mp hat with rfl | ht
        · exact Or.inl (Or.inl rfl)
        · exact Or.inr ht

theorem nodup_foldl_setInsert [DecidableEq K] :
    ∀ (ks : List K) (s : List K), s.Nodup → (ks.foldl setInsert s).Nodup := by
  intro ks
  induction ks with
  | nil => intro s h; exact h
  | cons a t ih => intro s h; exact ih _ (nodup_setInsert s a h)


/-- The cost of one stack item for the termination measure: an unvisited
item still owes its expansion visit and its pop. -/
def itemCost (it : DItem K) : Nat := if it.ready then 1 else 2

/-- The stack component of the termination measure. -/
def stackCost (items : List (DItem K)) : Nat := (items.map itemCost).sum

/-- Whether some stacked item is the in-progress (ready, second-visit)
item of key `k`. -/
def hasReadyItem [DecidableEq K] (items : List (DItem K)) (k : K) : Bool :=
  items.any fun it => it.ready && decide (it.key = k)

/-- The number of keys of the universe that are neither memoized nor have
an in-progress stacked item: the dominant component of the measure. -/
def pendingCount [DecidableEq K] (L : List K) (memo : List (K × V))
    (items : List (DItem K)) : Nat :=
  (L.dedup.filter fun j =>
    (mlookup memo j).isNone && !(hasReadyItem items j)).length

/-- A bound on the number of prerequisites of any key of the universe. -/
def maxPre (pre : K → List K) (L : List K) : Nat :=
  (L.map fun k => (pre k).length).foldr max 0

/-- The termination measure of the run loop with detection on. -/
def cmeasure [DecidableEq K] (pre : K → List K) (L : List K)
    (s : DState K V) : Nat :=
  pendingCount L s.memo s.items * (2 * maxPre pre L + 1) + stackCost s.items

theorem length_pre_le_maxPre (pre : K → List K) :
    ∀ (L : List K) (k : K), k ∈ L → (pre k).length ≤ maxPre pre L := by
  intro L
  induction L with
  | nil => intro k h; exact absurd h (by simp)
  | cons a t ih =>
    intro k h
    rw [maxPre, List.map_cons, List.foldr_cons]
    rcases List.mem_cons.mp h with rfl | ht
    · exact Nat.le_max_left _ _
    · exact Nat.le_trans (ih k ht) (Nat.le_max_right _ _)

theorem stackCost_eq_zero (items : List (DItem K))
    (h : stackCost items = 0) : items = [] := by
  cases items with
  | nil => rfl
  | cons it rest =>
    rw [stackCost, List.map_cons, List.sum_cons, itemCost] at h
    split at h <;> omega

theorem hasReadyItem_false_iff [DecidableEq K] (items : List (DItem K)) (j : K) :
    hasReadyItem items j = false ↔
      ∀ it ∈ items, it.ready = true → it.key ≠ j := by
  rw [hasReadyItem, List.any_eq_false]
  constructor
  · intro h it hmem hr hk
    have := h it hmem
    rw [hr, hk] at this
    simp at this
  · intro h it hmem
    cases hr : it.ready with
    | false => simp
    | true =>
      simp only [Bool.true_and, decide_eq_true_eq]
      exact h it hmem hr

theorem hasReadyItem_true_of [DecidableEq K] (items : List (DItem K)) (j : K)
    (it : DItem K) (hmem : it ∈ items) (hr : it.ready = true)
    (hk : it.key = j) : hasReadyItem items j = true := by
  rw [hasReadyItem, List.any_eq_true]
  exact ⟨it, hmem, by rw [hr, hk]; simp⟩


theorem acc_irrefl {α : Type} {s : α → α → Prop} {x : α} (h : Acc s x) :
    ¬ s x x := by
  induction h with
  | intro x _ ih =>
    intro hxx
    exact ih x hxx hxx

theorem acc_no_cycle {α : Type} {r : α → α → Prop} {x : α} (h : Acc r x) :
    ¬ Relation.TransGen r x x :=
  acc_irrefl h.transGen

theorem acc_of_reflTransGen {α : Type} {r : α → α → Prop} {a b : α}
    (h : Relation.ReflTransGen r a b) : Acc r b → Acc r a := by
  induction h with
  | refl => exact id
  | tail h₁ h₂ ih => exact fun hb => ih (hb.inv h₂)

theorem pushOne_true_error [DecidableEq K] (s : DState K V) (k : K) (e : DError K)
    (h : pushOne true s k = .error e) :
    k ∈ s.itemsSet ∧ e = .circular (keysBottomTop (⟨k, false⟩ :: s.items)) := by
  rw [pushOne, if_pos rfl] at h
  split at h
  next hin =>
    simp only [Except.error.injEq] at h
    exact ⟨hin, h.symm⟩
  next hin => exact absurd h (by simp)

theorem pushOne_true_ok_notin [DecidableEq K] (s s' : DState K V) (k : K)
    (h : pushOne true s k = .ok s') : k ∉ s.itemsSet := by
  rw [pushOne, if_pos rfl] at h
  split at h
  next hin => exact absurd h (by simp)
  next hin => exact hin

theorem pushList_true_error [DecidableEq K] :
    ∀ (l : List K) (s : DState K V) (e : DError K), pushList true s l = .error e →
      ∃ j pref, j ∈ s.itemsSet ∧
        e = .circular (keysBottomTop ((⟨j, false⟩ : DItem K) :: (pref ++ s.items))) := by
  intro l
  induction l with
  | nil =>
    intro s e h
    rw [pushList] at h
    exact absurd h (by simp)
  | cons k rest ih =>
    intro s e h
    rw [pushList] at h
    cases hp : pushOne true s k with
    | error e0 =>
      rw [hp] at h
      simp only [Except.error.injEq] at h
      obtain ⟨hin, he0⟩ := pushOne_true_error s k e0 hp
      refine ⟨k, [], hin, ?_⟩
      rw [← h, he0]
      rfl
    | ok s1 =>
      rw [hp] at h
      obtain ⟨j, pref, hin, he⟩ := ih s1 e h
      obtain ⟨_, hi1, hs1, _, _, _⟩ := pushOne_ok true s k s1 hp
      refine ⟨j, pref ++ [⟨k, false⟩], ?_, ?_⟩
      · rw [hs1] at hin
        exact hin
      · rw [he, hi1, List.append_assoc]
        rfl

theorem gatherList_true_error [DecidableEq K] :
    ∀ (l : List K) (s : DState K V) (e : DError K), gatherList true s l = .error e →
      ∃ j pref, j ∈ s.itemsSet ∧
        e = .circular (keysBottomTop ((⟨j, false⟩ : DItem K) :: (pref ++ s.items))) := by
  intro l
  induction l with
  | nil =>
    intro s e h
    rw [gatherList] at h
    exact absurd h (by simp)
  | cons k rest ih =>
    intro s e h
    rw [gatherList] at h
    split at h
    next hmiss =>
      cases hp : pushOne true s k with
      | error e0 =>
        rw [hp] at h
        simp only [Except.error.injEq] at h
        obtain ⟨hin, he0⟩ := pushOne_true_error s k e0 hp
        refine ⟨k, [], hin, ?_⟩
        rw [← h, he0]
        rfl
      | ok s1 =>
        rw [hp] at h
        obtain ⟨j, pref, hin, he⟩ := ih s1 e h
        obtain ⟨_, hi1, hs1, _, _, _⟩ := pushOne_ok true s k s1 hp
        refine ⟨j, pref ++ [⟨k, false⟩], ?_, ?_⟩
        · rw [hs1] at hin
          exact hin
        · rw [he, hi1, List.append_assoc]
          rfl
    next hmiss => exact ih s e h

theorem pushList_true_ok_notin [DecidableEq K] :
    ∀ (l : List K) (s s' : DState K V), pushList true s l = .ok s' →
      ∀ p ∈ l, p ∉ s.itemsSet := by
  intro l
  induction l with
  | nil =>
    intro s s' _ p hp
    exact absurd hp (by simp)
  | cons k rest ih =>
    intro s s' h p hp
    rw [pushList] at h
    cases hpu : pushOne true s k with
    | error e =>
      rw [hpu] at h
      exact absurd h (by simp)
    | ok s1 =>
      rw [hpu] at h
      obtain ⟨_, _, hs1, _, _, _⟩ := pushOne_ok true s k s1 hpu
      rcases List.mem_cons.mp hp with rfl | hrest
      · exact pushOne_true_ok_notin s s1 p hpu
      · have := ih s1 s' h p hrest
        rw [hs1] at this
        exact this

theorem gatherList_true_ok_notin [DecidableEq K] :
    ∀ (l : List K) (s s' : DState K V), gatherList true s l = .ok s' →
      ∀ p ∈ l, (mlookup s.memo p).isNone = true → p ∉ s.itemsSet := by
  intro l
  induction l with
  | nil =>
    intro s s' _ p hp
    exact absurd hp (by simp)
  | cons k rest ih =>
    intro s s' h p hp hpn
    rw [gatherList] at h
    split at h
    next hmiss =>
      cases hpu : pushOne true s k with
      | error e =>
        rw [hpu] at h
        exact absurd h (by simp)
      | ok s1 =>
        rw [hpu] at h
        obtain ⟨hm1, _, hs1, _, _, _⟩ := pushOne_ok true s k s1 hpu
        rcases List.mem_cons.mp hp with rfl | hrest
        · exact pushOne_true_ok_notin s s1 p hpu
        · have := ih s1 s' h p hrest (by rw [hm1]; exact hpn)
          rw [hs1] at this
          exact this
    next hmiss =>
      rcases List.mem_cons.mp hp with rfl | hrest
      · exact absurd hpn (by simpa using hmiss)
      · exact ih s s' h p hrest hpn

theorem finalizeGroup_set_zero [DecidableEq K] (detect : Bool) (s : DState K V)
    (hg : s.groupSize = 0) : (finalizeGroup detect s).itemsSet = s.itemsSet := by
  rw [finalizeGroup]
  cases detect with
  | false => rfl
  | true => simp [hg]

theorem finalizeGroup_set_block [DecidableEq K] (s : DState K V)
    (block Rst : List (DItem K))
    (hitems : s.items = block ++ Rst) (hg : s.groupSize = block.length) :
    (finalizeGroup true s).itemsSet =
      (block.map DItem.key).foldl setInsert s.itemsSet := by
  rw [finalizeGroup]
  simp only [if_pos rfl]
  rw [hg, hitems, List.take_left]
  exact if_pos trivial

/-- The invariant bundle of a detection-enabled run (thread 0): the group
is finalized at every loop boundary; the bottom key of the stack is the
root; the detection set holds only stacked keys, without duplicates;
every stacked key is tracked by the set or already memoized; the key of an
in-progress (ready, not yet memoized) item never reappears above it;
stacked keys stay inside the closure `L`; every prerequisite of an
in-progress item is memoized or stacked above it; every memoized key is
accessible for the prerequisite relation; and the root is memoized or
still stacked. -/
structure CInv [DecidableEq K] (pre : K → List K) (L : List K) (root : K)
    (s : DState K V) : Prop where
  gs : s.groupSize = 0
  bottom : ∀ bk, (s.items.map DItem.key).getLast? = some bk → bk = root
  setSub : ∀ j ∈ s.itemsSet, j ∈ s.items.map DItem.key
  setNodup : s.itemsSet.Nodup
  cover : ∀ it ∈ s.items, it.key ∈ s.itemsSet ∨ (mlookup s.memo it.key).isSome = true
  readyUnique : ∀ b r a, s.items = b ++ r :: a → r.ready = true →
    mlookup s.memo r.key = none → ∀ u ∈ b, u.key ≠ r.key
  stackL : ∀ it ∈ s.items, it.key ∈ L
  readyPre : ∀ b r a, s.items = b ++ r :: a → r.ready = true →
    mlookup s.memo r.key = none → ∀ p ∈ pre r.key,
      (mlookup s.memo p).isSome = true ∨ ∃ u ∈ b, u.key = p
  memoAcc : ∀ k v, mlookup s.memo k = some v → Acc (fun a b : K => a ∈ pre b) k
  rootIn : (mlookup s.memo root).isSome = true ∨ root ∈ s.items.map DItem.key

theorem stackCost_cons (it : DItem K) (l : List (DItem K)) :
    stackCost (it :: l) = itemCost it + stackCost l := by
  rw [stackCost, List.map_cons, List.sum_cons, stackCost]

theorem itemCost_pos (it : DItem K) : 1 ≤ itemCost it := by
  rw [itemCost]
  split <;> omega

theorem itemCost_unready (it : DItem K) (h : it.ready = false) :
    itemCost it = 2 := by
  rw [itemCost, h]
  simp

theorem stackCost_block [DecidableEq K] :
    ∀ l : List K, stackCost (l.map fun p => (⟨p, false⟩ : DItem K)) = 2 * l.length := by
  intro l
  induction l with
  | nil => rfl
  | cons a t ih =>
    rw [List.map_cons, stackCost_cons, ih]
    rw [itemCost_unready _ rfl]
    simp only [List.length_cons]
    omega

theorem stackCost_append (l₁ l₂ : List (DItem K)) :
    stackCost (l₁ ++ l₂) = stackCost l₁ + stackCost l₂ := by
  rw [stackCost, stackCost, stackCost, List.map_append, List.sum_append]

/-- The shape of a `CircularDependencyException` raised while pushing key
`j` onto a stack whose bottom key is the root: the carried keys stack runs
root-to-offender and its last key `j` already occurs earlier in it. -/
theorem circular_shape [DecidableEq K] (items : List (DItem K)) (root j : K)
    (pref : List (DItem K)) (hne : items ≠ [])
    (hbot : ∀ bk, (items.map DItem.key).getLast? = some bk → bk = root)
    (hj : j ∈ items.map DItem.key) :
    (keysBottomTop ((⟨j, false⟩ : DItem K) :: (pref ++ items))).head? = some root ∧
    ∃ l x, keysBottomTop ((⟨j, false⟩ : DItem K) :: (pref ++ items)) = l ++ [x] ∧
      x ∈ l := by
  have hks : keysBottomTop ((⟨j, false⟩ : DItem K) :: (pref ++ items)) =
      ((pref ++ items).map DItem.key).reverse ++ [j] := by
    rw [keysBottomTop, List.map_cons, List.reverse_cons]
  have hmapne : (items.map DItem.key) ≠ [] := by
    intro hc
    exact hne (List.map_eq_nil_iff.mp hc)
  obtain ⟨bk, hbk⟩ := Option.isSome_iff_exists.mp
    (show (items.map DItem.key).getLast?.isSome = true by
      rw [Option.isSome_iff_ne_none]
      simpa using hmapne)
  have hbkroot : bk = root := hbot bk hbk
  have hlast : ((pref ++ items).map DItem.key).getLast? = some root := by
    rw [List.map_append, List.getLast?_append, hbk, hbkroot]
    rfl
  have hrevne : ((pref ++ items).map DItem.key).reverse ≠ [] := by
    intro hc
    rw [List.map_append] at hc
    have := List.reverse_eq_nil_iff.mp hc
    rw [List.append_eq_nil] at this
    exact hmapne this.2
  constructor
  · rw [hks, List.head?_append, List.head?_reverse, hlast]
    rfl
  · refine ⟨((pref ++ items).map DItem.key).reverse, j, hks, ?_⟩
    rw [List.mem_reverse, List.map_append, List.mem_append]
    exact Or.inr hj

/-- Publishing the top item's key and popping it preserves the invariant
and the measure components. -/
theorem cinv_pop_publish [DecidableEq K] [Inhabited V] (pre : K → List K)
    (L : List K) (root : K) (s s' : DState K V) (it : DItem K)
    (R : List (DItem K)) (hinv : CInv pre L root s) (hitems : s.items = it :: R)
    (habs : mlookup s.memo it.key = none)
    (hpre : ∀ p ∈ pre it.key, (mlookup s.memo p).isSome = true) (v : V)
    (hm' : s'.memo = s.memo ++ [(it.key, v)]) (hi' : s'.items = R)
    (hset' : s'.itemsSet = setErase s.itemsSet it.key) (hg' : s'.groupSize = 0) :
    CInv pre L root s' ∧
      pendingCount L s'.memo s'.items ≤ pendingCount L s.memo s.items ∧
      stackCost s'.items + 1 ≤ stackCost s.items := by
  have hself : mlookup s'.memo it.key = some v := by
    rw [hm']
    exact mlookup_append_self s.memo it.key v habs
  refine ⟨⟨hg', ?_, ?_, ?_, ?_, ?_, ?_, ?_, ?_, ?_⟩, ?_, ?_⟩
  · -- bottom
    intro bk hbk
    rw [hi'] at hbk
    have hRne : R.map DItem.key ≠ [] := by
      intro hc
      rw [hc] at hbk
      exact absurd hbk (by simp)
    apply hinv.bottom
    rw [hitems, List.map_cons]
    cases hmr : R.map DItem.key with
    | nil => exact absurd hmr hRne
    | cons x t =>
      rw [List.getLast?_cons_cons]
      rw [hmr] at hbk
      exact hbk
  · -- setSub
    intro j hj
    rw [hset'] at hj
    have hjs := mem_of_mem_setErase _ _ _ hj
    have hjk : j ≠ it.key := by
      intro he
      rw [he] at hj
      exact not_mem_setErase_self _ _ hinv.setNodup hj
    have := hinv.setSub j hjs
    rw [hitems, List.map_cons] at this
    rcases List.mem_cons.mp this with he | hmem
    · exact absurd he hjk
    · rw [hi']
      exact hmem
  · -- setNodup
    rw [hset']
    exact nodup_setErase _ _ hinv.setNodup
  · -- cover
    intro u hu
    rw [hi'] at hu
    rcases hinv.cover u (by rw [hitems]; exact List.mem_cons_of_mem it hu) with
      hset | hsome
    · by_cases he : u.key = it.key
      · right
        rw [he, hself]
        rfl
      · left
        rw [hset']
        exact mem_setErase_of_ne _ _ _ hset he
    · right
      rw [hm']
      exact mlookup_isSome_append _ _ _ hsome
  · -- readyUnique
    intro b r a hba hr hnone u hub
    rw [hi'] at hba
    rw [hm'] at hnone
    have hnone0 := mlookup_none_of_append _ _ _ hnone
    exact hinv.readyUnique (it :: b) r a (by rw [hitems, hba]; rfl) hr hnone0 u
      (List.mem_cons_of_mem it hub)
  · -- stackL
    intro u hu
    rw [hi'] at hu
    exact hinv.stackL u (by rw [hitems]; exact List.mem_cons_of_mem it hu)
  · -- readyPre
    intro b r a hba hr hnone p hp
    rw [hi'] at hba
    rw [hm'] at hnone
    have hnone0 := mlookup_none_of_append _ _ _ hnone
    rcases hinv.readyPre (it :: b) r a (by rw [hitems, hba]; rfl) hr hnone0 p hp with
      hsome | ⟨u, hu, hukey⟩
    · left
      rw [hm']
      exact mlookup_isSome_append _ _ _ hsome
    · rcases List.mem_cons.mp hu with rfl | hub
      · left
        rw [← hukey, hself]
        rfl
      · right
        exact ⟨u, hub, hukey⟩
  · -- memoAcc
    intro k w hk
    rw [hm'] at hk
    rcases mlookup_append_single_cases s.memo (it.key, v) k w hk with
      hin | ⟨_, hkeq, _⟩
    · exact hinv.memoAcc k w hin
    · rw [hkeq]
      refine Acc.intro _ (fun p hp => ?_)
      obtain ⟨w2, hw2⟩ := Option.isSome_iff_exists.mp (hpre p hp)
      exact hinv.memoAcc p w2 hw2
  · -- rootIn
    rcases hinv.rootIn with hsome | hmem
    · left
      rw [hm']
      exact mlookup_isSome_append _ _ _ hsome
    · rw [hitems, List.map_cons] at hmem
      rcases List.mem_cons.mp hmem with heq | hmem2
      · left
        rw [heq, hself]
        rfl
      · right
        rw [hi']
        exact hmem2
  · -- pendingCount
    apply filter_length_mono
    intro j _ hpj
    rw [Bool.and_eq_true] at hpj
    obtain ⟨hj1, hj2⟩ := hpj
    have hjnone : mlookup s.memo j = none := by
      rw [hm'] at hj1
      exact mlookup_none_of_append _ _ _ (Option.isNone_iff_eq_none.mp hj1)
    have hjk : j ≠ it.key := by
      intro he
      rw [he, habs] at hjnone
      rw [he] at hj1
      rw [hself] at hj1
      exact absurd hj1 (by simp)
    rw [Bool.and_eq_true]
    constructor
    · rw [hjnone]
      rfl
    · rw [Bool.not_eq_true'] at hj2 ⊢
      rw [hasReadyItem_false_iff] at hj2 ⊢
      intro u hu hru
      rw [hitems] at hu
      rcases List.mem_cons.mp hu with rfl | hu2
      · intro hk
        exact hjk (by rw [hk])
      · exact hj2 u (by rw [hi']; exact hu2) hru
  · -- stackCost
    rw [hi', hitems, stackCost_cons]
    have := itemCost_pos it
    omega

/-- Popping the top item when its key is already memoized preserves the
invariant and the measure components. -/
theorem cinv_pop_found [DecidableEq K] [Inhabited V] (pre : K → List K)
    (L : List K) (root : K) (s s' : DState K V) (it : DItem K)
    (R : List (DItem K)) (hinv : CInv pre L root s) (hitems : s.items = it :: R)
    (hfound : (mlookup s.memo it.key).isSome = true)
    (hm' : s'.memo = s.memo) (hi' : s'.items = R)
    (hset' : s'.itemsSet = setErase s.itemsSet it.key) (hg' : s'.groupSize = 0) :
    CInv pre L root s' ∧
      pendingCount L s'.memo s'.items ≤ pendingCount L s.memo s.items ∧
      stackCost s'.items + 1 ≤ stackCost s.items := by
  refine ⟨⟨hg', ?_, ?_, ?_, ?_, ?_, ?_, ?_, ?_, ?_⟩, ?_, ?_⟩
  · -- bottom
    intro bk hbk
    rw [hi'] at hbk
    have hRne : R.map DItem.key ≠ [] := by
      intro hc
      rw [hc] at hbk
      exact absurd hbk (by simp)
    apply hinv.bottom
    rw [hitems, List.map_cons]
    cases hmr : R.map DItem.key with
    | nil => exact absurd hmr hRne
    | cons x t =>
      rw [List.getLast?_cons_cons]
      rw [hmr] at hbk
      exact hbk
  · -- setSub
    intro j hj
    rw [hset'] at hj
    have hjs := mem_of_mem_setErase _ _ _ hj
    have hjk : j ≠ it.key := by
      intro he
      rw [he] at hj
      exact not_mem_setErase_self _ _ hinv.setNodup hj
    have := hinv.setSub j hjs
    rw [hitems, List.map_cons] at this
    rcases List.mem_cons.mp this with he | hmem
    · exact absurd he hjk
    · rw [hi']
      exact hmem
  · -- setNodup
    rw [hset']
    exact nodup_setErase _ _ hinv.setNodup
  · -- cover
    intro u hu
    rw [hi'] at hu
    rcases hinv.cover u (by rw [hitems]; exact List.mem_cons_of_mem it hu) with
      hset | hsome
    · by_cases he : u.key = it.key
      · right
        rw [hm', he]
        exact hfound
      · left
        rw [hset']
        exact mem_setErase_of_ne _ _ _ hset he
    · right
      rw [hm']
      exact hsome
  · -- readyUnique
    intro b r a hba hr hnone u hub
    rw [hi'] at hba
    rw [hm'] at hnone
    exact hinv.readyUnique (it :: b) r a (by rw [hitems, hba]; rfl) hr hnone u
      (List.mem_cons_of_mem it hub)
  · -- stackL
    intro u hu
    rw [hi'] at hu
    exact hinv.stackL u (by rw [hitems]; exact List.mem_cons_of_mem it hu)
  · -- readyPre
    intro b r a hba hr hnone p hp
    rw [hi'] at hba
    rw [hm'] at hnone
    rcases hinv.readyPre (it :: b) r a (by rw [hitems, hba]; rfl) hr hnone p hp with
      hsome | ⟨u, hu, hukey⟩
    · left
      rw [hm']
      exact hsome
    · rcases List.mem_cons.mp hu with rfl | hub
      · left
        rw [hm', ← hukey]
        have hrk : u.key ≠ r.key :=
          hinv.readyUnique (u :: b) r a (by rw [hitems, hba]; rfl) hr hnone u
            (List.mem_cons_self _ _)
        exact hfound
      · right
        exact ⟨u, hub, hukey⟩
  · -- memoAcc
    intro k w hk
    rw [hm'] at hk
    exact hinv.memoAcc k w hk
  · -- rootIn
    rcases hinv.rootIn with hsome | hmem
    · left
      rw [hm']
      exact hsome
    · rw [hitems, List.map_cons] at hmem
      rcases List.mem_cons.mp hmem with heq | hmem2
      · left
        rw [hm', heq]
        exact hfound
      · right
        rw [hi']
        exact hmem2
  · -- pendingCount
    apply filter_length_mono
    intro j _ hpj
    rw [Bool.and_eq_true] at hpj
    obtain ⟨hj1, hj2⟩ := hpj
    rw [hm'] at hj1
    have hjk : j ≠ it.key := by
      intro he
      rw [he] at hj1
      rw [Option.isNone_iff_eq_none.mp hj1] at hfound
      exact absurd hfound (by simp)
    rw [Bool.and_eq_true]
    refine ⟨hj1, ?_⟩
    rw [Bool.not_eq_true'] at hj2 ⊢
    rw [hasReadyItem_false_iff] at hj2 ⊢
    intro u hu hru
    rw [hitems] at hu
    rcases List.mem_cons.mp hu with rfl | hu2
    · intro hk
      exact hjk (by rw [hk])
    · exact hj2 u (by rw [hi']; exact hu2) hru
  · -- stackCost
    rw [hi', hitems, stackCost_cons]
    have := itemCost_pos it
    omega

/-- Flipping the top item to ready when its key is already memoized
preserves the invariant and strictly decreases the stack cost. -/
theorem cinv_flip_found [DecidableEq K] [Inhabited V] (pre : K → List K)
    (L : List K) (root : K) (s s' : DState K V) (it : DItem K)
    (R : List (DItem K)) (hinv : CInv pre L root s) (hitems : s.items = it :: R)
    (hur : it.ready = false)
    (hfound : (mlookup s.memo it.key).isSome = true)
    (hm' : s'.memo = s.memo)
    (hi' : s'.items = ⟨it.key, true⟩ :: R)
    (hset' : s'.itemsSet = s.itemsSet) (hg' : s'.groupSize = 0) :
    CInv pre L root s' ∧
      pendingCount L s'.memo s'.items ≤ pendingCount L s.memo s.items ∧
      stackCost s'.items + 1 = stackCost s.items := by
  have hkeys : s'.items.map DItem.key = s.items.map DItem.key := by
    rw [hi', hitems, List.map_cons, List.map_cons]
  refine ⟨⟨hg', ?_, ?_, ?_, ?_, ?_, ?_, ?_, ?_, ?_⟩, ?_, ?_⟩
  · -- bottom
    intro bk hbk
    rw [hkeys] at hbk
    exact hinv.bottom bk hbk
  · -- setSub
    intro j hj
    rw [hkeys]
    rw [hset'] at hj
    exact hinv.setSub j hj
  · -- setNodup
    rw [hset']
    exact hinv.setNodup
  · -- cover
    intro u hu
    rw [hi'] at hu
    rcases List.mem_cons.mp hu with rfl | hu2
    · right
      rw [hm']
      exact hfound
    · rcases hinv.cover u (by rw [hitems]; exact List.mem_cons_of_mem it hu2) with
        hset | hsome
      · left
        rw [hset']
        exact hset
      · right
        rw [hm']
        exact hsome
  · -- readyUnique
    intro b r a hba hr hnone u hub
    rw [hi'] at hba
    rw [hm'] at hnone
    cases b with
    | nil =>
      simp only [List.nil_append, List.cons.injEq] at hba
      rw [← hba.1] at hnone
      have hnone2 : mlookup s.memo it.key = none := hnone
      rw [hnone2] at hfound
      exact absurd hfound (by simp)
    | cons y b₂ =>
      simp only [List.cons_append, List.cons.injEq] at hba
      have hold := hinv.readyUnique (it :: b₂) r a
        (by rw [hitems, hba.2]; rfl) hr hnone
      rcases List.mem_cons.mp hub with rfl | hub2
      · rw [← hba.1]
        exact hold it (List.mem_cons_self _ _)
      · exact hold u (List.mem_cons_of_mem it hub2)
  · -- stackL
    intro u hu
    rw [hi'] at hu
    rcases List.mem_cons.mp hu with rfl | hu2
    · exact hinv.stackL it (by rw [hitems]; exact List.mem_cons_self _ _)
    · exact hinv.stackL u (by rw [hitems]; exact List.mem_cons_of_mem it hu2)
  · -- readyPre
    intro b r a hba hr hnone p hp
    rw [hi'] at hba
    rw [hm'] at hnone
    cases b with
    | nil =>
      simp only [List.nil_append, List.cons.injEq] at hba
      rw [← hba.1] at hnone
      have hnone2 : mlookup s.memo it.key = none := hnone
      rw [hnone2] at hfound
      exact absurd hfound (by simp)
    | cons y b₂ =>
      simp only [List.cons_append, List.cons.injEq] at hba
      rcases hinv.readyPre (it :: b₂) r a (by rw [hitems, hba.2]; rfl) hr hnone p hp
        with hsome | ⟨u, hu, hukey⟩
      · left
        rw [hm']
        exact hsome
      · rcases List.mem_cons.mp hu with rfl | hub2
        · right
          refine ⟨y, List.mem_cons_self _ _, ?_⟩
          rw [← hba.1, ← hukey]
        · right
          exact ⟨u, List.mem_cons_of_mem y hub2, hukey⟩
  · -- memoAcc
    intro k w hk
    rw [hm'] at hk
    exact hinv.memoAcc k w hk
  · -- rootIn
    rcases hinv.rootIn with hsome | hmem
    · left
      rw [hm']
      exact hsome
    · right
      rw [hkeys]
      exact hmem
  · -- pendingCount
    apply filter_length_mono
    intro j _ hpj
    rw [Bool.and_eq_true] at hpj
    obtain ⟨hj1, hj2⟩ := hpj
    rw [hm'] at hj1
    rw [Bool.and_eq_true]
    refine ⟨hj1, ?_⟩
    rw [Bool.not_eq_true'] at hj2 ⊢
    rw [hasReadyItem_false_iff] at hj2 ⊢
    intro u hu hru
    rw [hitems] at hu
    rcases List.mem_cons.mp hu with rfl | hu2
    · rw [hur] at hru
      exact absurd hru (by simp)
    · exact hj2 u (by rw [hi']; exact List.mem_cons_of_mem _ hu2) hru
  · -- stackCost
    rw [hi', hitems, stackCost_cons, stackCost_cons, itemCost_unready it hur]
    have h1 : itemCost (⟨it.key, true⟩ : DItem K) = 1 := rfl
    rw [h1]
    omega

/-- Expanding the top item (flipping it to ready and pushing its missing
prerequisites above it) preserves the invariant, strictly decreases the
pending count and grows the stack cost by at most two per pushed key. -/
theorem cinv_expand [DecidableEq K] [Inhabited V] (pre : K → List K)
    (L : List K) (root : K) (hL : ∀ k ∈ L, ∀ p ∈ pre k, p ∈ L)
    (s s' : DState K V) (it : DItem K) (R : List (DItem K)) (μ : List K)
    (hinv : CInv pre L root s) (hitems : s.items = it :: R)
    (hur : it.ready = false) (habs : mlookup s.memo it.key = none)
    (hμsub : ∀ p ∈ μ, p ∈ pre it.key)
    (hμnotin : ∀ p ∈ μ, p ∉ s.itemsSet)
    (hμall : ∀ p ∈ pre it.key, (mlookup s.memo p).isNone = true → p ∈ μ)
    (hm' : s'.memo = s.memo)
    (hi' : s'.items = μ.reverse.map (fun p => (⟨p, false⟩ : DItem K)) ++
      ⟨it.key, true⟩ :: R)
    (hset'mem : ∀ j, j ∈ s'.itemsSet ↔ j ∈ s.itemsSet ∨ j ∈ μ)
    (hset'nd : s'.itemsSet.Nodup) (hg' : s'.groupSize = 0) :
    CInv pre L root s' ∧
      pendingCount L s'.memo s'.items + 1 ≤ pendingCount L s.memo s.items ∧
      stackCost s'.items + 1 = stackCost s.items + 2 * μ.length := by
  have hblock : ∀ u ∈ μ.reverse.map (fun p => (⟨p, false⟩ : DItem K)),
      u.ready = false ∧ u.key ∈ μ := by
    intro u hu
    obtain ⟨p, hp, hpu⟩ := List.mem_map.mp hu
    exact ⟨by rw [← hpu], by rw [← hpu]; exact List.mem_reverse.mp hp⟩
  have hkset : it.key ∈ s.itemsSet := by
    rcases hinv.cover it (by rw [hitems]; exact List.mem_cons_self _ _) with h | h
    · exact h
    · rw [habs] at h
      exact absurd h (by simp)
  have hbkeys : (μ.reverse.map (fun p => (⟨p, false⟩ : DItem K))).map DItem.key =
      μ.reverse := by
    rw [List.map_map]
    exact List.map_id'' (fun _ => rfl) μ.reverse
  refine ⟨⟨hg', ?_, ?_, ?_, ?_, ?_, ?_, ?_, ?_, ?_⟩, ?_, ?_⟩
  · -- bottom
    intro bk hbk
    rw [hi', List.map_append, List.map_cons, List.getLast?_append] at hbk
    obtain ⟨b0, hb0⟩ := Option.isSome_iff_exists.mp
      (show (it.key :: R.map DItem.key).getLast?.isSome = true by
        rw [Option.isSome_iff_ne_none]
        simp)
    rw [hb0] at hbk
    have h2 : some b0 = some bk := hbk
    simp only [Option.some.injEq] at h2
    rw [← h2]
    apply hinv.bottom
    rw [hitems, List.map_cons]
    exact hb0
  · -- setSub
    intro j hj
    rw [hi', List.map_append, List.map_cons]
    rcases (hset'mem j).mp hj with hjs | hjμ
    · have := hinv.setSub j hjs
      rw [hitems, List.map_cons] at this
      rcases List.mem_cons.mp this with he | hmem
      · exact List.mem_append_right _ (by rw [he]; exact List.mem_cons_self _ _)
      · exact List.mem_append_right _ (List.mem_cons_of_mem _ hmem)
    · apply List.mem_append_left
      rw [hbkeys]
      exact List.mem_reverse.mpr hjμ
  · -- setNodup
    exact hset'nd
  · -- cover
    intro u hu
    rw [hi'] at hu
    rcases List.mem_append.mp hu with hub | huc
    · left
      exact (hset'mem u.key).mpr (Or.inr (hblock u hub).2)
    · rcases List.mem_cons.mp huc with rfl | hu2
      · left
        exact (hset'mem _).mpr (Or.inl hkset)
      · rcases hinv.cover u (by rw [hitems]; exact List.mem_cons_of_mem it hu2) with
          hset | hsome
        · left
          exact (hset'mem u.key).mpr (Or.inl hset)
        · right
          rw [hm']
          exact hsome
  · -- readyUnique
    intro b r a hba hr hnone u hub
    rw [hi'] at hba
    rw [hm'] at hnone
    rcases append_cons_cases _ _ _ _ _ _ hba with
      ⟨a₁, hX, _⟩ | ⟨hb, hrx, _⟩ | ⟨b₂, hb, hR⟩
    · have hrb : r ∈ μ.reverse.map (fun p => (⟨p, false⟩ : DItem K)) := by
        rw [hX]
        exact List.mem_append.mpr (Or.inr (List.mem_cons_self _ _))
      rw [(hblock r hrb).1] at hr
      exact absurd hr (by simp)
    · intro he
      apply hμnotin _ (hblock u (hb ▸ hub)).2
      rw [he, hrx]
      exact hkset
    · have hold := hinv.readyUnique (it :: b₂) r a (by rw [hitems, hR]; rfl) hr hnone
      have hrset : r.key ∈ s.itemsSet := by
        rcases hinv.cover r (by
          rw [hitems, hR]
          exact List.mem_cons_of_mem it
            (List.mem_append.mpr (Or.inr (List.mem_cons_self _ _)))) with h | h
        · exact h
        · rw [hnone] at h
          exact absurd h (by simp)
      rcases List.mem_append.mp (hb ▸ hub) with hub1 | hub2
      · intro he
        exact hμnotin _ (hblock u hub1).2 (he ▸ hrset)
      · rcases List.mem_cons.mp hub2 with rfl | hub3
        · exact hold it (List.mem_cons_self _ _)
        · exact hold u (List.mem_cons_of_mem it hub3)
  · -- stackL
    intro u hu
    rw [hi'] at hu
    have hkL : it.key ∈ L := hinv.stackL it (by rw [hitems]; exact List.mem_cons_self _ _)
    rcases List.mem_append.mp hu with hub | huc
    · exact hL it.key hkL u.key (hμsub u.key (hblock u hub).2)
    · rcases List.mem_cons.mp huc with rfl | hu2
      · exact hkL
      · exact hinv.stackL u (by rw [hitems]; exact List.mem_cons_of_mem it hu2)
  · -- readyPre
    intro b r a hba hr hnone p hp
    rw [hi'] at hba
    rw [hm'] at hnone
    rcases append_cons_cases _ _ _ _ _ _ hba with
      ⟨a₁, hX, _⟩ | ⟨hb, hrx, _⟩ | ⟨b₂, hb, hR⟩
    · have hrb : r ∈ μ.reverse.map (fun p => (⟨p, false⟩ : DItem K)) := by
        rw [hX]
        exact List.mem_append.mpr (Or.inr (List.mem_cons_self _ _))
      rw [(hblock r hrb).1] at hr
      exact absurd hr (by simp)
    · have hp2 : p ∈ pre it.key := by
        rw [hrx] at hp
        exact hp
      by_cases hpm : (mlookup s.memo p).isNone = true
      · right
        refine ⟨⟨p, false⟩, ?_, rfl⟩
        rw [hb]
        exact List.mem_map.mpr ⟨p, List.mem_reverse.mpr (hμall p hp2 hpm), rfl⟩
      · left
        rw [hm', Option.isSome_iff_ne_none]
        simpa using hpm
    · rcases hinv.readyPre (it :: b₂) r a (by rw [hitems, hR]; rfl) hr hnone p hp
        with hsome | ⟨u, hu, hukey⟩
      · left
        rw [hm']
        exact hsome
      · rcases List.mem_cons.mp hu with rfl | hub2
        · right
          refine ⟨⟨u.key, true⟩, ?_, hukey⟩
          rw [hb]
          exact List.mem_append_right _ (List.mem_cons_self _ _)
        · right
          refine ⟨u, ?_, hukey⟩
          rw [hb]
          exact List.mem_append_right _ (List.mem_cons_of_mem _ hub2)
  · -- memoAcc
    intro k w hk
    rw [hm'] at hk
    exact hinv.memoAcc k w hk
  · -- rootIn
    rcases hinv.rootIn with hsome | hmem
    · left
      rw [hm']
      exact hsome
    · right
      rw [hitems, List.map_cons] at hmem
      rw [hi', List.map_append, List.map_cons]
      rcases List.mem_cons.mp hmem with he | hmem2
      · exact List.mem_append_right _ (by rw [he]; exact List.mem_cons_self _ _)
      · exact List.mem_append_right _ (List.mem_cons_of_mem _ hmem2)
  · -- pendingCount (strict)
    refine filter_length_lt _ _ _ ?_ it.key ?_ ?_ ?_
    · intro j _ hpj
      rw [Bool.and_eq_true] at hpj
      obtain ⟨hj1, hj2⟩ := hpj
      rw [hm'] at hj1
      rw [Bool.and_eq_true]
      refine ⟨hj1, ?_⟩
      rw [Bool.not_eq_true'] at hj2 ⊢
      rw [hasReadyItem_false_iff] at hj2 ⊢
      intro u hu hru
      rw [hitems] at hu
      rcases List.mem_cons.mp hu with rfl | hu2
      · rw [hur] at hru
        exact absurd hru (by simp)
      · exact hj2 u (by
          rw [hi']
          exact List.mem_append_right _ (List.mem_cons_of_mem _ hu2)) hru
    · exact List.mem_dedup.mpr
        (hinv.stackL it (by rw [hitems]; exact List.mem_cons_self _ _))
    · rw [Bool.and_eq_true]
      constructor
      · rw [habs]
        rfl
      · rw [Bool.not_eq_true', hasReadyItem_false_iff]
        intro u hu hru hk
        rw [hitems] at hu
        rcases List.mem_cons.mp hu with rfl | hu2
        · rw [hur] at hru
          exact absurd hru (by simp)
        · obtain ⟨b', a', hdecomp⟩ := List.append_of_mem hu2
          exact hinv.readyUnique (it :: b') u a' (by rw [hitems, hdecomp]; rfl) hru
            (by rw [hk]; exact habs) it (List.mem_cons_self _ _) (by rw [hk])
    · have htrue : hasReadyItem s'.items it.key = true := by
        apply hasReadyItem_true_of s'.items it.key ⟨it.key, true⟩
        · rw [hi']
          exact List.mem_append_right _ (List.mem_cons_self _ _)
        · rfl
        · rfl
      rw [htrue]
      simp
  · -- stackCost
    rw [hi', hitems, stackCost_append, stackCost_block, stackCost_cons,
      stackCost_cons, itemCost_unready it hur, List.length_reverse]
    have h1 : itemCost (⟨it.key, true⟩ : DItem K) = 1 := rfl
    rw [h1]
    omega

theorem cmeasure_lt_of [DecidableEq K] (pre : K → List K) (L : List K)
    (s s' : DState K V)
    (h1 : pendingCount L s'.memo s'.items ≤ pendingCount L s.memo s.items)
    (h2 : stackCost s'.items + 1 ≤ stackCost s.items) :
    cmeasure pre L s' < cmeasure pre L s := by
  rw [cmeasure, cmeasure]
  have h3 := Nat.mul_le_mul_right (2 * maxPre pre L + 1) h1
  omega

theorem cmeasure_lt_expand [DecidableEq K] (pre : K → List K) (L : List K)
    (s s' : DState K V) (n : Nat)
    (h1 : pendingCount L s'.memo s'.items + 1 ≤ pendingCount L s.memo s.items)
    (h2 : stackCost s'.items + 1 = stackCost s.items + 2 * n)
    (h3 : n ≤ maxPre pre L) :
    cmeasure pre L s' < cmeasure pre L s := by
  rw [cmeasure, cmeasure]
  have h4 := Nat.mul_le_mul_right (2 * maxPre pre L + 1) h1
  rw [Nat.succ_mul] at h4
  omega

/-- The outcome classification of one successful or failing step with
detection on: either the step succeeds, keeps the invariant and strictly
decreases the measure, or it raises `CircularDependency` whose keys stack
runs from the root to an offender already present in it. -/
def DStepGood [DecidableEq K] [Inhabited V] (pre : K → List K)
    (f : K → List V → V) (dm : Bool) (L : List K) (root : K)
    (s : DState K V) : Prop :=
  (∃ s', dstep pre f dm true s = .ok s' ∧ CInv pre L root s' ∧
    cmeasure pre L s' < cmeasure pre L s) ∨
  (∃ ks, dstep pre f dm true s = .error (.circular ks) ∧
    ks.head? = some root ∧ ∃ l x, ks = l ++ [x] ∧ x ∈ l)

/-- A step on a ready top item always succeeds, keeps the invariant and
decreases the measure (it publishes if needed, then pops). -/
theorem dstep_cinv_ready [DecidableEq K] [Inhabited V] (pre : K → List K)
    (f : K → List V → V) (dm : Bool) (L : List K) (root : K)
    (s : DState K V) (k : K) (R : List (DItem K))
    (hitems : s.items = ⟨k, true⟩ :: R) (hinv : CInv pre L root s) :
    ∃ s', dstep pre f dm true s = .ok s' ∧ CInv pre L root s' ∧
      cmeasure pre L s' < cmeasure pre L s := by
  have hbase := dstep_cons_ready pre f dm true s k R hitems
  by_cases habs : (mlookup s.memo k).isNone = true
  · rw [if_pos habs] at hbase
    rw [popItem_cons true
      ({ s with memo := s.memo ++ [(k, f k ((pre k).map (normalValue s.memo)))],
                log := s.log ++ [⟨k, false, 0⟩] } : DState K V)
      ⟨k, true⟩ R hitems hinv.gs] at hbase
    have habs' : mlookup s.memo k = none := Option.isNone_iff_eq_none.mp habs
    have hpre : ∀ p ∈ pre k, (mlookup s.memo p).isSome = true := by
      intro p hp
      rcases hinv.readyPre [] ⟨k, true⟩ R (by rw [hitems]; rfl) rfl habs' p hp with
        h | ⟨u, hu, _⟩
      · exact h
      · exact absurd hu (by simp)
    have H := cinv_pop_publish pre L root s
      ({ s with memo := s.memo ++ [(k, f k ((pre k).map (normalValue s.memo)))],
                log := s.log ++ [⟨k, false, 0⟩],
                items := R, itemsSet := setErase s.itemsSet k } : DState K V)
      ⟨k, true⟩ R hinv hitems habs' hpre
      (f k ((pre k).map (normalValue s.memo))) rfl rfl rfl hinv.gs
    exact ⟨_, hbase, H.1, cmeasure_lt_of pre L s _ H.2.1 H.2.2⟩
  · rw [if_neg habs] at hbase
    rw [popItem_cons true s ⟨k, true⟩ R hitems hinv.gs] at hbase
    have hfound : (mlookup s.memo k).isSome = true := by
      rw [Option.isSome_iff_ne_none]
      intro hn
      exact habs (by rw [hn]; rfl)
    have H := cinv_pop_found pre L root s
      ({ s with items := R, itemsSet := setErase s.itemsSet k } : DState K V)
      ⟨k, true⟩ R hinv hitems hfound rfl rfl rfl hinv.gs
    exact ⟨_, hbase, H.1, cmeasure_lt_of pre L s _ H.2.1 H.2.2⟩

/-- A step on an unvisited top item whose key is already memoized flips it
to ready; the invariant is kept and the measure decreases. -/
theorem dstep_cinv_flip [DecidableEq K] [Inhabited V] (pre : K → List K)
    (f : K → List V → V) (dm : Bool) (L : List K) (root : K)
    (s : DState K V) (k : K) (R : List (DItem K))
    (hitems : s.items = ⟨k, false⟩ :: R) (hinv : CInv pre L root s)
    (hfound : (mlookup s.memo k).isSome = true) :
    ∃ s', dstep pre f dm true s = .ok s' ∧ CInv pre L root s' ∧
      cmeasure pre L s' < cmeasure pre L s := by
  have hbase := dstep_cons_not_ready pre f dm true s k R hitems
  rw [if_pos hfound] at hbase
  have H := cinv_flip_found pre L root s
    ({ s with items := ⟨k, true⟩ :: R } : DState K V) ⟨k, false⟩ R hinv hitems rfl
    hfound rfl rfl rfl hinv.gs
  exact ⟨_, hbase, H.1, cmeasure_lt_of pre L s _ H.2.1 (Nat.le_of_eq H.2.2)⟩

/-- A declare-mode step on an unvisited, unmemoized top item: either the
missing prerequisites are pushed (invariant kept, measure decreased) or a
`CircularDependency` with the root-to-offender keys stack is raised. -/
theorem dstep_cinv_declare [DecidableEq K] [Inhabited V] (pre : K → List K)
    (f : K → List V → V) (L : List K) (root : K)
    (hL : ∀ k ∈ L, ∀ p ∈ pre k, p ∈ L)
    (s : DState K V) (k : K) (R : List (DItem K))
    (hitems : s.items = ⟨k, false⟩ :: R) (hinv : CInv pre L root s)
    (hfound : ¬ (mlookup s.memo k).isSome = true) :
    DStepGood pre f true L root s := by
  have hbase := dstep_cons_not_ready pre f true true s k R hitems
  rw [if_neg hfound, if_pos rfl] at hbase
  have habs' : mlookup s.memo k = none := by
    cases hmk : mlookup s.memo k with
    | none => rfl
    | some v => exact absurd (by rw [hmk]; rfl) hfound
  cases hg : gatherList true ({ s with items := ⟨k, true⟩ :: R } : DState K V)
      (pre k) with
  | error e0 =>
    rw [hg] at hbase
    simp only [] at hbase
    right
    obtain ⟨j, pref, hjset, he0⟩ := gatherList_true_error (pre k) _ e0 hg
    have hbot' : ∀ bk,
        (((⟨k, true⟩ : DItem K) :: R).map DItem.key).getLast? = some bk →
        bk = root := by
      intro bk hbk
      apply hinv.bottom
      rw [hitems, List.map_cons]
      rw [List.map_cons] at hbk
      exact hbk
    have hj' : j ∈ ((⟨k, true⟩ : DItem K) :: R).map DItem.key := by
      have hjs : j ∈ s.itemsSet := hjset
      have := hinv.setSub j hjs
      rw [hitems, List.map_cons] at this
      rw [List.map_cons]
      exact this
    obtain ⟨hhead, hrep⟩ := circular_shape (⟨k, true⟩ :: R) root j pref (by simp)
      hbot' hj'
    refine ⟨keysBottomTop ((⟨j, false⟩ : DItem K) :: (pref ++ ⟨k, true⟩ :: R)),
      ?_, hhead, hrep⟩
    rw [hbase, he0]
  | ok s1 =>
    rw [hg] at hbase
    simp only [] at hbase
    left
    obtain ⟨hm1, hi1, hset1, hg1, _, _⟩ := gatherList_ok true (pre k) _ s1 hg
    have hm1' : s1.memo = s.memo := hm1
    have hi1' : s1.items =
        ((pre k).filter (fun p => (mlookup s.memo p).isNone)).reverse.map
          (fun p => (⟨p, false⟩ : DItem K)) ++ ⟨k, true⟩ :: R := hi1
    have hset1' : s1.itemsSet = s.itemsSet := hset1
    have hgs := hinv.gs
    have hg1' : s1.groupSize = s.groupSize +
        ((pre k).filter (fun p => (mlookup s.memo p).isNone)).length := hg1
    have hgs1 : s1.groupSize =
        ((pre k).filter (fun p => (mlookup s.memo p).isNone)).length := by omega
    have hbk : (((pre k).filter (fun p => (mlookup s.memo p).isNone)).reverse.map
        (fun p => (⟨p, false⟩ : DItem K))).map DItem.key =
        ((pre k).filter (fun p => (mlookup s.memo p).isNone)).reverse := by
      rw [List.map_map]
      exact List.map_id'' (fun _ => rfl) _
    have hset'eq : (finalizeGroup true s1).itemsSet =
        ((pre k).filter (fun p => (mlookup s.memo p).isNone)).reverse.foldl
          setInsert s.itemsSet := by
      rw [finalizeGroup_set_block s1
        (((pre k).filter (fun p => (mlookup s.memo p).isNone)).reverse.map
          (fun p => (⟨p, false⟩ : DItem K))) (⟨k, true⟩ :: R) hi1'
        (by rw [hgs1, List.length_map, List.length_reverse])]
      rw [hbk, hset1']
    have H := cinv_expand pre L root hL s (finalizeGroup true s1) ⟨k, false⟩ R
      ((pre k).filter (fun p => (mlookup s.memo p).isNone)) hinv hitems rfl habs'
      (fun p hp => (List.mem_filter.mp hp).1)
      (fun p hp => gatherList_true_ok_notin (pre k) _ s1 hg p
        (List.mem_filter.mp hp).1 (List.mem_filter.mp hp).2)
      (fun p hp hpn => List.mem_filter.mpr ⟨hp, hpn⟩)
      (by rw [(finalizeGroup_fields true s1).1]; exact hm1')
      (by rw [(finalizeGroup_fields true s1).2.1]; exact hi1')
      (by
        intro j
        rw [hset'eq, mem_foldl_setInsert, List.mem_reverse])
      (by rw [hset'eq]; exact nodup_foldl_setInsert _ _ hinv.setNodup)
      (finalizeGroup_fields true s1).2.2.1
    have hkL : k ∈ L := hinv.stackL ⟨k, false⟩
      (by rw [hitems]; exact List.mem_cons_self _ _)
    exact ⟨finalizeGroup true s1, hbase, H.1,
      cmeasure_lt_expand pre L s _ _ H.2.1 H.2.2
        (Nat.le_trans (List.length_filter_le _ _) (length_pre_le_maxPre pre L k hkL))⟩

/-- A dry-run step on an unvisited, unmemoized top item: the missing
prerequisites are pushed — if none is missing the key is published and
popped at once — or a `CircularDependency` with the root-to-offender keys
stack is raised. -/
theorem dstep_cinv_dry [DecidableEq K] [Inhabited V] (pre : K → List K)
    (f : K → List V → V) (L : List K) (root : K)
    (hL : ∀ k ∈ L, ∀ p ∈ pre k, p ∈ L)
    (s : DState K V) (k : K) (R : List (DItem K))
    (hitems : s.items = ⟨k, false⟩ :: R) (hinv : CInv pre L root s)
    (hfound : ¬ (mlookup s.memo k).isSome = true) :
    DStepGood pre f false L root s := by
  have hbase := dstep_cons_not_ready pre f false true s k R hitems
  rw [if_neg hfound, if_neg (by simp)] at hbase
  have habs' : mlookup s.memo k = none := by
    cases hmk : mlookup s.memo k with
    | none => rfl
    | some v => exact absurd (by rw [hmk]; rfl) hfound
  have hgs := hinv.gs
  cases hps : pushList true
      ({ s with items := ⟨k, true⟩ :: R,
                log := s.log ++
                  [⟨k, true,
                    ((pre k).filter (fun p => (mlookup s.memo p).isNone)).length⟩] }
        : DState K V)
      ((pre k).filter (fun p => (mlookup s.memo p).isNone)) with
  | error e0 =>
    rw [hps] at hbase
    simp only [] at hbase
    right
    obtain ⟨j, pref, hjset, he0⟩ := pushList_true_error _ _ e0 hps
    have hbot' : ∀ bk,
        (((⟨k, true⟩ : DItem K) :: R).map DItem.key).getLast? = some bk →
        bk = root := by
      intro bk hbk
      apply hinv.bottom
      rw [hitems, List.map_cons]
      rw [List.map_cons] at hbk
      exact hbk
    have hj' : j ∈ ((⟨k, true⟩ : DItem K) :: R).map DItem.key := by
      have hjs : j ∈ s.itemsSet := hjset
      have := hinv.setSub j hjs
      rw [hitems, List.map_cons] at this
      rw [List.map_cons]
      exact this
    obtain ⟨hhead, hrep⟩ := circular_shape (⟨k, true⟩ :: R) root j pref (by simp)
      hbot' hj'
    refine ⟨keysBottomTop ((⟨j, false⟩ : DItem K) :: (pref ++ ⟨k, true⟩ :: R)),
      ?_, hhead, hrep⟩
    rw [hbase, he0]
  | ok s2 =>
    rw [hps] at hbase
    simp only [] at hbase
    left
    obtain ⟨hm2, hi2, hset2, hg2, _, _⟩ := pushList_ok true _ _ s2 hps
    have hm2' : s2.memo = s.memo := hm2
    have hi2' : s2.items =
        ((pre k).filter (fun p => (mlookup s.memo p).isNone)).reverse.map
          (fun p => (⟨p, false⟩ : DItem K)) ++ ⟨k, true⟩ :: R := hi2
    have hset2' : s2.itemsSet = s.itemsSet := hset2
    have hg2' : s2.groupSize = s.groupSize +
        ((pre k).filter (fun p => (mlookup s.memo p).isNone)).length := hg2
    by_cases hgz : s2.groupSize = 0
    · -- no missing prerequisite: publish and pop within the same iteration
      rw [if_pos hgz] at hbase
      have hμnil : (pre k).filter (fun p => (mlookup s.memo p).isNone) = [] :=
        List.length_eq_zero.mp (by omega)
      have his2 : s2.items = ⟨k, true⟩ :: R := by
        rw [hi2', hμnil]
        rfl
      have hpre : ∀ p ∈ pre k, (mlookup s.memo p).isSome = true := by
        intro p hp
        by_cases hpn : (mlookup s.memo p).isNone = true
        · have : p ∈ (pre k).filter (fun p => (mlookup s.memo p).isNone) :=
            List.mem_filter.mpr ⟨hp, hpn⟩
          rw [hμnil] at this
          exact absurd this (by simp)
        · rw [Option.isSome_iff_ne_none]
          intro hn
          exact hpn (by rw [hn]; rfl)
      cases hpi : popItem true
          ({ s2 with memo := s2.memo ++
              [(k, f k ((pre k).map (normalValue s2.memo)))] } : DState K V) with
      | error e1 =>
        have hne := popItem_error_groupSize true _ e1 hpi
        exact absurd hgz hne
      | ok s4 =>
        rw [hpi] at hbase
        simp only [] at hbase
        obtain ⟨_, hm4, hg4, _, _, hcases⟩ := popItem_ok true _ s4 hpi
        have hm4' : s4.memo = s2.memo ++
            [(k, f k ((pre k).map (normalValue s2.memo)))] := hm4
        have hg4' : s4.groupSize = s2.groupSize := hg4
        have hg40 : s4.groupSize = 0 := by rw [hg4']; exact hgz
        rcases hcases with ⟨habs2, _⟩ | ⟨it0, rest0, hseq, hi4, hset4⟩
        · have : s2.items = [] := habs2
          rw [his2] at this
          exact absurd this (by simp)
        · have hseq' : s2.items = it0 :: rest0 := hseq
          rw [his2] at hseq'
          simp only [List.cons.injEq] at hseq'
          have hi4' : s4.items = R := by rw [hi4, ← hseq'.2]
          have hset4' : s4.itemsSet = setErase s.itemsSet k := by
            have h0 : s4.itemsSet = setErase s2.itemsSet it0.key := hset4
            rw [h0, ← hseq'.1, hset2']
          have H := cinv_pop_publish pre L root s (finalizeGroup true s4)
            ⟨k, false⟩ R hinv hitems habs' hpre
            (f k ((pre k).map (normalValue s2.memo)))
            (by rw [(finalizeGroup_fields true s4).1, hm4', hm2'])
            (by rw [(finalizeGroup_fields true s4).2.1, hi4'])
            (by rw [finalizeGroup_set_zero true s4 hg40, hset4'])
            (finalizeGroup_fields true s4).2.2.1
          exact ⟨_, hbase, H.1, cmeasure_lt_of pre L s _ H.2.1 H.2.2⟩
    · -- some prerequisite is missing: expand
      rw [if_neg hgz] at hbase
      have hbk : (((pre k).filter (fun p => (mlookup s.memo p).isNone)).reverse.map
          (fun p => (⟨p, false⟩ : DItem K))).map DItem.key =
          ((pre k).filter (fun p => (mlookup s.memo p).isNone)).reverse := by
        rw [List.map_map]
        exact List.map_id'' (fun _ => rfl) _
      have hset'eq : (finalizeGroup true s2).itemsSet =
          ((pre k).filter (fun p => (mlookup s.memo p).isNone)).reverse.foldl
            setInsert s.itemsSet := by
        rw [finalizeGroup_set_block s2
          (((pre k).filter (fun p => (mlookup s.memo p).isNone)).reverse.map
            (fun p => (⟨p, false⟩ : DItem K))) (⟨k, true⟩ :: R) hi2'
          (by rw [List.length_map, List.length_reverse]; omega)]
        rw [hbk, hset2']
      have H := cinv_expand pre L root hL s (finalizeGroup true s2) ⟨k, false⟩ R
        ((pre k).filter (fun p => (mlookup s.memo p).isNone)) hinv hitems rfl habs'
        (fun p hp => (List.mem_filter.mp hp).1)
        (fun p hp => pushList_true_ok_notin _ _ s2 hps p hp)
        (fun p hp hpn => List.mem_filter.mpr ⟨hp, hpn⟩)
        (by rw [(finalizeGroup_fields true s2).1]; exact hm2')
        (by rw [(finalizeGroup_fields true s2).2.1]; exact hi2')
        (by
          intro j
          rw [hset'eq, mem_foldl_setInsert, List.mem_reverse])
        (by rw [hset'eq]; exact nodup_foldl_setInsert _ _ hinv.setNodup)
        (finalizeGroup_fields true s2).2.2.1
      have hkL : k ∈ L := hinv.stackL ⟨k, false⟩
        (by rw [hitems]; exact List.mem_cons_self _ _)
      exact ⟨finalizeGroup true s2, hbase, H.1,
        cmeasure_lt_expand pre L s _ _ H.2.1 H.2.2
          (Nat.le_trans (List.length_filter_le _ _)
            (length_pre_le_maxPre pre L k hkL))⟩

/-- One step with detection on, from any invariant state with a non-empty
stack, is good: it succeeds (keeping the invariant, decreasing the
measure) or raises a well-shaped `CircularDependency`. -/
theorem dstep_cinv [DecidableEq K] [Inhabited V] (pre : K → List K)
    (f : K → List V → V) (dm : Bool) (L : List K) (root : K)
    (hL : ∀ k ∈ L, ∀ p ∈ pre k, p ∈ L) (s : DState K V)
    (hne : s.items ≠ []) (hinv : CInv pre L root s) :
    DStepGood pre f dm L root s := by
  cases hi : s.items with
  | nil => exact absurd hi hne
  | cons it R =>
    obtain ⟨k, rd⟩ := it
    cases rd with
    | true => exact Or.inl (dstep_cinv_ready pre f dm L root s k R hi hinv)
    | false =>
      by_cases hfound : (mlookup s.memo k).isSome = true
      · exact Or.inl (dstep_cinv_flip pre f dm L root s k R hi hinv hfound)
      · cases dm with
        | true => exact dstep_cinv_declare pre f L root hL s k R hi hinv hfound
        | false => exact dstep_cinv_dry pre f L root hL s k R hi hinv hfound

/-- Running the loop with detection on, with fuel at least the measure,
from any invariant state: it completes on an empty stack or raises a
well-shaped `CircularDependency`; it never runs out of fuel. -/
theorem runLoop_cinv [DecidableEq K] [Inhabited V] (pre : K → List K)
    (f : K → List V → V) (dm : Bool) (L : List K) (root : K)
    (hL : ∀ k ∈ L, ∀ p ∈ pre k, p ∈ L) :
    ∀ (n : Nat) (s : DState K V), CInv pre L root s → cmeasure pre L s ≤ n →
      (∃ t, runLoop pre f dm true n s = .done t ∧ CInv pre L root t ∧
        t.items = []) ∨
      (∃ ks, runLoop pre f dm true n s = .err (.circular ks) ∧
        ks.head? = some root ∧ ∃ l x, ks = l ++ [x] ∧ x ∈ l) := by
  intro n
  induction n with
  | zero =>
    intro s hinv hm
    have hc : stackCost s.items = 0 := by
      have h0 : cmeasure pre L s = 0 := Nat.le_zero.mp hm
      rw [cmeasure] at h0
      omega
    have hnil : s.items = [] := stackCost_eq_zero _ hc
    left
    refine ⟨s, ?_, hinv, hnil⟩
    rw [runLoop, if_pos (by rw [hnil]; rfl)]
  | succ n ih =>
    intro s hinv hm
    by_cases hnil : s.items = []
    · left
      refine ⟨s, ?_, hinv, hnil⟩
      rw [runLoop, if_pos (by rw [hnil]; rfl)]
    · rcases dstep_cinv pre f dm L root hL s hnil hinv with
        ⟨s', hstep, hinv', hlt⟩ | ⟨ks, herr, hh, hr⟩
      · have hle : cmeasure pre L s' ≤ n := by omega
        rcases ih s' hinv' hle with ⟨t, hdone, hit, htnil⟩ | ⟨ks, he, hsh⟩
        · left
          refine ⟨t, ?_, hit, htnil⟩
          rw [runLoop, if_neg (by simpa using hnil), hstep]
          exact hdone
        · right
          refine ⟨ks, ?_, hsh⟩
          rw [runLoop, if_neg (by simpa using hnil), hstep]
          exact he
      · right
        refine ⟨ks, ?_, hh, hr⟩
        rw [runLoop, if_neg (by simpa using hnil), herr]

/-- C5: with circular-dependency detection enabled, running any dependency
graph (in either discovery mode, with any fuel large enough) whose root
can reach a key lying on a cycle raises `CircularDependency` instead of
completing or looping forever, and the carried `keysStack` is the thread's
key stack bottom-to-top at detection time: it starts at the root and ends
on a key that already occurs earlier in the stack. -/
theorem circular_dependency_detected [DecidableEq K] [Inhabited V]
    (pre : K → List K) (f : K → List V → V) (dm : Bool) (root : K)
    (L : List K) (hroot : root ∈ L) (hL : ∀ k ∈ L, ∀ p ∈ pre k, p ∈ L)
    (c : K) (hreach : Relation.ReflTransGen (fun a b : K => a ∈ pre b) c root)
    (hcyc : Relation.TransGen (fun a b : K => a ∈ pre b) c c) :
    ∃ n ks, runModel pre f dm true root n = .err (.circular ks) ∧
      ks.head? = some root ∧ ∃ l x, ks = l ++ [x] ∧ x ∈ l := by
  have hp0 : pushOne true (initialState : DState K V) root =
      .ok (⟨[], [⟨root, false⟩], [], 1, [], [root]⟩ : DState K V) := by
    rw [pushOne, if_pos rfl, if_neg (by simp [initialState])]
    rfl
  have hfin : finalizeGroup true
      (⟨[], [⟨root, false⟩], [], 1, [], [root]⟩ : DState K V) =
      (⟨[], [⟨root, false⟩], [root], 0, [], [root]⟩ : DState K V) := by
    rfl
  have hinit : CInv pre L root
      (⟨[], [⟨root, false⟩], [root], 0, [], [root]⟩ : DState K V) := by
    refine ⟨rfl, ?_, ?_, ?_, ?_, ?_, ?_, ?_, ?_, ?_⟩
    · intro bk hbk
      have h2 : some root = some bk := hbk
      simp only [Option.some.injEq] at h2
      exact h2.symm
    · intro j hj
      simpa using hj
    · simp
    · intro u hu
      have hu2 : u = ⟨root, false⟩ := by simpa using hu
      left
      rw [hu2]
      simp
    · intro b r a hba hr _ u _
      cases b with
      | nil =>
        simp only [List.nil_append, List.cons.injEq] at hba
        rw [← hba.1] at hr
        exact absurd hr (by simp)
      | cons y b' =>
        simp only [List.cons_append, List.cons.injEq] at hba
        exact absurd hba.2.symm (by simp)
    · intro u hu
      have hu2 : u = ⟨root, false⟩ := by simpa using hu
      rw [hu2]
      exact hroot
    · intro b r a hba hr _ p _
      cases b with
      | nil =>
        simp only [List.nil_append, List.cons.injEq] at hba
        rw [← hba.1] at hr
        exact absurd hr (by simp)
      | cons y b' =>
        simp only [List.cons_append, List.cons.injEq] at hba
        exact absurd hba.2.symm (by simp)
    · intro k v h
      simp [mlookup] at h
    · right
      simp
  rcases runLoop_cinv pre f dm L root hL
      (cmeasure pre L (⟨[], [⟨root, false⟩], [root], 0, [], [root]⟩ : DState K V))
      (⟨[], [⟨root, false⟩], [root], 0, [], [root]⟩ : DState K V) hinit le_rfl with
    ⟨t, hdone, hinv, hnil⟩ | ⟨ks, herr, hh, hr⟩
  · exfalso
    have hroot_some : (mlookup t.memo root).isSome = true := by
      rcases hinv.rootIn with h | h
      · exact h
      · rw [hnil] at h
        simp at h
    obtain ⟨v, hv⟩ := Option.isSome_iff_exists.mp hroot_some
    have haccroot : Acc (fun a b : K => a ∈ pre b) root := hinv.memoAcc root v hv
    exact acc_no_cycle (acc_of_reflTransGen hreach haccroot) hcyc
  · refine ⟨cmeasure pre L
      (⟨[], [⟨root, false⟩], [root], 0, [], [root]⟩ : DState K V), ks, ?_, hh, hr⟩
    rw [runModel, hp0]
    simp only []
    rw [hfin]
    exact herr

/-- The two-key cyclic graph `0 → 1 → 0` used as the concrete C5 witness. -/
def cycPre : Nat → List Nat := fun k => if k = 0 then [1] else [0]

/-- A compute function on the cyclic graph (its value is irrelevant: the
run raises before ever publishing). -/
def cycF : Nat → List Nat → Nat := fun _ _ => 0

/-- Witness for C5 on the two-key cycle, with explicit declaration, root
`0`: every hypothesis is discharged concretely. -/
theorem circular_dependency_detected_witness :
    ∃ n ks, runModel cycPre cycF true true 0 n = .err (.circular ks) ∧
      ks.head? = some 0 ∧ ∃ l x, ks = l ++ [x] ∧ x ∈ l :=
  circular_dependency_detected cycPre cycF true 0 [0, 1] (by decide)
    (by
      intro k hk p hp
      rw [cycPre] at hp
      fin_cases hk <;> simp_all)
    0 Relation.ReflTransGen.refl
    (Relation.TransGen.tail
      (Relation.TransGen.single (show (0 : Nat) ∈ cycPre 1 by rw [cycPre]; decide))
      (show (1 : Nat) ∈ cycPre 0 by rw [cycPre]; decide))

end Cppmemo
